import Mathlib

/-!
# Blob and byte encoders: a shallow embedding

The definitions below follow `src/util/byte_encoders.h`, `src/util/compare.h`,
`src/util/blob.h` and `src/util/blob.cc`.

Conventions of the embedding.

* A `Byte` (`typedef U8 Byte`) is a `Fin 256`; every C expression is evaluated
  on natural numbers and truncated with `toByte` where the C code stores it
  into a `Byte`.
* A `U64` is a natural number; arithmetic that can wrap is reduced modulo
  `U64_MOD = 2 ^ 64`.
* A function returns `Option`: `none` stands for undefined behaviour of the
  C++ code (an access outside an array or outside an allocation).
* `new Byte[n]` does not initialise the allocation.  Its initial content is a
  parameter `junk : Nat → Byte` (the byte found at each index).
* The arbitrary precision integers of GMP are natural numbers (the code never
  produces a negative value); each `mpz_*` function used by the source is
  defined after the GMP manual.
-/

namespace Util

/-! ## fixed_types.h -/

/-- The source type `Byte` (an alias of `uint8_t`). -/
abbrev Byte := Fin 256

/-- Conversion of an integer value to `Byte`, as done by a store into a `Byte`. -/
def toByte (n : Nat) : Byte := ⟨n % 256, Nat.mod_lt n (by decide)⟩

/-- The number of values of a `U64`. -/
def U64_MOD : Nat := 2 ^ 64

/-- The bytes of a C string literal. -/
def cstr (s : String) : List Byte := s.toList.map (fun c => toByte c.toNat)

/-! ## Allocation of output buffers -/

/-- The content of `new Byte[size]`: not initialised, so whatever `junk` holds. -/
def newBytes (junk : Nat → Byte) (size : Nat) : List Byte :=
  (List.range size).map junk

/-- The content of a buffer after the bytes `written` have been stored at its
indices `0, 1, ...` in order; `none` when a store falls outside the buffer. -/
def stored (buf written : List Byte) : Option (List Byte) :=
  if written.length ≤ buf.length then some (written ++ buf.drop written.length) else none

/-- The content of `MutableBlob out(outSize)` after the sequential stores `written`. -/
def MutableBlob_stored (junk : Nat → Byte) (outSize : Nat) (written : List Byte) :
    Option (List Byte) :=
  stored (newBytes junk outSize) written

/-! ## byte_encoders.h: binary -/

/-- The body of the loop of `encode_bin`: the eight characters of one byte. -/
def encode_bin_byte (d : Byte) : List Byte :=
  [ toByte (0x30 ||| (d.val >>> 7)),
    toByte (0x30 ||| ((d.val >>> 6) &&& 0x1)),
    toByte (0x30 ||| ((d.val >>> 5) &&& 0x1)),
    toByte (0x30 ||| ((d.val >>> 4) &&& 0x1)),
    toByte (0x30 ||| ((d.val >>> 3) &&& 0x1)),
    toByte (0x30 ||| ((d.val >>> 2) &&& 0x1)),
    toByte (0x30 ||| ((d.val >>> 1) &&& 0x1)),
    toByte (0x30 ||| (d.val &&& 0x1)) ]

/-- The loop of `encode_bin` over `data[0 .. size)`, appending to `output`. -/
def encode_bin_loop : List Byte → List Byte → List Byte
  | [], output => output
  | d :: rest, output => encode_bin_loop rest (output ++ encode_bin_byte d)

/-- The lambda `encode_bin`.  (`output.reserve` only sets a capacity.) -/
def encode_bin (data : List Byte) : List Byte :=
  encode_bin_loop data []

/-- The eight statements `out[i] = ...; out[i] |= ...` of `decode_bin`, from
the eight characters read. -/
def decode_bin_byte (d0 d1 d2 d3 d4 d5 d6 d7 : Byte) : Byte :=
  let o := toByte ((d0.val &&& 0x1) <<< 7)
  let o := toByte (o.val ||| ((d1.val &&& 0x1) <<< 6))
  let o := toByte (o.val ||| ((d2.val &&& 0x1) <<< 5))
  let o := toByte (o.val ||| ((d3.val &&& 0x1) <<< 4))
  let o := toByte (o.val ||| ((d4.val &&& 0x1) <<< 3))
  let o := toByte (o.val ||| ((d5.val &&& 0x1) <<< 2))
  let o := toByte (o.val ||| ((d6.val &&& 0x1) <<< 1))
  toByte (o.val ||| (d7.val &&& 0x1))

/-- The loop of `decode_bin`: `k` iterations are left, `inPos` is the read
position and `out` holds the bytes stored so far. -/
def decode_bin_loop (data : List Byte) : Nat → Nat → List Byte → Option (List Byte)
  | 0, _, out => some out
  | k + 1, inPos, out => do
    let d0 ← data[inPos]?
    let d1 ← data[inPos + 1]?
    let d2 ← data[inPos + 2]?
    let d3 ← data[inPos + 3]?
    let d4 ← data[inPos + 4]?
    let d5 ← data[inPos + 5]?
    let d6 ← data[inPos + 6]?
    let d7 ← data[inPos + 7]?
    decode_bin_loop data k (inPos + 8) (out ++ [decode_bin_byte d0 d1 d2 d3 d4 d5 d6 d7])

/-- The lambda `decode_bin`; `~0x7UL` is `0xFFFFFFFFFFFFFFF8`. -/
def decode_bin (junk : Nat → Byte) (data : List Byte) : Option (List Byte) := do
  let size := data.length &&& 0xFFFFFFFFFFFFFFF8
  let outSize := size / 8
  let written ← decode_bin_loop data outSize 0 []
  MutableBlob_stored junk outSize written

/-! ## byte_encoders.h: hexadecimal -/

/-- The table `hex` of `encode_hex`. -/
def hex : List Byte := cstr "0123456789ABCDEF"

/-- The loop of `encode_hex` over `data[0 .. size)`, appending to `output`. -/
def encode_hex_loop : List Byte → List Byte → Option (List Byte)
  | [], output => some output
  | d :: rest, output => do
    let c1 ← hex[d.val >>> 4]?
    let c2 ← hex[d.val &&& 0xf]?
    encode_hex_loop rest (output ++ [c1, c2])

/-- The lambda `encode_hex`. -/
def encode_hex (data : List Byte) : Option (List Byte) :=
  encode_hex_loop data []

/-- The statement `nib -= (nib > 0x40) ? 0x37 : 0x30` of `decode_hex`. -/
def decode_hex_nibble (nib : Byte) : Byte :=
  toByte (nib.val + 256 - (if nib.val > 0x40 then 0x37 else 0x30))

/-- The body of the loop of `decode_hex`: the byte stored for the two
characters read. -/
def decode_hex_byte (nib1 nib2 : Byte) : Byte :=
  let nib1 := decode_hex_nibble nib1
  let nib2 := decode_hex_nibble nib2
  toByte ((nib1.val <<< 4) ||| nib2.val)

/-- The loop of `decode_hex`: `k` iterations are left, `inPos` is the read
position and `out` holds the bytes stored so far. -/
def decode_hex_loop (data : List Byte) : Nat → Nat → List Byte → Option (List Byte)
  | 0, _, out => some out
  | k + 1, inPos, out => do
    let nib1 ← data[inPos]?
    let nib2 ← data[inPos + 1]?
    decode_hex_loop data k (inPos + 2) (out ++ [decode_hex_byte nib1 nib2])

/-- The lambda `decode_hex`; `~0x1UL` is `0xFFFFFFFFFFFFFFFE`. -/
def decode_hex (junk : Nat → Byte) (data : List Byte) : Option (List Byte) := do
  let size := data.length &&& 0xFFFFFFFFFFFFFFFE
  let outSize := size / 2
  let written ← decode_hex_loop data outSize 0 []
  MutableBlob_stored junk outSize written

/-! ## The GMP functions used by the base-58 and base-62 codecs

GMP is a library the source links against.  The definitions state what the
GMP manual documents for exactly the calls the source makes. -/

/-- The number of values of an `unsigned long` (64 bits, as on the LP64
platforms for which the source writes `U64` constants as `0x7UL`). -/
def ULONG_MOD : Nat := 2 ^ 64

/-- The call `mpz_import(n, size, 1, 1, 0, 0, data)`: the bytes of `data`, most
significant first, read as one unsigned integer. -/
def mpz_import (data : List Byte) : Nat :=
  data.foldl (fun n d => n * 256 + d.val) 0

/-- The call `mpz_get_ui(op)`: the value of `op` as an `unsigned long`; when
`op` does not fit, only the least significant bits that do fit are returned. -/
def mpz_get_ui (op : Nat) : Nat := op % ULONG_MOD

/-- The number of binary digits of `op` (`fuel` bounds the count). -/
def bit_count : Nat → Nat → Nat
  | 0, _ => 0
  | fuel + 1, op => if op = 0 then 0 else bit_count fuel (op / 2) + 1

/-- The call `mpz_sizeinbase(op, 2)`: the number of bits of `op`; the manual
states that the result is `1` when `op` is zero. -/
def mpz_sizeinbase_2 (op : Nat) : Nat :=
  if op = 0 then 1 else bit_count op op

/-- Big-endian bytes of `op` without leading zero byte (`fuel` bounds the
number of bytes), put in front of `acc`. -/
def mpz_export_aux : Nat → Nat → List Byte → List Byte
  | 0, _, acc => acc
  | fuel + 1, op, acc =>
    if op = 0 then acc else mpz_export_aux fuel (op / 256) (toByte (op % 256) :: acc)

/-- The call `mpz_export(rop, nullptr, 1, 1, 0, 0, op)`: the bytes it stores
at `rop`, most significant first, the first one non-zero; nothing is stored
when `op` is zero. -/
def mpz_export (op : Nat) : List Byte := mpz_export_aux op op []

/-! ## byte_encoders.h: base 58 and base 62 -/

/-- The loop that counts the leading bytes equal to `c` (it stops at the
first other byte). -/
def count_leading (c : Byte) : List Byte → Nat
  | [] => 0
  | d :: rest => if d = c then count_leading c rest + 1 else 0

/-- The alphabet `b58` of `encode_base58`. -/
def b58 : List Byte := cstr "123456789ABCDEFGHJKLMNPQRSTUVWXYZabcdefghijkmnopqrstuvwxyz"

/-- The division loop of `encode_base58`.  The first argument is `pos`, the
number of free bytes of `out` in front of the write position; `w` holds the
bytes `out[pos .. reserve)` already written.  Moving below `out` is `none`. -/
def encode_base58_div : Nat → Nat → List Byte → Option (Nat × List Byte)
  | 0, n, w => if mpz_get_ui n != 0 then none else some (0, w)
  | pos + 1, n, w =>
    if mpz_get_ui n != 0 then do
      let c ← b58[mpz_get_ui (n % 58)]?
      encode_base58_div pos (n / 58) (c :: w)
    else some (pos + 1, w)

/-- The loop of `encode_base58` that writes one `b58[0]` per leading zero
byte; the first argument counts the iterations left. -/
def encode_base58_zeros : Nat → Nat → List Byte → Option (Nat × List Byte)
  | 0, pos, w => some (pos, w)
  | _ + 1, 0, _ => none
  | k + 1, pos + 1, w => do
    let c ← b58[0]?
    encode_base58_zeros k pos (c :: w)

/-- The lambda `encode_base58`.  The result is the string of the
`encodedSize = &out[reserve] - pos` bytes that start at `pos`. -/
def encode_base58 (data : List Byte) : Option (List Byte) := do
  let size := data.length
  let leadingZeros := count_leading 0 data
  let reserve := ((size - leadingZeros) * 138 % U64_MOD / 100 + 1 + leadingZeros) % U64_MOD
  let n := mpz_import data
  let (pos, w) ← encode_base58_div reserve n []
  let (_, w) ← encode_base58_zeros leadingZeros pos w
  some w

/-- The chain of comparisons of `decode_base58` that maps a character to a digit. -/
def decode_base58_digit (n : Byte) : Byte :=
  if n.val > 0x6c then toByte (n.val + 256 - 0x41)
  else if n.val > 0x60 then toByte (n.val + 256 - 0x40)
  else if n.val > 0x4f then toByte (n.val + 256 - 0x3a)
  else if n.val > 0x49 then toByte (n.val + 256 - 0x39)
  else if n.val > 0x40 then toByte (n.val + 256 - 0x38)
  else toByte (n.val + 256 - 0x31)

/-- The lambda `decode_base58`. -/
def decode_base58 (junk : Nat → Byte) (data : List Byte) : Option (List Byte) := do
  let leadingZeros := count_leading (toByte ('1').toNat) data
  let p := data.foldl (fun p d => p * 58 + (decode_base58_digit d).val) 0
  let outSize := ((mpz_sizeinbase_2 p + 7) / 8 + leadingZeros) % U64_MOD
  MutableBlob_stored junk outSize (List.replicate leadingZeros 0 ++ mpz_export p)

/-- The alphabet `b62` of `encode_base62`. -/
def b62 : List Byte := cstr "0123456789ABCDEFGHIJKLMNOPQRSTUVWXYZabcdefghijklmnopqrstuvwxyz"

/-- The division loop of `encode_base62` (see `encode_base58_div`). -/
def encode_base62_div : Nat → Nat → List Byte → Option (Nat × List Byte)
  | 0, n, w => if mpz_get_ui n != 0 then none else some (0, w)
  | pos + 1, n, w =>
    if mpz_get_ui n != 0 then do
      let c ← b62[mpz_get_ui (n % 62)]?
      encode_base62_div pos (n / 62) (c :: w)
    else some (pos + 1, w)

/-- The loop of `encode_base62` that writes one `b62[0]` per leading zero byte. -/
def encode_base62_zeros : Nat → Nat → List Byte → Option (Nat × List Byte)
  | 0, pos, w => some (pos, w)
  | _ + 1, 0, _ => none
  | k + 1, pos + 1, w => do
    let c ← b62[0]?
    encode_base62_zeros k pos (c :: w)

/-- The lambda `encode_base62`. -/
def encode_base62 (data : List Byte) : Option (List Byte) := do
  let size := data.length
  let leadingZeros := count_leading 0 data
  let reserve := ((size - leadingZeros) * 137 % U64_MOD / 100 + 1 + leadingZeros) % U64_MOD
  let n := mpz_import data
  let (pos, w) ← encode_base62_div reserve n []
  let (_, w) ← encode_base62_zeros leadingZeros pos w
  some w

/-- The statement `n -= (n > 0x60) ? 0x3D : ((n > 0x40) ? 0x37 : 0x30)` of `decode_base62`. -/
def decode_base62_digit (n : Byte) : Byte :=
  toByte (n.val + 256 - (if n.val > 0x60 then 0x3D else if n.val > 0x40 then 0x37 else 0x30))

/-- The lambda `decode_base62`. -/
def decode_base62 (junk : Nat → Byte) (data : List Byte) : Option (List Byte) := do
  let leadingZeros := count_leading (toByte ('0').toNat) data
  let p := data.foldl (fun p d => p * 62 + (decode_base62_digit d).val) 0
  let outSize := ((mpz_sizeinbase_2 p + 7) / 8 + leadingZeros) % U64_MOD
  MutableBlob_stored junk outSize (List.replicate leadingZeros 0 ++ mpz_export p)

/-! ## byte_encoders.h: base 64 -/

/-- The alphabet `base64` of `encode_base64`. -/
def base64 : List Byte :=
  cstr "ABCDEFGHIJKLMNOPQRSTUVWXYZabcdefghijklmnopqrstuvwxyz0123456789+/"

/-- The four assignments to `array4` in `encode_base64`, from the local
array `array3` (a function of the index). -/
def encode_base64_array4 (array3 : Nat → Byte) : List Byte :=
  [ toByte (((array3 0).val &&& 0xfc) >>> 2),
    toByte ((((array3 0).val &&& 0x03) <<< 4) + (((array3 1).val &&& 0xf0) >>> 4)),
    toByte ((((array3 1).val &&& 0x0f) <<< 2) + (((array3 2).val &&& 0xc0) >>> 6)),
    toByte ((array3 2).val &&& 0x3f) ]

/-- The statements `output += base64[array4[j]]`, one for each of the given
entries of `array4`, in order. -/
def encode_base64_emit : List Byte → List Byte → Option (List Byte)
  | [], output => some output
  | a :: rest, output => do
    let c ← base64[a.val]?
    encode_base64_emit rest (output ++ [c])

/-- The loop `while (size--)` of `encode_base64`; the state is `i`, `array3`
and `output`. -/
def encode_base64_loop :
    List Byte → Nat → (Nat → Byte) → List Byte → Option (Nat × (Nat → Byte) × List Byte)
  | [], i, array3, output => some (i, array3, output)
  | d :: rest, i, array3, output =>
    let array3 := Function.update array3 i d
    let i := i + 1
    if i = 3 then do
      let output ← encode_base64_emit (encode_base64_array4 array3) output
      encode_base64_loop rest 0 array3 output
    else
      encode_base64_loop rest i array3 output

/-- The part of `encode_base64` after the loop (`if (i != 0) ...`), from the
state the loop ends in. -/
def encode_base64_flush : Nat × (Nat → Byte) × List Byte → Option (List Byte)
  | (i, array3, output) =>
    if i != 0 then
      let array3 : Nat → Byte := fun j => if i ≤ j ∧ j < 3 then 0 else array3 j
      encode_base64_emit ((encode_base64_array4 array3).take (i + 1)) output
    else
      some output

/-- The lambda `encode_base64`.  The local `array3` is not initialised; its
initial content is `junk3`. -/
def encode_base64 (junk3 : Nat → Byte) (data : List Byte) : Option (List Byte) := do
  let state ← encode_base64_loop data 0 junk3 []
  encode_base64_flush state

/-- The table `b64` of `decode_base64` (80 entries). -/
def b64 : List Byte :=
  [ 0x3E, 0xff, 0xff, 0xff, 0x3F, 0x34, 0x35, 0x36, 0x37, 0x38,
    0x39, 0x3A, 0x3B, 0x3C, 0x3D, 0xff, 0xff, 0xff, 0xff, 0xff,
    0xff, 0xff, 0x00, 0x01, 0x02, 0x03, 0x04, 0x05, 0x06, 0x07,
    0x08, 0x09, 0x0A, 0x0B, 0x0C, 0x0D, 0x0E, 0x0F, 0x10, 0x11,
    0x12, 0x13, 0x14, 0x15, 0x16, 0x17, 0x18, 0x19, 0xff, 0xff,
    0xff, 0xff, 0xff, 0xff, 0x1A, 0x1B, 0x1C, 0x1D, 0x1E, 0x1F,
    0x20, 0x21, 0x22, 0x23, 0x24, 0x25, 0x26, 0x27, 0x28, 0x29,
    0x2A, 0x2B, 0x2C, 0x2D, 0x2E, 0x2F, 0x30, 0x31, 0x32, 0x33 ]

/-- The statements `Byte A = *data++ - 0x2b; A = (A < 80) ? (Byte) b64[A] : 0x00`. -/
def decode_base64_char (d : Byte) : Option Byte :=
  let A := toByte (d.val + 256 - 0x2b)
  if A.val < 80 then b64[A.val]? else some 0x00

/-- The three stores `*out++ = ...` of one group of `decode_base64`. -/
def decode_base64_group (A B C D : Byte) : List Byte :=
  [ toByte ((A.val <<< 2) ||| (B.val >>> 4)),
    toByte ((B.val <<< 4) ||| (C.val >>> 2)),
    toByte ((C.val <<< 6) ||| D.val) ]

/-- The loop of `decode_base64` over the groups of four characters: `k`
groups are left, `pos` is the read position.  It returns the read position and
the bytes stored so far. -/
def decode_base64_loop (data : List Byte) : Nat → Nat → List Byte → Option (Nat × List Byte)
  | 0, pos, out => some (pos, out)
  | k + 1, pos, out => do
    let dA ← data[pos]?
    let dB ← data[pos + 1]?
    let dC ← data[pos + 2]?
    let dD ← data[pos + 3]?
    let A ← decode_base64_char dA
    let B ← decode_base64_char dB
    let C ← decode_base64_char dC
    let D ← decode_base64_char dD
    decode_base64_loop data k (pos + 4) (out ++ decode_base64_group A B C D)

/-- The part of `decode_base64` after the loop (`if (stragglers >= 2) ...`),
from the read position and the bytes stored by the loop. -/
def decode_base64_tail (junk : Nat → Byte) (data : List Byte) (outSize stragglers : Nat) :
    Nat × List Byte → Option (List Byte)
  | (pos, out) =>
    if stragglers ≥ 2 then do
      let dA ← data[pos]?
      let dB ← data[pos + 1]?
      let A ← decode_base64_char dA
      let B ← decode_base64_char dB
      let out := out ++ [toByte ((A.val <<< 2) ||| (B.val >>> 4))]
      if stragglers > 2 then do
        let dC ← data[pos + 2]?
        let C ← decode_base64_char dC
        MutableBlob_stored junk outSize (out ++ [toByte ((B.val <<< 4) ||| (C.val >>> 2))])
      else
        MutableBlob_stored junk outSize out
    else
      MutableBlob_stored junk outSize out

/-- The lambda `decode_base64`. -/
def decode_base64 (junk : Nat → Byte) (data : List Byte) : Option (List Byte) := do
  let size := data.length
  let groups := size >>> 2
  let stragglers := size &&& 0x3
  let outSize := (groups * 3) + (if stragglers ≥ 2 then stragglers - 1 else 0)
  let state ← decode_base64_loop data groups 0 []
  decode_base64_tail junk data outSize stragglers state

/-! ## blob.h: the data members of `Blob` -/

/-- The enumeration `Blob::ScrubType`. -/
inductive ScrubType where
  | NONE
  | ZEROS
deriving DecidableEq, Repr

/-- The enumeration `Blob::CompareType`. -/
inductive CompareType where
  | DEFAULT
  | CONST
deriving DecidableEq, Repr

/-- The enumeration `Blob::Comparison`. -/
inductive Comparison where
  | EQ
  | NE
deriving DecidableEq, Repr

/-- The values a `Blob::Comparator` holds in this program: one of the two
lambdas of `compare.h`. -/
inductive Comparator where
  | memcmp
  | constant
deriving DecidableEq, Repr

/-- A pointer to a byte: the allocation it points into and the offset in it. -/
structure Ptr where
  block : Nat
  off : Nat
deriving DecidableEq, Repr

/-- The memory: the bytes of each allocation. -/
abbrev Heap := Nat → List Byte

/-- The byte `p[i]`.  A read outside the allocation (undefined in C++) is
given the value `0` here. -/
def Heap.read (h : Heap) (p : Ptr) (i : Nat) : Byte :=
  (h p.block).getD (p.off + i) 0

/-- The data members of `Blob`.  `container_` names the allocation of the
shared `Container`; `comparator_` is the bound comparison function. -/
structure Blob where
  container_ : Nat
  scrubType_ : ScrubType
  compareType_ : CompareType
  comparator_ : Comparator
  data_ : Ptr
  size_ : Nat
deriving DecidableEq, Repr

/-- The accessor `Blob::data() const`. -/
def Blob.data (a : Blob) : Ptr := a.data_

/-- The accessor `Blob::size() const`. -/
def Blob.size (a : Blob) : Nat := a.size_

/-- The operator `Blob::operator[]`: `data_[_index]`, without bounds check. -/
def Blob.index (h : Heap) (a : Blob) (i : Nat) : Byte := h.read a.data_ i

/-! ## compare.h -/

/-- The C library function `memcmp` on `s1[i ..]` and `s2[i ..]`, `k` bytes:
zero when they agree, else the difference of the first two bytes that differ. -/
def memcmp_from (s1 s2 : Nat → Byte) : Nat → Nat → Int
  | 0, _ => 0
  | k + 1, i =>
    if s1 i ≠ s2 i then ((s1 i).val : Int) - ((s2 i).val : Int)
    else memcmp_from s1 s2 k (i + 1)

/-- The C library function `memcmp(s1, s2, n)`. -/
def memcmp (s1 s2 : Nat → Byte) (n : Nat) : Int := memcmp_from s1 s2 n 0

/-- The lambda `compare_memcmp`; the `int` returned by `memcmp` converts to
`true` when it is not zero. -/
def compare_memcmp (h : Heap) (a b : Blob) : Bool :=
  if a.size ≠ b.size then true
  else decide (memcmp (h.read a.data) (h.read b.data) a.size ≠ 0)

/-- The 64-bit word `wp[w]` read through a `const U64 *` that aliases the
bytes `p` (least significant byte first). -/
def load_U64 (p : Nat → Byte) (w : Nat) : Nat :=
  (p (8 * w)).val + (p (8 * w + 1)).val * 2 ^ 8 + (p (8 * w + 2)).val * 2 ^ 16
    + (p (8 * w + 3)).val * 2 ^ 24 + (p (8 * w + 4)).val * 2 ^ 32
    + (p (8 * w + 5)).val * 2 ^ 40 + (p (8 * w + 6)).val * 2 ^ 48
    + (p (8 * w + 7)).val * 2 ^ 56

/-- The lambda `compare_constant`; the `U64` accumulator converts to `true`
when it is not zero. -/
def compare_constant (h : Heap) (a b : Blob) : Bool :=
  let size_bytes := a.size
  if size_bytes ≠ b.size then true
  else
    let ap := h.read a.data
    let bp := h.read b.data
    let size_words := size_bytes >>> 3
    let result := (List.range size_words).foldl
      (fun result i => result ||| (load_U64 ap i ^^^ load_U64 bp i)) 0
    let offset := size_words * 8
    let result := (List.range' offset (size_bytes - offset)).foldl
      (fun result i => result ||| ((ap i).val ^^^ (bp i).val)) result
    decide (result ≠ 0)

/-! ## blob.cc: comparison -/

/-- The function `Blob::comparatorForType`. -/
def Blob.comparatorForType (compareType : CompareType) : Comparator :=
  if compareType = CompareType.DEFAULT then Comparator.memcmp else Comparator.constant

/-- A call of a `Comparator`. -/
def Comparator.call (c : Comparator) (h : Heap) (a b : Blob) : Bool :=
  match c with
  | Comparator.memcmp => compare_memcmp h a b
  | Comparator.constant => compare_constant h a b

/-- The operator `Blob::operator!=`: `comparator_(*this, _other)`. -/
def Blob.operator_ne (h : Heap) (a other : Blob) : Bool :=
  a.comparator_.call h a other

/-- The operator `Blob::operator==`: `!operator!=(_other)`. -/
def Blob.operator_eq (h : Heap) (a other : Blob) : Bool :=
  !(a.operator_ne h other)

/-- The method `Blob::compare`. -/
def Blob.compare (h : Heap) (a other : Blob) (compareType : CompareType) : Comparison :=
  let cmp := Blob.comparatorForType compareType
  if cmp.call h a other then Comparison.NE else Comparison.EQ

/-! ## container.h -/

/-- The values a `Container::ScrubType` holds in this program: one of the two
lambdas of `container.h`. -/
inductive Scrubber where
  | null
  | zeros
deriving DecidableEq, Repr

/-- The store `vword[w] = v` through a `volatile U64 *` that aliases the bytes
of `data` (least significant byte first); `none` when the word does not lie
inside the buffer. -/
def store_U64 (data : List Byte) (w v : Nat) : Option (List Byte) :=
  if 8 * w + 8 ≤ data.length then
    some (data.take (8 * w) ++ (List.range 8).map (fun j => toByte (v >>> (8 * j)))
      ++ data.drop (8 * w + 8))
  else none

/-- The store `data[i] = v` of one byte; `none` when `i` is outside the buffer. -/
def store_Byte (data : List Byte) (i : Nat) (v : Byte) : Option (List Byte) :=
  if i < data.length then some (data.set i v) else none

/-- The first loop of `scrub_zeros`, `vword[i] = 0L`: `k` iterations are left. -/
def scrub_zeros_words : Nat → Nat → List Byte → Option (List Byte)
  | 0, _, data => some data
  | k + 1, i, data => do
    let data ← store_U64 data i 0
    scrub_zeros_words k (i + 1) data

/-- The second loop of `scrub_zeros`, `vbyte[i] = 0` with `vbyte = &data[start]`:
`k` iterations are left. -/
def scrub_zeros_bytes (start : Nat) : Nat → Nat → List Byte → Option (List Byte)
  | 0, _, data => some data
  | k + 1, i, data => do
    let data ← store_Byte data (start + i) 0
    scrub_zeros_bytes start k (i + 1) data

/-- The lambda `scrub_zeros`, on the buffer that starts at `data`.  (No step of
the `U64` arithmetic can wrap: `8 * words ≤ size` and `bytes ≤ size`.) -/
def scrub_zeros (data : List Byte) (size : Nat) : Option (List Byte) := do
  let words := size / 8
  let bytes := size - (8 * words)
  let data ← scrub_zeros_words words 0 data
  scrub_zeros_bytes (size - bytes) bytes 0 data

/-- The lambda `scrub_null`. -/
def scrub_null (data : List Byte) (_size : Nat) : Option (List Byte) := some data

/-- A call of a `Container::ScrubType`. -/
def Scrubber.call (s : Scrubber) (data : List Byte) (size : Nat) : Option (List Byte) :=
  match s with
  | Scrubber.null => scrub_null data size
  | Scrubber.zeros => scrub_zeros data size

/-! ## The memory of containers

A `Container` owns one allocation and is held through `std::shared_ptr`.  The
state records, for every allocation, its bytes, the `scrubber_` of its
`Container` and the use count of the shared pointer; `next` is the allocation
that the following `new` returns. -/

/-- The state of the memory. -/
structure Memory where
  heap : Heap
  scrubber : Nat → Scrubber
  refs : Nat → Nat
  next : Nat

/-- The null pointer (allocation `0` is never returned by `new`). -/
def nullptr : Ptr := ⟨0, 0⟩

/-- The pointer `&p[k]`. -/
def Ptr.add (p : Ptr) (k : Nat) : Ptr := ⟨p.block, p.off + k⟩

/-- The call `make_shared<Container>(size, scrubber)`: the constructor
`Container::Container` allocates `new Byte[size]` and leaves its content as it
is; one shared pointer owns the container. -/
def Memory.make_shared_Container (m : Memory) (junk : Nat → Byte) (size : Nat)
    (scrubber : Scrubber) : Memory × Nat :=
  ({ heap := Function.update m.heap m.next (newBytes junk size),
     scrubber := Function.update m.scrubber m.next scrubber,
     refs := Function.update m.refs m.next 1,
     next := m.next + 1 }, m.next)

/-- A copy of a `shared_ptr<Container>`: one more owner. -/
def Memory.retain (m : Memory) (c : Nat) : Memory :=
  { m with refs := Function.update m.refs c (m.refs c + 1) }

/-- The destructor `Container::~Container`: it runs the scrubber on the whole
allocation and frees it. -/
def Memory.destroy_Container (m : Memory) (c : Nat) : Option Memory := do
  let data ← (m.scrubber c).call (m.heap c) (m.heap c).length
  some { m with heap := Function.update m.heap c data, refs := Function.update m.refs c 0 }

/-- The end of a `shared_ptr<Container>`: the last owner destroys the container. -/
def Memory.release (m : Memory) (c : Nat) : Option Memory :=
  if m.refs c ≤ 1 then m.destroy_Container c
  else some { m with refs := Function.update m.refs c (m.refs c - 1) }

/-- The call `memcpy(dst, src, n)`; `none` when the destination range is not
inside its allocation. -/
def Memory.memcpy (m : Memory) (dst src : Ptr) (n : Nat) : Option Memory :=
  if dst.off + n ≤ (m.heap dst.block).length then
    let data := (m.heap dst.block).take dst.off ++ (List.range n).map (m.heap.read src)
      ++ (m.heap dst.block).drop (dst.off + n)
    some { m with heap := Function.update m.heap dst.block data }
  else none

/-! ## blob.cc: constructors and methods -/

/-- The function `Blob::scrubberForType`. -/
def Blob.scrubberForType (scrubType : ScrubType) : Scrubber :=
  if scrubType = ScrubType.ZEROS then Scrubber.zeros else Scrubber.null

/-- The accessor `Blob::scrubType`. -/
def Blob.scrubType (a : Blob) : ScrubType := a.scrubType_

/-- The accessor `Blob::compareType`. -/
def Blob.compareType (a : Blob) : CompareType := a.compareType_

/-- The bytes that the pair `(data_, size_)` of a view denotes. -/
def Blob.bytes (h : Heap) (a : Blob) : List Byte :=
  (List.range a.size_).map (h.read a.data_)

/-- The constructor `Blob::Blob(U64, ScrubType, CompareType)`. -/
def Blob.ctor_size (m : Memory) (junk : Nat → Byte) (size : Nat) (scrubType : ScrubType)
    (compareType : CompareType) : Memory × Blob :=
  let (m, c) := m.make_shared_Container junk size (Blob.scrubberForType scrubType)
  (m, { container_ := c, scrubType_ := scrubType, compareType_ := compareType,
        comparator_ := Blob.comparatorForType compareType,
        data_ := ⟨c, 0⟩, size_ := (m.heap c).length })

/-- The constructor `Blob::Blob(const Byte *, U64, ScrubType, CompareType)`;
`stream` points into the memory. -/
def Blob.ctor_stream (m : Memory) (junk : Nat → Byte) (stream : Ptr) (size : Nat)
    (scrubType : ScrubType) (compareType : CompareType) : Option (Memory × Blob) := do
  let (m, c) := m.make_shared_Container junk size (Blob.scrubberForType scrubType)
  let size_ := (m.heap c).length
  let m ← m.memcpy ⟨c, 0⟩ stream (m.heap c).length
  some (m, { container_ := c, scrubType_ := scrubType, compareType_ := compareType,
             comparator_ := Blob.comparatorForType compareType,
             data_ := ⟨c, 0⟩, size_ := size_ })

/-- The subtraction of two `U64` values. -/
def U64_sub (a b : Nat) : Nat := (a + U64_MOD - b) % U64_MOD

/-- The data members set by `Blob::Blob(const Blob &, U64, U64)`.  The
constructor does not set `compareType_`; its value is the parameter
`junkCompare`. -/
def Blob.subset (other : Blob) (size offset : Nat) (junkCompare : CompareType) : Blob :=
  let offset := if offset > other.size_ then other.size_ else offset
  let size := if size > U64_sub other.size_ offset then U64_sub other.size_ offset else size
  { container_ := other.container_, scrubType_ := other.scrubType_,
    compareType_ := junkCompare, comparator_ := other.comparator_,
    data_ := other.data_.add offset, size_ := size }

/-- The constructor `Blob::Blob(const Blob &, U64, U64)`: the shared pointer is
copied, no byte is. -/
def Blob.ctor_subset (m : Memory) (other : Blob) (size offset : Nat)
    (junkCompare : CompareType) : Memory × Blob :=
  (m.retain other.container_, other.subset size offset junkCompare)

/-- The defaulted copy constructor `Blob::Blob(const Blob &)`: every member
is copied, the shared pointer included. -/
def Blob.copy (m : Memory) (other : Blob) : Memory × Blob :=
  (m.retain other.container_,
   { container_ := other.container_, scrubType_ := other.scrubType_,
     compareType_ := other.compareType_, comparator_ := other.comparator_,
     data_ := other.data_, size_ := other.size_ })

/-- The destructor of a `Blob`: its shared pointer ends. -/
def Blob.destroy (m : Memory) (a : Blob) : Option Memory := m.release a.container_

/-- The first loop of the list constructor, `for (auto blob : _blobs)
size_ += blob.size()`; each element is copied into `blob` and the copy is
destroyed at the end of the iteration. -/
def Blob.ctor_list_size : List Blob → Memory → Nat → Option (Memory × Nat)
  | [], m, size_ => some (m, size_)
  | b :: rest, m, size_ => do
    let (m, blob) := Blob.copy m b
    let size_ := (size_ + blob.size) % U64_MOD
    let m ← blob.destroy m
    Blob.ctor_list_size rest m size_

/-- The second loop of the list constructor: `memcpy(&mdata[offset],
blob.data(), blob.size()); offset += blob.size()`. -/
def Blob.ctor_list_copy (mdata : Ptr) : List Blob → Memory → Nat → Option Memory
  | [], m, _ => some m
  | b :: rest, m, offset => do
    let (m, blob) := Blob.copy m b
    let m ← m.memcpy (mdata.add offset) blob.data blob.size
    let offset := (offset + blob.size) % U64_MOD
    let m ← blob.destroy m
    Blob.ctor_list_copy mdata rest m offset

/-- The constructor `Blob::Blob(std::initializer_list<Blob>, ScrubType,
CompareType)`. -/
def Blob.ctor_list (m : Memory) (junk : Nat → Byte) (blobs : List Blob)
    (scrubType : ScrubType) (compareType : CompareType) : Option (Memory × Blob) := do
  let (m, size_) ← Blob.ctor_list_size blobs m 0
  let (m, c) := m.make_shared_Container junk size_ (Blob.scrubberForType scrubType)
  let mdata : Ptr := ⟨c, 0⟩
  let m ← Blob.ctor_list_copy mdata blobs m 0
  some (m, { container_ := c, scrubType_ := scrubType, compareType_ := compareType,
             comparator_ := Blob.comparatorForType compareType,
             data_ := mdata, size_ := size_ })

/-- The method `Blob::dataIs(const Byte *, U64, ScrubType, CompareType)`: the
new container is made, the assignment to `container_` ends the old shared
pointer, and the bytes are copied last. -/
def Blob.dataIs (m : Memory) (junk : Nat → Byte) (a : Blob) (stream : Ptr) (size : Nat)
    (scrubType : ScrubType) (compareType : CompareType) : Option (Memory × Blob) := do
  let (m, c) := m.make_shared_Container junk size (Blob.scrubberForType scrubType)
  let m ← m.release a.container_
  let size_ := (m.heap c).length
  let m ← m.memcpy ⟨c, 0⟩ stream (m.heap c).length
  some (m, { container_ := c, scrubType_ := scrubType, compareType_ := compareType,
             comparator_ := Blob.comparatorForType compareType,
             data_ := ⟨c, 0⟩, size_ := size_ })

/-- The method `Blob::dataIsNull`.  It assigns `container_`, `scrubType_`,
`comparator_`, `data_` and `size_`; `compareType_` keeps its value. -/
def Blob.dataIsNull (m : Memory) (junk : Nat → Byte) (a : Blob) : Option (Memory × Blob) := do
  let (m, c) := m.make_shared_Container junk 0 (Blob.scrubberForType ScrubType.NONE)
  let m ← m.release a.container_
  some (m, { container_ := c, scrubType_ := ScrubType.NONE, compareType_ := a.compareType_,
             comparator_ := Blob.comparatorForType CompareType.DEFAULT,
             data_ := nullptr, size_ := 0 })

/-- The method `Blob::data(Encoder) const`: `_encoder(data_, size_)`. -/
def Blob.data_encoded {α : Type} (h : Heap) (a : Blob) (encoder : List Byte → α) : α :=
  encoder (a.bytes h)

/-! ## blob.cc: `MutableBlob` -/

/-- The class `MutableBlob`, derived from `Blob` without new data members. -/
structure MutableBlob extends Blob

/-- The constructor `MutableBlob::MutableBlob(U64, ScrubType, CompareType)`. -/
def MutableBlob.ctor_size (m : Memory) (junk : Nat → Byte) (size : Nat) (scrubType : ScrubType)
    (compareType : CompareType) : Memory × MutableBlob :=
  let (m, b) := Blob.ctor_size m junk size scrubType compareType
  (m, ⟨b⟩)

/-- The constructor `MutableBlob::MutableBlob(const Byte *, U64, ScrubType,
CompareType)`. -/
def MutableBlob.ctor_stream (m : Memory) (junk : Nat → Byte) (stream : Ptr) (size : Nat)
    (scrubType : ScrubType) (compareType : CompareType) : Option (Memory × MutableBlob) := do
  let (m, b) ← Blob.ctor_stream m junk stream size scrubType compareType
  some (m, ⟨b⟩)

/-- The constructor `MutableBlob::MutableBlob(const Blob &, ScrubType,
CompareType)`: it delegates to the one above with `_other.data()` and
`_other.size()`. -/
def MutableBlob.ctor_Blob (m : Memory) (junk : Nat → Byte) (other : Blob)
    (scrubType : ScrubType) (compareType : CompareType) : Option (Memory × MutableBlob) :=
  MutableBlob.ctor_stream m junk other.data other.size scrubType compareType

/-- The pointer returned by `MutableBlob::data()`: `container_->data()`. -/
def MutableBlob.data (mb : MutableBlob) : Ptr := ⟨mb.container_, 0⟩

/-- A read of `MutableBlob::operator[]`: `container_->data()[_index]`. -/
def MutableBlob.index (m : Memory) (mb : MutableBlob) (index : Nat) : Byte :=
  m.heap.read mb.data index

/-- A write `mb[_index] = x` through `MutableBlob::operator[]` (or through
`mb.data()`); `none` when the index is outside the allocation. -/
def MutableBlob.set (m : Memory) (mb : MutableBlob) (index : Nat) (x : Byte) : Option Memory := do
  let data ← store_Byte (m.heap mb.container_) index x
  some { m with heap := Function.update m.heap mb.container_ data }

/-- A `Blob` constructed from a `MutableBlob`, as in `Blob b7(b6)`: the
defaulted copy constructor of `Blob` is the one selected. -/
def Blob.ctor_MutableBlob (m : Memory) (mb : MutableBlob) : Memory × Blob :=
  Blob.copy m mb.toBlob

/-! ## Well-formed views -/

/-- A view of the memory `m`: its container exists and is owned, and its
window lies inside the container's allocation, or it is the empty view with a
null pointer. -/
def Blob.valid (m : Memory) (a : Blob) : Prop :=
  a.container_ < m.next ∧ 1 ≤ m.refs a.container_
    ∧ ((a.data_ = nullptr ∧ a.size_ = 0)
      ∨ (a.data_.block = a.container_
        ∧ a.data_.off + a.size_ ≤ (m.heap a.container_).length))

/-- A `MutableBlob` of the memory `m`: a view of its whole container. -/
def MutableBlob.valid (m : Memory) (mb : MutableBlob) : Prop :=
  mb.container_ < m.next ∧ 1 ≤ m.refs mb.container_
    ∧ mb.data_ = ⟨mb.container_, 0⟩ ∧ mb.size_ = (m.heap mb.container_).length

/-! ## The text formats as the specification words them -/

/-- The uppercase hexadecimal digit of a value below 16, as a character. -/
def hex_digit_char (v : Nat) : Byte :=
  if v < 10 then toByte (('0').toNat + v) else toByte (('A').toNat + (v - 10))

/-- Two uppercase hexadecimal digits per byte, high nibble first. -/
def hex_text (b : List Byte) : List Byte :=
  b.flatMap (fun d => [hex_digit_char (d.val / 16), hex_digit_char (d.val % 16)])

/-- The character `'0'` or `'1'` of bit `k` of a byte. -/
def bin_digit_char (d : Byte) (k : Nat) : Byte :=
  if d.val.testBit k then toByte ('1').toNat else toByte ('0').toNat

/-- Eight characters `'0'`/`'1'` per byte, most significant bit first. -/
def bin_text (b : List Byte) : List Byte :=
  b.flatMap (fun d => [bin_digit_char d 7, bin_digit_char d 6, bin_digit_char d 5,
    bin_digit_char d 4, bin_digit_char d 3, bin_digit_char d 2, bin_digit_char d 1,
    bin_digit_char d 0])

/-- The character of a 6-bit value in the standard base-64 alphabet. -/
def b64_char (v : Nat) : Byte := base64.getD v 0

/-- The four characters of three bytes: their 24 bits cut into four 6-bit
values, most significant first. -/
def b64_quad (x y z : Byte) : List Byte :=
  [ b64_char (x.val / 4), b64_char (x.val % 4 * 16 + y.val / 16),
    b64_char (y.val % 16 * 4 + z.val / 64), b64_char (z.val % 64) ]

/-- Base-64 text without padding: four characters per three bytes, then two
characters for one byte left over or three characters for two bytes left over. -/
def b64_text : List Byte → List Byte
  | x :: y :: z :: rest => b64_quad x y z ++ b64_text rest
  | [x, y] => (b64_quad x y 0).take 3
  | [x] => (b64_quad x 0 0).take 2
  | [] => []

/-- The value of a byte sequence read as one big-endian unsigned integer. -/
def be_value (b : List Byte) : Nat :=
  b.foldl (fun n d => 256 * n + d.val) 0

/-- The digits of `n` in base `radix`, most significant first, put in front of
`acc`; no digit for zero (`fuel` bounds the number of digits). -/
def radix_digits_aux (radix : Nat) : Nat → Nat → List Nat → List Nat
  | 0, _, acc => acc
  | fuel + 1, n, acc =>
    if n = 0 then acc else radix_digits_aux radix fuel (n / radix) (n % radix :: acc)

/-- All digits of `n` in base `radix`, most significant first (none for zero):
the division is repeated until the quotient is zero. -/
def radix_digits (radix n : Nat) : List Nat := radix_digits_aux radix n n []

/-- The reference base-58 conversion: one `'1'` per leading zero byte, then all
base-58 digits of the big-endian value, each written with the alphabet. -/
def base58_reference (b : List Byte) : List Byte :=
  List.replicate (b.takeWhile (fun d => d = 0)).length (toByte ('1').toNat)
    ++ (radix_digits 58 (be_value b)).map
        (fun d => (cstr "123456789ABCDEFGHJKLMNPQRSTUVWXYZabcdefghijkmnopqrstuvwxyz").getD d 0)

/-! ## Auxiliary definitions of the proofs -/

/-- The list `H` with the bytes `B` written over it from index `offset` on. -/
def splice (H : List Byte) (offset : Nat) (B : List Byte) : List Byte :=
  H.take offset ++ B ++ H.drop (offset + B.length)

/-! ## compare.h: the steps of `compare_constant` -/

/-- A step of `compare_constant` as an observer of its control flow sees it:
which statement runs, and on which word or byte index. -/
inductive Step where
  /-- The statement `return true` taken when the sizes differ. -/
  | size_mismatch
  /-- One iteration `result |= *awp++ ^ *bwp++` of the word loop, on word `i`. -/
  | word (i : Nat)
  /-- One iteration `result |= (U64) *ap++ ^ (U64) *bp++` of the byte loop, on byte `i`. -/
  | byte (i : Nat)
  /-- The statement `return result` after both loops. -/
  | ret
deriving DecidableEq, Repr

/-- The lambda `compare_constant` again, with the list of the steps it runs
next to every value of `result`. -/
def compare_constant_steps (h : Heap) (a b : Blob) : Bool × List Step :=
  let size_bytes := a.size
  if size_bytes ≠ b.size then (true, [Step.size_mismatch])
  else
    let ap := h.read a.data
    let bp := h.read b.data
    let size_words := size_bytes >>> 3
    let s := (List.range size_words).foldl
      (fun s i => (s.1 ||| (load_U64 ap i ^^^ load_U64 bp i), s.2 ++ [Step.word i]))
      ((0 : Nat), ([] : List Step))
    let offset := size_words * 8
    let s := (List.range' offset (size_bytes - offset)).foldl
      (fun s i => (s.1 ||| ((ap i).val ^^^ (bp i).val), s.2 ++ [Step.byte i])) s
    (decide (s.1 ≠ 0), s.2 ++ [Step.ret])

/-! ## Closed forms of the decoding loops -/

/-- Membership of a character in the standard base-64 alphabet
`A-Z a-z 0-9 + /`. -/
def base64_alphabet (c : Byte) : Bool :=
  (decide (('A').toNat ≤ c.val) && decide (c.val ≤ ('Z').toNat))
    || (decide (('a').toNat ≤ c.val) && decide (c.val ≤ ('z').toNat))
    || (decide (('0').toNat ≤ c.val) && decide (c.val ≤ ('9').toNat))
    || decide (c.val = ('+').toNat) || decide (c.val = ('/').toNat)

/-- The bytes `decode_hex` stores: one per pair of characters, a single
character at the end giving none. -/
def hex_pairs : List Byte → List Byte
  | a :: b :: rest => decode_hex_byte a b :: hex_pairs rest
  | [_] => []
  | [] => []

/-- The value `decode_base64` gives to a character: its table entry, or zero
for a character outside the table. -/
def b64_value (d : Byte) : Byte := (decode_base64_char d).getD 0

/-- The bytes `decode_base64` stores: three per group of four characters, then
one byte for two characters left over or two bytes for three left over, and
none for a single character left over. -/
def b64_bytes : List Byte → List Byte
  | a :: b :: c :: d :: rest =>
    decode_base64_group (b64_value a) (b64_value b) (b64_value c) (b64_value d) ++ b64_bytes rest
  | [a, b, c] => (decode_base64_group (b64_value a) (b64_value b) (b64_value c) 0).take 2
  | [a, b] => (decode_base64_group (b64_value a) (b64_value b) 0 0).take 1
  | [_] => []
  | [] => []

/-! # Theorems -/

/-! ### general lemmas -/

theorem stored_full (junk : Nat → Byte) (n : Nat) (w : List Byte) (h : w.length = n) :
    MutableBlob_stored junk n w = some w := by
  simp [MutableBlob_stored, stored, newBytes, h]

theorem and_mask_low (k n : Nat) (hk : k ≤ 64) (h : n < 2 ^ 64) :
    n &&& ((2 ^ (64 - k) - 1) <<< k) = (n >>> k) <<< k := by
  apply Nat.eq_of_testBit_eq
  intro i
  simp only [Nat.testBit_and, Nat.testBit_shiftLeft, Nat.testBit_shiftRight,
    Nat.testBit_two_pow_sub_one]
  by_cases hik : k ≤ i
  · have e : k + (i - k) = i := by omega
    rw [e]
    by_cases hi : i < 64
    · have : i - k < 64 - k := by omega
      simp [hik, this]
    · have hn : n.testBit i = false :=
        Nat.testBit_lt_two_pow (lt_of_lt_of_le h (Nat.pow_le_pow_right (by decide) (by omega)))
      simp [hn]
  · simp [hik]

theorem and_not_1 (n : Nat) (h : n < 2 ^ 64) : n &&& 0xFFFFFFFFFFFFFFFE = n - n % 2 := by
  have e : (2 ^ (64 - 1) - 1) <<< 1 = 0xFFFFFFFFFFFFFFFE := by decide
  have h1 := and_mask_low 1 n (by decide) h
  rw [e, Nat.shiftRight_eq_div_pow, Nat.shiftLeft_eq] at h1
  rw [h1]; omega

theorem and_not_7 (n : Nat) (h : n < 2 ^ 64) : n &&& 0xFFFFFFFFFFFFFFF8 = n - n % 8 := by
  have e : (2 ^ (64 - 3) - 1) <<< 3 = 0xFFFFFFFFFFFFFFF8 := by decide
  have h1 := and_mask_low 3 n (by decide) h
  rw [e, Nat.shiftRight_eq_div_pow, Nat.shiftLeft_eq] at h1
  rw [h1]; omega

theorem getElem?_append_add {α : Type} (pre l : List α) (j : Nat) :
    (pre ++ l)[pre.length + j]? = l[j]? := by
  rw [List.getElem?_append_right (by omega)]
  congr 1; omega

theorem getElem?_append_zero {α : Type} (pre l : List α) :
    (pre ++ l)[pre.length]? = l[0]? := getElem?_append_add pre l 0

/-! ### hex -/

set_option maxRecDepth 100000 in
theorem hex_hi : ∀ d : Byte, hex[d.val >>> 4]? = some (hex_digit_char (d.val / 16)) := by decide

set_option maxRecDepth 100000 in
theorem hex_lo : ∀ d : Byte, hex[d.val &&& 0xf]? = some (hex_digit_char (d.val % 16)) := by decide

theorem hex_text_cons (d : Byte) (rest : List Byte) :
    hex_text (d :: rest)
      = hex_digit_char (d.val / 16) :: hex_digit_char (d.val % 16) :: hex_text rest := by
  simp [hex_text]

theorem hex_text_length (b : List Byte) : (hex_text b).length = 2 * b.length := by
  induction b with
  | nil => rfl
  | cons d rest ih => rw [hex_text_cons]; simp only [List.length_cons, ih]; omega

theorem encode_hex_loop_eq (data output : List Byte) :
    encode_hex_loop data output = some (output ++ hex_text data) := by
  induction data generalizing output with
  | nil => simp [encode_hex_loop, hex_text]
  | cons d rest ih =>
    simp only [encode_hex_loop, hex_hi, hex_lo, Option.bind_eq_bind, Option.some_bind, ih,
      hex_text_cons]
    simp

set_option maxRecDepth 100000 in
theorem decode_hex_byte_hex : ∀ d : Byte,
    decode_hex_byte (hex_digit_char (d.val / 16)) (hex_digit_char (d.val % 16)) = d := by decide

theorem decode_hex_loop_eq (bs pre out : List Byte) :
    decode_hex_loop (pre ++ hex_text bs) bs.length pre.length out = some (out ++ bs) := by
  induction bs generalizing pre out with
  | nil => simp [decode_hex_loop]
  | cons d rest ih =>
    have r1 : (pre ++ hex_text (d :: rest))[pre.length]? = some (hex_digit_char (d.val / 16)) := by
      rw [getElem?_append_zero, hex_text_cons]; simp
    have r2 : (pre ++ hex_text (d :: rest))[pre.length + 1]?
        = some (hex_digit_char (d.val % 16)) := by
      rw [getElem?_append_add, hex_text_cons]; simp
    have ih2 := ih (pre ++ [hex_digit_char (d.val / 16), hex_digit_char (d.val % 16)]) (out ++ [d])
    simp only [List.length_cons, decode_hex_loop, r1, r2, Option.bind_eq_bind, Option.some_bind,
      decode_hex_byte_hex]
    simpa [hex_text_cons] using ih2

theorem decode_hex_hex_text (junk : Nat → Byte) (b : List Byte) (hsize : 2 * b.length < 2 ^ 64) :
    decode_hex junk (hex_text b) = some b := by
  have hl := hex_text_length b
  have hm : (hex_text b).length &&& 0xFFFFFFFFFFFFFFFE = 2 * b.length := by
    rw [and_not_1 _ (by omega)]; omega
  have hloop := decode_hex_loop_eq b [] []
  simp only [List.nil_append, List.length_nil] at hloop
  simp only [decode_hex, hm, Option.bind_eq_bind]
  rw [show 2 * b.length / 2 = b.length by omega, hloop]
  exact stored_full junk _ _ rfl

/-- C4: hexadecimal round trip.  For every byte sequence `b`, `encode_hex b`
has length `2 * |b|` and consists of two uppercase hexadecimal digits per byte
with the high nibble first; and when that length is a `U64`
(`2 * |b| < 2 ^ 64`), `decode_hex` of the text returns exactly `b`. -/
theorem encode_hex_decode_hex (junk : Nat → Byte) (b : List Byte) :
    encode_hex b = some (hex_text b) ∧ (hex_text b).length = 2 * b.length
      ∧ (2 * b.length < 2 ^ 64 → decode_hex junk (hex_text b) = some b) :=
  ⟨by simpa using encode_hex_loop_eq b [], hex_text_length b, decode_hex_hex_text junk b⟩

/-- The hexadecimal round trip on the bytes `00 00 00 54 65 73 74`. -/
theorem encode_hex_decode_hex_witness :
    2 * [(0 : Byte), 0, 0, 0x54, 0x65, 0x73, 0x74].length < 2 ^ 64
      ∧ decode_hex (fun _ => 0) (hex_text [0, 0, 0, 0x54, 0x65, 0x73, 0x74])
          = some [0, 0, 0, 0x54, 0x65, 0x73, 0x74] :=
  ⟨by decide,
    (encode_hex_decode_hex (fun _ => 0) [0, 0, 0, 0x54, 0x65, 0x73, 0x74]).2.2 (by decide)⟩

/-! ### bin -/

set_option maxRecDepth 100000 in
theorem encode_bin_byte_eq : ∀ d : Byte, encode_bin_byte d =
    [bin_digit_char d 7, bin_digit_char d 6, bin_digit_char d 5,
    bin_digit_char d 4, bin_digit_char d 3, bin_digit_char d 2, bin_digit_char d 1,
    bin_digit_char d 0] := by decide

theorem bin_text_cons (d : Byte) (rest : List Byte) :
    bin_text (d :: rest) = [bin_digit_char d 7, bin_digit_char d 6, bin_digit_char d 5,
    bin_digit_char d 4, bin_digit_char d 3, bin_digit_char d 2, bin_digit_char d 1,
    bin_digit_char d 0] ++ bin_text rest := by
  simp [bin_text]

theorem bin_text_length (b : List Byte) : (bin_text b).length = 8 * b.length := by
  induction b with
  | nil => rfl
  | cons d rest ih => rw [bin_text_cons]; simp only [List.length_append, List.length_cons, ih,
      List.length_nil]; omega

theorem encode_bin_loop_eq (data output : List Byte) :
    encode_bin_loop data output = output ++ bin_text data := by
  induction data generalizing output with
  | nil => simp [encode_bin_loop, bin_text]
  | cons d rest ih =>
    simp only [encode_bin_loop, ih, bin_text_cons, encode_bin_byte_eq]
    simp

set_option maxRecDepth 100000 in
theorem decode_bin_byte_bin : ∀ d : Byte,
    decode_bin_byte (bin_digit_char d 7) (bin_digit_char d 6) (bin_digit_char d 5)
      (bin_digit_char d 4) (bin_digit_char d 3) (bin_digit_char d 2) (bin_digit_char d 1)
      (bin_digit_char d 0) = d := by decide

theorem decode_bin_loop_eq (bs pre out : List Byte) :
    decode_bin_loop (pre ++ bin_text bs) bs.length pre.length out = some (out ++ bs) := by
  induction bs generalizing pre out with
  | nil => simp [decode_bin_loop]
  | cons d rest ih =>
    have r0 : (pre ++ bin_text (d :: rest))[pre.length]? = some (bin_digit_char d 7) := by
      rw [getElem?_append_zero, bin_text_cons]; simp
    have r1 : (pre ++ bin_text (d :: rest))[pre.length + 1]? = some (bin_digit_char d 6) := by
      rw [getElem?_append_add, bin_text_cons]; simp
    have r2 : (pre ++ bin_text (d :: rest))[pre.length + 2]? = some (bin_digit_char d 5) := by
      rw [getElem?_append_add, bin_text_cons]; simp
    have r3 : (pre ++ bin_text (d :: rest))[pre.length + 3]? = some (bin_digit_char d 4) := by
      rw [getElem?_append_add, bin_text_cons]; simp
    have r4 : (pre ++ bin_text (d :: rest))[pre.length + 4]? = some (bin_digit_char d 3) := by
      rw [getElem?_append_add, bin_text_cons]; simp
    have r5 : (pre ++ bin_text (d :: rest))[pre.length + 5]? = some (bin_digit_char d 2) := by
      rw [getElem?_append_add, bin_text_cons]; simp
    have r6 : (pre ++ bin_text (d :: rest))[pre.length + 6]? = some (bin_digit_char d 1) := by
      rw [getElem?_append_add, bin_text_cons]; simp
    have r7 : (pre ++ bin_text (d :: rest))[pre.length + 7]? = some (bin_digit_char d 0) := by
      rw [getElem?_append_add, bin_text_cons]; simp
    have ih2 := ih (pre ++ [bin_digit_char d 7, bin_digit_char d 6, bin_digit_char d 5,
      bin_digit_char d 4, bin_digit_char d 3, bin_digit_char d 2, bin_digit_char d 1,
      bin_digit_char d 0]) (out ++ [d])
    simp only [List.length_cons, decode_bin_loop, r0, r1, r2, r3, r4, r5, r6, r7,
      Option.bind_eq_bind, Option.some_bind, decode_bin_byte_bin]
    simpa [bin_text_cons] using ih2

theorem decode_bin_bin_text (junk : Nat → Byte) (b : List Byte) (hsize : 8 * b.length < 2 ^ 64) :
    decode_bin junk (bin_text b) = some b := by
  have hl := bin_text_length b
  have hm : (bin_text b).length &&& 0xFFFFFFFFFFFFFFF8 = 8 * b.length := by
    rw [and_not_7 _ (by omega)]; omega
  have hloop := decode_bin_loop_eq b [] []
  simp only [List.nil_append, List.length_nil] at hloop
  simp only [decode_bin, hm, Option.bind_eq_bind]
  rw [show 8 * b.length / 8 = b.length by omega, hloop]
  exact stored_full junk _ _ rfl

/-- C5: binary round trip.  For every byte sequence `b`, `encode_bin b` has
length `8 * |b|` and consists of the eight characters `'0'`/`'1'` of each byte
with the most significant bit first; and when that length is a `U64`
(`8 * |b| < 2 ^ 64`), `decode_bin` of the text returns exactly `b`. -/
theorem encode_bin_decode_bin (junk : Nat → Byte) (b : List Byte) :
    (encode_bin b).length = 8 * b.length ∧ encode_bin b = bin_text b
      ∧ (8 * b.length < 2 ^ 64 → decode_bin junk (encode_bin b) = some b) := by
  have e : encode_bin b = bin_text b := by simpa using encode_bin_loop_eq b []
  rw [e]
  exact ⟨bin_text_length b, rfl, decode_bin_bin_text junk b⟩

/-- The binary round trip on the bytes `00 00 00 54 65 73 74`. -/
theorem encode_bin_decode_bin_witness :
    8 * [(0 : Byte), 0, 0, 0x54, 0x65, 0x73, 0x74].length < 2 ^ 64
      ∧ decode_bin (fun _ => 0) (encode_bin [0, 0, 0, 0x54, 0x65, 0x73, 0x74])
          = some [0, 0, 0, 0x54, 0x65, 0x73, 0x74] :=
  ⟨by decide,
    (encode_bin_decode_bin (fun _ => 0) [0, 0, 0, 0x54, 0x65, 0x73, 0x74]).2.2 (by decide)⟩

/-! ### comparators -/

theorem or_eq_zero_iff (a b : Nat) : a ||| b = 0 ↔ a = 0 ∧ b = 0 := by
  constructor
  · intro h
    have hb : ∀ i, (a ||| b).testBit i = false := by intro i; rw [h]; exact Nat.zero_testBit i
    simp only [Nat.testBit_or, Bool.or_eq_false_iff] at hb
    exact ⟨Nat.eq_of_testBit_eq (fun i => by rw [(hb i).1, Nat.zero_testBit]),
      Nat.eq_of_testBit_eq (fun i => by rw [(hb i).2, Nat.zero_testBit])⟩
  · rintro ⟨rfl, rfl⟩; rfl

theorem foldl_or_eq_zero (f : Nat → Nat) (l : List Nat) (init : Nat) :
    l.foldl (fun result i => result ||| f i) init = 0 ↔ init = 0 ∧ ∀ i ∈ l, f i = 0 := by
  induction l generalizing init with
  | nil => simp
  | cons x xs ih =>
    rw [List.foldl_cons, ih, or_eq_zero_iff]
    simp only [List.mem_cons, forall_eq_or_imp]
    tauto

theorem memcmp_from_eq_zero (s1 s2 : Nat → Byte) (k i : Nat) :
    memcmp_from s1 s2 k i = 0 ↔ ∀ j, i ≤ j → j < i + k → s1 j = s2 j := by
  induction k generalizing i with
  | zero => simp [memcmp_from]; intro j h1 h2; omega
  | succ k ih =>
    rw [memcmp_from]
    by_cases hne : s1 i = s2 i
    · simp only [hne, ne_eq, not_true_eq_false, ↓reduceIte, ih]
      constructor
      · intro h j h1 h2
        by_cases hj : j = i
        · rw [hj]; exact hne
        · exact h j (by omega) (by omega)
      · intro h j h1 h2
        exact h j (by omega) (by omega)
    · simp only [ne_eq, hne, not_false_eq_true, ↓reduceIte]
      constructor
      · intro h
        exfalso
        apply hne
        apply Fin.ext
        omega
      · intro h
        exact absurd (h i (le_refl i) (by omega)) hne

theorem load_U64_eq_iff (p q : Nat → Byte) (w : Nat) :
    load_U64 p w = load_U64 q w ↔ ∀ j, j < 8 → p (8 * w + j) = q (8 * w + j) := by
  constructor
  · intro h j hj
    unfold load_U64 at h
    have b0 := (p (8 * w)).isLt
    have b1 := (p (8 * w + 1)).isLt
    have b2 := (p (8 * w + 2)).isLt
    have b3 := (p (8 * w + 3)).isLt
    have b4 := (p (8 * w + 4)).isLt
    have b5 := (p (8 * w + 5)).isLt
    have b6 := (p (8 * w + 6)).isLt
    have b7 := (p (8 * w + 7)).isLt
    have c0 := (q (8 * w)).isLt
    have c1 := (q (8 * w + 1)).isLt
    have c2 := (q (8 * w + 2)).isLt
    have c3 := (q (8 * w + 3)).isLt
    have c4 := (q (8 * w + 4)).isLt
    have c5 := (q (8 * w + 5)).isLt
    have c6 := (q (8 * w + 6)).isLt
    have c7 := (q (8 * w + 7)).isLt
    norm_num at h
    have e : (p (8 * w)).val = (q (8 * w)).val ∧ (p (8 * w + 1)).val = (q (8 * w + 1)).val
        ∧ (p (8 * w + 2)).val = (q (8 * w + 2)).val ∧ (p (8 * w + 3)).val = (q (8 * w + 3)).val
        ∧ (p (8 * w + 4)).val = (q (8 * w + 4)).val ∧ (p (8 * w + 5)).val = (q (8 * w + 5)).val
        ∧ (p (8 * w + 6)).val = (q (8 * w + 6)).val
        ∧ (p (8 * w + 7)).val = (q (8 * w + 7)).val := by
      refine ⟨?_, ?_, ?_, ?_, ?_, ?_, ?_, ?_⟩ <;> omega
    obtain ⟨e0, e1, e2, e3, e4, e5, e6, e7⟩ := e
    interval_cases j
    · exact Fin.ext e0
    · exact Fin.ext e1
    · exact Fin.ext e2
    · exact Fin.ext e3
    · exact Fin.ext e4
    · exact Fin.ext e5
    · exact Fin.ext e6
    · exact Fin.ext e7
  · intro h
    unfold load_U64
    rw [h 1 (by decide), h 2 (by decide), h 3 (by decide), h 4 (by decide), h 5 (by decide),
      h 6 (by decide), h 7 (by decide)]
    have := h 0 (by decide)
    rw [Nat.add_zero] at this
    rw [this]

theorem compare_memcmp_iff (h : Heap) (a b : Blob) :
    compare_memcmp h a b = true
      ↔ a.size ≠ b.size ∨ ∃ i, i < a.size ∧ a.index h i ≠ b.index h i := by
  unfold compare_memcmp
  by_cases hs : a.size = b.size
  · simp only [hs, ne_eq, not_true_eq_false, ↓reduceIte, decide_eq_true_eq, false_or]
    rw [← hs, memcmp, memcmp_from_eq_zero]
    simp only [Blob.index, Blob.data]
    constructor
    · intro hne
      by_contra hall
      apply hne
      intro j _ hj
      by_contra hj2
      exact hall ⟨j, by omega, hj2⟩
    · rintro ⟨i, hi, hne⟩ hall
      exact hne (hall i (Nat.zero_le i) (by omega))
  · simp [hs]

theorem compare_constant_iff (h : Heap) (a b : Blob) :
    compare_constant h a b = true
      ↔ a.size ≠ b.size ∨ ∃ i, i < a.size ∧ a.index h i ≠ b.index h i := by
  unfold compare_constant
  by_cases hs : a.size = b.size
  · simp only [hs, ne_eq, not_true_eq_false, ↓reduceIte, decide_eq_true_eq, false_or]
    rw [← hs, foldl_or_eq_zero, foldl_or_eq_zero]
    simp only [Blob.index, Blob.data, true_and, List.mem_range, List.mem_range'_1,
      Nat.xor_eq_zero, load_U64_eq_iff, Fin.val_inj, Nat.shiftRight_eq_div_pow]
    constructor
    · intro hne
      by_contra hall
      apply hne
      constructor
      · intro w hw j hj
        by_contra hj2
        exact hall ⟨8 * w + j, by omega, hj2⟩
      · intro i hi
        by_contra hj2
        exact hall ⟨i, by omega, hj2⟩
    · rintro ⟨i, hi, hne⟩ ⟨hw, ht⟩
      by_cases hlt : i < a.size / 2 ^ 3 * 8
      · have := hw (i / 8) (by omega) (i % 8) (by omega)
        rw [show 8 * (i / 8) + i % 8 = i by omega] at this
        exact hne this
      · exact hne (ht i (by omega))
  · simp [hs]

/-- C9: the two comparators compute the same function.  For every memory
and every pair of views, `compare_constant` and `compare_memcmp` return the same
boolean, and it is `true` exactly when the sizes differ or the views hold
different bytes at some index below the size. -/
theorem compare_constant_eq_compare_memcmp (h : Heap) (a b : Blob) :
    compare_constant h a b = compare_memcmp h a b
      ∧ (compare_memcmp h a b = true
          ↔ a.size ≠ b.size ∨ ∃ i, i < a.size ∧ a.index h i ≠ b.index h i) := by
  refine ⟨?_, compare_memcmp_iff h a b⟩
  rw [Bool.eq_iff_iff, compare_constant_iff, compare_memcmp_iff]

theorem comparator_call_iff (c : Comparator) (h : Heap) (a b : Blob) :
    c.call h a b = true
      ↔ a.size ≠ b.size ∨ ∃ i, i < a.size ∧ a.index h i ≠ b.index h i := by
  cases c
  · exact compare_memcmp_iff h a b
  · exact compare_constant_iff h a b

theorem operator_eq_iff (h : Heap) (a b : Blob) :
    a.operator_eq h b = true
      ↔ a.size = b.size ∧ ∀ i, i < a.size → a.index h i = b.index h i := by
  unfold Blob.operator_eq Blob.operator_ne
  rw [Bool.not_eq_true', ← Bool.not_eq_true, comparator_call_iff]
  constructor
  · intro hn
    refine ⟨by_contra fun hs => hn (Or.inl hs), fun i hi => by_contra fun hne => ?_⟩
    exact hn (Or.inr ⟨i, hi, hne⟩)
  · rintro ⟨hs, hall⟩ (hne | ⟨i, hi, hne⟩)
    · exact hne hs
    · exact hne (hall i hi)

/-- C10: blob equality is value equality.  For all views `a` and `b`, with
whatever container, pointer and comparator, `a == b` holds exactly when the
sizes are equal and the bytes agree at every index below the size; `==` is
reflexive and symmetric, `!=` is its negation, and two views of one container
with the same data pointer and different sizes are not equal. -/
theorem blob_operator_eq_value_equality (h : Heap) (a b : Blob) :
    (a.operator_eq h b = true
        ↔ a.size = b.size ∧ ∀ i, i < a.size → a.index h i = b.index h i)
      ∧ a.operator_eq h a = true
      ∧ a.operator_eq h b = b.operator_eq h a
      ∧ a.operator_ne h b = !(a.operator_eq h b)
      ∧ (a.container_ = b.container_ → a.data = b.data → a.size ≠ b.size
          → a.operator_eq h b = false) := by
  refine ⟨operator_eq_iff h a b, ?_, ?_, ?_, ?_⟩
  · rw [operator_eq_iff]; exact ⟨rfl, fun _ _ => rfl⟩
  · rw [Bool.eq_iff_iff, operator_eq_iff, operator_eq_iff]
    constructor
    · rintro ⟨hs, hall⟩; exact ⟨hs.symm, fun i hi => (hall i (hs ▸ hi)).symm⟩
    · rintro ⟨hs, hall⟩; exact ⟨hs.symm, fun i hi => (hall i (hs ▸ hi)).symm⟩
  · simp [Blob.operator_eq]
  · intro _ _ hne
    rw [← Bool.not_eq_true, operator_eq_iff]
    exact fun hc => hne hc.1

/-- Two views of one container that start at the same pointer, of sizes 3 and
2, are not equal. -/
theorem blob_operator_eq_value_equality_witness :
    (⟨1, ScrubType.NONE, CompareType.DEFAULT, Comparator.memcmp, ⟨1, 0⟩, 3⟩ : Blob).operator_eq
        (fun _ => [0xa, 0xb, 0xc])
        ⟨1, ScrubType.NONE, CompareType.CONST, Comparator.constant, ⟨1, 0⟩, 2⟩ = false :=
  (blob_operator_eq_value_equality (fun _ => [0xa, 0xb, 0xc])
    ⟨1, ScrubType.NONE, CompareType.DEFAULT, Comparator.memcmp, ⟨1, 0⟩, 3⟩
    ⟨1, ScrubType.NONE, CompareType.CONST, Comparator.constant, ⟨1, 0⟩, 2⟩).2.2.2.2
    rfl rfl (by decide)

/-! ### base 64 -/

set_option maxRecDepth 100000 in
theorem b64_mask_0 : ∀ x : Byte, (x.val &&& 0xfc) >>> 2 = x.val / 4 := by decide
set_option maxRecDepth 100000 in
theorem b64_mask_1 : ∀ x : Byte, (x.val &&& 0x03) <<< 4 = x.val % 4 * 16 := by decide
set_option maxRecDepth 100000 in
theorem b64_mask_2 : ∀ x : Byte, (x.val &&& 0xf0) >>> 4 = x.val / 16 := by decide
set_option maxRecDepth 100000 in
theorem b64_mask_3 : ∀ x : Byte, (x.val &&& 0x0f) <<< 2 = x.val % 16 * 4 := by decide
set_option maxRecDepth 100000 in
theorem b64_mask_4 : ∀ x : Byte, (x.val &&& 0xc0) >>> 6 = x.val / 64 := by decide
set_option maxRecDepth 100000 in
theorem b64_mask_5 : ∀ x : Byte, x.val &&& 0x3f = x.val % 64 := by decide

theorem encode_base64_array4_eq (array3 : Nat → Byte) :
    encode_base64_array4 array3 =
      [ toByte ((array3 0).val / 4), toByte ((array3 0).val % 4 * 16 + (array3 1).val / 16),
        toByte ((array3 1).val % 16 * 4 + (array3 2).val / 64), toByte ((array3 2).val % 64) ] := by
  simp only [encode_base64_array4, b64_mask_0, b64_mask_1, b64_mask_2, b64_mask_3, b64_mask_4,
    b64_mask_5]

set_option maxRecDepth 100000 in
theorem base64_lookup : ∀ v : Fin 64, base64[(toByte v.val).val]? = some (b64_char v.val) := by
  decide

theorem base64_lookup_lt (v : Nat) (hv : v < 64) :
    base64[(toByte v).val]? = some (b64_char v) := base64_lookup ⟨v, hv⟩

set_option maxRecDepth 100000 in
theorem decode_base64_char_b64 : ∀ v : Fin 64,
    decode_base64_char (b64_char v.val) = some (toByte v.val) := by decide

theorem decode_base64_char_lt (v : Nat) (hv : v < 64) :
    decode_base64_char (b64_char v) = some (toByte v) := decode_base64_char_b64 ⟨v, hv⟩

theorem shiftLeft_or_eq_add (a b i : Nat) (hb : b < 2 ^ i) : (a <<< i) ||| b = a * 2 ^ i + b := by
  rw [Nat.shiftLeft_eq, Nat.mul_comm a, Nat.mul_add_lt_is_or hb]

theorem toByte_val (n : Nat) : (toByte n).val = n % 256 := rfl

theorem b64_join_0 (x y : Byte) :
    toByte (((toByte (x.val / 4)).val <<< 2)
      ||| ((toByte (x.val % 4 * 16 + y.val / 16)).val >>> 4)) = x := by
  have hx := x.isLt
  have hy := y.isLt
  rw [shiftLeft_or_eq_add _ _ _ (by rw [toByte_val, Nat.shiftRight_eq_div_pow]; omega)]
  apply Fin.ext
  rw [Nat.shiftRight_eq_div_pow]
  simp only [toByte_val]
  omega

theorem b64_join_1 (x y z : Byte) :
    toByte (((toByte (x.val % 4 * 16 + y.val / 16)).val <<< 4)
      ||| ((toByte (y.val % 16 * 4 + z.val / 64)).val >>> 2)) = y := by
  have hx := x.isLt
  have hy := y.isLt
  have hz := z.isLt
  rw [shiftLeft_or_eq_add _ _ _ (by rw [toByte_val, Nat.shiftRight_eq_div_pow]; omega)]
  apply Fin.ext
  rw [Nat.shiftRight_eq_div_pow]
  simp only [toByte_val]
  omega

theorem b64_join_2 (y z : Byte) :
    toByte (((toByte (y.val % 16 * 4 + z.val / 64)).val <<< 6)
      ||| (toByte (z.val % 64)).val) = z := by
  have hy := y.isLt
  have hz := z.isLt
  rw [shiftLeft_or_eq_add _ _ _ (by rw [toByte_val]; omega)]
  apply Fin.ext
  simp only [toByte_val]
  omega

theorem decode_base64_group_eq (x y z : Byte) :
    decode_base64_group (toByte (x.val / 4)) (toByte (x.val % 4 * 16 + y.val / 16))
      (toByte (y.val % 16 * 4 + z.val / 64)) (toByte (z.val % 64)) = [x, y, z] := by
  simp only [decode_base64_group, b64_join_0, b64_join_1, b64_join_2]

theorem encode_base64_emit_eq (l output : List Byte) (hl : ∀ a ∈ l, a.val < 64) :
    encode_base64_emit l output = some (output ++ l.map (fun a => b64_char a.val)) := by
  induction l generalizing output with
  | nil => simp [encode_base64_emit]
  | cons a rest ih =>
    have ha : a.val < 64 := hl a (List.mem_cons_self a rest)
    have hlook := base64_lookup_lt a.val ha
    have e : toByte a.val = a := Fin.ext (by rw [toByte_val]; omega)
    rw [e] at hlook
    simp only [encode_base64_emit, hlook, Option.bind_eq_bind, Option.some_bind]
    rw [ih _ (fun b hb => hl b (List.mem_cons_of_mem a hb))]
    simp

theorem toByte_val_lt (n : Nat) (h : n < 256) : (toByte n).val = n := by
  rw [toByte_val]; omega

theorem array4_lt (array3 : Nat → Byte) : ∀ a ∈ encode_base64_array4 array3, a.val < 64 := by
  have h0 := (array3 0).isLt
  have h1 := (array3 1).isLt
  have h2 := (array3 2).isLt
  rw [encode_base64_array4_eq]
  intro a ha
  simp only [List.mem_cons, List.mem_singleton, List.not_mem_nil, or_false] at ha
  rcases ha with rfl | rfl | rfl | rfl <;> rw [toByte_val] <;> omega

theorem array4_chars (array3 : Nat → Byte) :
    (encode_base64_array4 array3).map (fun a => b64_char a.val)
      = b64_quad (array3 0) (array3 1) (array3 2) := by
  have h0 := (array3 0).isLt
  have h1 := (array3 1).isLt
  have h2 := (array3 2).isLt
  rw [encode_base64_array4_eq]
  simp only [List.map_cons, List.map_nil, b64_quad]
  rw [toByte_val_lt _ (by omega), toByte_val_lt _ (by omega), toByte_val_lt _ (by omega),
    toByte_val_lt _ (by omega)]

theorem encode_base64_emit_array4 (array3 : Nat → Byte) (output : List Byte) :
    encode_base64_emit (encode_base64_array4 array3) output
      = some (output ++ b64_quad (array3 0) (array3 1) (array3 2)) := by
  rw [encode_base64_emit_eq _ _ (array4_lt array3), array4_chars]

theorem encode_base64_emit_array4_take (array3 : Nat → Byte) (output : List Byte) (k : Nat) :
    encode_base64_emit ((encode_base64_array4 array3).take k) output
      = some (output ++ (b64_quad (array3 0) (array3 1) (array3 2)).take k) := by
  rw [encode_base64_emit_eq _ _ (fun a ha => array4_lt array3 a (List.mem_of_mem_take ha)),
    List.map_take, array4_chars]

theorem encode_base64_loop_flush : ∀ (data : List Byte) (array3 : Nat → Byte) (output : List Byte),
    (encode_base64_loop data 0 array3 output).bind encode_base64_flush
      = some (output ++ b64_text data)
  | [], array3, output => by
    simp [encode_base64_loop, encode_base64_flush, b64_text]
  | [x], array3, output => by
    simp only [encode_base64_loop, encode_base64_flush, Option.bind_eq_bind, Option.some_bind,
      b64_text]
    simp [encode_base64_emit_array4_take]
  | [x, y], array3, output => by
    simp only [encode_base64_loop, encode_base64_flush, Option.bind_eq_bind, Option.some_bind,
      b64_text]
    simp [encode_base64_emit_array4_take]
  | x :: y :: z :: rest, array3, output => by
    have ih := encode_base64_loop_flush rest
      (Function.update (Function.update (Function.update array3 0 x) 1 y) 2 z)
      (output ++ b64_quad x y z)
    simp only [encode_base64_loop, Option.bind_eq_bind, Option.some_bind, b64_text,
      encode_base64_emit_array4]
    simp
    simpa using ih

theorem encode_base64_eq (junk3 : Nat → Byte) (data : List Byte) :
    encode_base64 junk3 data = some (b64_text data) := by
  have := encode_base64_loop_flush data junk3 []
  simpa [encode_base64] using this

theorem b64_text_length : ∀ data : List Byte,
    (b64_text data).length
      = 4 * (data.length / 3) + (if data.length % 3 = 0 then 0 else data.length % 3 + 1)
  | [] => by simp [b64_text]
  | [x] => by simp [b64_text, b64_quad]
  | [x, y] => by simp [b64_text, b64_quad]
  | x :: y :: z :: rest => by
    have ih := b64_text_length rest
    simp only [b64_text, List.length_append, ih, List.length_cons, b64_quad, List.length_nil]
    have e1 : (rest.length + 1 + 1 + 1) / 3 = rest.length / 3 + 1 := by omega
    have e2 : (rest.length + 1 + 1 + 1) % 3 = rest.length % 3 := by omega
    rw [e1, e2]
    omega

theorem decode_base64_loop_tail (junk : Nat → Byte) :
    ∀ (data pre out : List Byte) (outSize s : Nat),
      outSize = out.length + data.length → s = (b64_text data).length % 4 →
      (decode_base64_loop (pre ++ b64_text data) ((b64_text data).length / 4) pre.length out).bind
        (decode_base64_tail junk (pre ++ b64_text data) outSize s) = some (out ++ data)
  | [], pre, out, outSize, s, ho, hs => by
    simp only [b64_text, List.length_nil, Nat.zero_div, Nat.zero_mod] at hs ⊢
    subst hs
    simp only [decode_base64_loop, Option.bind_eq_bind, Option.some_bind, decode_base64_tail]
    simp only [ge_iff_le, Nat.not_succ_le_zero, ↓reduceIte, List.append_nil]
    exact stored_full junk _ _ (by simp [ho])
  | [x], pre, out, outSize, s, ho, hs => by
    have hl : (b64_text [x]).length = 2 := by simp [b64_text, b64_quad]
    rw [hl] at hs ⊢
    subst hs
    have r0 : (pre ++ b64_text [x])[pre.length]? = some (b64_char (x.val / 4)) := by
      rw [getElem?_append_zero]; simp [b64_text, b64_quad]
    have r1 : (pre ++ b64_text [x])[pre.length + 1]?
        = some (b64_char (x.val % 4 * 16 + (0 : Byte).val / 16)) := by
      rw [getElem?_append_add]; simp [b64_text, b64_quad]
    have hx := x.isLt
    simp only [decode_base64_loop, Option.bind_eq_bind, Option.some_bind, decode_base64_tail,
      r0, r1, decode_base64_char_lt _ (show x.val / 4 < 64 by omega),
      decode_base64_char_lt _ (show x.val % 4 * 16 + (0 : Byte).val / 16 < 64 by
        simp only [Fin.val_zero]; omega), b64_join_0]
    simp only [Nat.reduceMod, ge_iff_le, le_refl, ↓reduceIte, gt_iff_lt, lt_self_iff_false]
    exact stored_full junk _ _ (by simp [ho])
  | [x, y], pre, out, outSize, s, ho, hs => by
    have hl : (b64_text [x, y]).length = 3 := by simp [b64_text, b64_quad]
    rw [hl] at hs ⊢
    subst hs
    have r0 : (pre ++ b64_text [x, y])[pre.length]? = some (b64_char (x.val / 4)) := by
      rw [getElem?_append_zero]; simp [b64_text, b64_quad]
    have r1 : (pre ++ b64_text [x, y])[pre.length + 1]?
        = some (b64_char (x.val % 4 * 16 + y.val / 16)) := by
      rw [getElem?_append_add]; simp [b64_text, b64_quad]
    have r2 : (pre ++ b64_text [x, y])[pre.length + 2]?
        = some (b64_char (y.val % 16 * 4 + (0 : Byte).val / 64)) := by
      rw [getElem?_append_add]; simp [b64_text, b64_quad]
    have hx := x.isLt
    have hy := y.isLt
    simp only [decode_base64_loop, Option.bind_eq_bind, Option.some_bind, decode_base64_tail,
      r0, r1, r2, decode_base64_char_lt _ (show x.val / 4 < 64 by omega),
      decode_base64_char_lt _ (show x.val % 4 * 16 + y.val / 16 < 64 by omega),
      decode_base64_char_lt _ (show y.val % 16 * 4 + (0 : Byte).val / 64 < 64 by
        simp only [Fin.val_zero]; omega), b64_join_0, b64_join_1]
    simp only [Nat.reduceMod, ge_iff_le, Nat.reduceLeDiff, ↓reduceIte, gt_iff_lt, Nat.lt_add_one,
      List.append_assoc, List.cons_append, List.nil_append]
    exact stored_full junk _ _ (by simp [ho])
  | x :: y :: z :: rest, pre, out, outSize, s, ho, hs => by
    have hl : (b64_text (x :: y :: z :: rest)).length = (b64_text rest).length + 4 := by
      simp [b64_text, b64_quad]
    have hd : (b64_text rest).length + 4 = 4 * ((b64_text rest).length / 4 + 1)
        + (b64_text rest).length % 4 := by omega
    have hk : ((b64_text rest).length + 4) / 4 = (b64_text rest).length / 4 + 1 := by omega
    have hm : ((b64_text rest).length + 4) % 4 = (b64_text rest).length % 4 := by omega
    rw [hl, hm] at hs
    rw [hl, hk]
    have r0 : (pre ++ b64_text (x :: y :: z :: rest))[pre.length]?
        = some (b64_char (x.val / 4)) := by
      rw [getElem?_append_zero]; simp [b64_text, b64_quad]
    have r1 : (pre ++ b64_text (x :: y :: z :: rest))[pre.length + 1]?
        = some (b64_char (x.val % 4 * 16 + y.val / 16)) := by
      rw [getElem?_append_add]; simp [b64_text, b64_quad]
    have r2 : (pre ++ b64_text (x :: y :: z :: rest))[pre.length + 2]?
        = some (b64_char (y.val % 16 * 4 + z.val / 64)) := by
      rw [getElem?_append_add]; simp [b64_text, b64_quad]
    have r3 : (pre ++ b64_text (x :: y :: z :: rest))[pre.length + 3]?
        = some (b64_char (z.val % 64)) := by
      rw [getElem?_append_add]; simp [b64_text, b64_quad]
    have hx := x.isLt
    have hy := y.isLt
    have hz := z.isLt
    have ih := decode_base64_loop_tail junk rest (pre ++ b64_quad x y z) (out ++ [x, y, z])
      outSize s (by simp [ho]; omega) hs
    have e : pre ++ b64_text (x :: y :: z :: rest) = pre ++ b64_quad x y z ++ b64_text rest := by
      simp [b64_text]
    have e2 : (pre ++ b64_quad x y z).length = pre.length + 4 := by simp [b64_quad]
    rw [e2, ← e] at ih
    simp only [decode_base64_loop, Option.bind_eq_bind, Option.some_bind, r0, r1, r2, r3,
      decode_base64_char_lt _ (show x.val / 4 < 64 by omega),
      decode_base64_char_lt _ (show x.val % 4 * 16 + y.val / 16 < 64 by omega),
      decode_base64_char_lt _ (show y.val % 16 * 4 + z.val / 64 < 64 by omega),
      decode_base64_char_lt _ (show z.val % 64 < 64 by omega), decode_base64_group_eq]
    simpa using ih

theorem decode_base64_b64_text (junk : Nat → Byte) (data : List Byte) :
    decode_base64 junk (b64_text data) = some data := by
  have hlen := b64_text_length data
  have hand : (b64_text data).length &&& 0x3 = (b64_text data).length % 4 :=
    Nat.and_pow_two_sub_one_eq_mod _ 2
  have hout : ((b64_text data).length / 4) * 3
      + (if (b64_text data).length % 4 ≥ 2 then (b64_text data).length % 4 - 1 else 0)
      = data.length := by
    rw [hlen]
    split_ifs <;> omega
  have h := decode_base64_loop_tail junk data [] [] data.length ((b64_text data).length % 4)
    (by simp) rfl
  simp only [List.nil_append, List.length_nil] at h
  simp only [decode_base64, Option.bind_eq_bind, hand, Nat.shiftRight_eq_div_pow, hout]
  exact h

theorem mem_b64_quad (x y z c : Byte) (hc : c ∈ b64_quad x y z) :
    ∃ v, v < 64 ∧ c = b64_char v := by
  have hx := x.isLt
  have hy := y.isLt
  have hz := z.isLt
  simp only [b64_quad, List.mem_cons, List.mem_singleton, List.not_mem_nil, or_false] at hc
  rcases hc with rfl | rfl | rfl | rfl
  · exact ⟨_, by omega, rfl⟩
  · exact ⟨_, by omega, rfl⟩
  · exact ⟨_, by omega, rfl⟩
  · exact ⟨_, by omega, rfl⟩

theorem mem_b64_text : ∀ (data : List Byte) (c : Byte), c ∈ b64_text data →
    ∃ v, v < 64 ∧ c = b64_char v
  | [], c, hc => by simp [b64_text] at hc
  | [x], c, hc => mem_b64_quad x 0 0 c (List.mem_of_mem_take hc)
  | [x, y], c, hc => mem_b64_quad x y 0 c (List.mem_of_mem_take hc)
  | x :: y :: z :: rest, c, hc => by
    rw [b64_text, List.mem_append] at hc
    rcases hc with hc | hc
    · exact mem_b64_quad x y z c hc
    · exact mem_b64_text rest c hc

set_option maxRecDepth 100000 in
theorem b64_char_ne_pad : ∀ v : Fin 64, b64_char v.val ≠ toByte ('=').toNat := by decide

/-- C3: base-64 round trip.  For every byte sequence `b`, of any length,
and whatever the initial content of the local array and of the output
allocation, `encode_base64` returns a text without the padding character `'='`,
and `decode_base64` of that text returns exactly `b`. -/
theorem encode_base64_decode_base64 (junk3 junk : Nat → Byte) (b : List Byte) :
    ∃ t, encode_base64 junk3 b = some t ∧ toByte ('=').toNat ∉ t
      ∧ decode_base64 junk t = some b := by
  refine ⟨b64_text b, encode_base64_eq junk3 b, ?_, decode_base64_b64_text junk b⟩
  intro hmem
  obtain ⟨v, hv, hc⟩ := mem_b64_text b _ hmem
  exact b64_char_ne_pad ⟨v, hv⟩ hc.symm

/-! ### base 58 -/

theorem mpz_import_foldl (data : List Byte) (acc : Nat) :
    data.foldl (fun n d => n * 256 + d.val) acc = acc * 256 ^ data.length + mpz_import data := by
  induction data generalizing acc with
  | nil => simp [mpz_import]
  | cons d rest ih =>
    have e : mpz_import (d :: rest) = (0 * 256 + d.val) * 256 ^ rest.length + mpz_import rest := by
      show List.foldl _ 0 (d :: rest) = _
      rw [List.foldl_cons, ih]
    rw [List.foldl_cons, ih, e, List.length_cons, pow_succ]
    ring

theorem mpz_import_cons (d : Byte) (rest : List Byte) :
    mpz_import (d :: rest) = d.val * 256 ^ rest.length + mpz_import rest := by
  rw [mpz_import, List.foldl_cons, mpz_import_foldl]; ring_nf

theorem mpz_import_lt (data : List Byte) : mpz_import data < 256 ^ data.length := by
  induction data with
  | nil => simp [mpz_import]
  | cons d rest ih =>
    rw [mpz_import_cons, List.length_cons, pow_succ]
    have := d.isLt
    nlinarith

theorem count_leading_replicate (k : Nat) (rest : List Byte) (hrest : rest.head? ≠ some 0) :
    count_leading 0 (List.replicate k 0 ++ rest) = k := by
  induction k with
  | zero =>
    cases rest with
    | nil => rfl
    | cons d tl =>
      have : d ≠ 0 := fun h => hrest (by simp [h])
      simp [count_leading, this]
  | succ k ih => simp [List.replicate_succ, count_leading, ih]

theorem mpz_import_replicate (k : Nat) (rest : List Byte) :
    mpz_import (List.replicate k 0 ++ rest) = mpz_import rest := by
  induction k with
  | zero => simp
  | succ k ih => rw [List.replicate_succ, List.cons_append, mpz_import_cons, ih]; simp

theorem pow_256_le_pow_58 (m : Nat) : 256 ^ m ≤ 58 ^ (m * 138 / 100 + 1) := by
  have base : (256 : Nat) ^ 100 ≤ 58 ^ 138 := by norm_num
  have h1 : ((256 : Nat) ^ m) ^ 100 ≤ (58 ^ (m * 138 / 100 + 1)) ^ 100 := by
    calc ((256 : Nat) ^ m) ^ 100 = (256 ^ 100) ^ m := by rw [← pow_mul, ← pow_mul, Nat.mul_comm]
      _ ≤ (58 ^ 138) ^ m := Nat.pow_le_pow_left base m
      _ = 58 ^ (138 * m) := by rw [← pow_mul]
      _ ≤ 58 ^ ((m * 138 / 100 + 1) * 100) := Nat.pow_le_pow_right (by decide) (by omega)
      _ = (58 ^ (m * 138 / 100 + 1)) ^ 100 := by rw [← pow_mul]
  exact (Nat.pow_le_pow_iff_left (by decide)).mp h1

set_option maxRecDepth 100000 in
theorem b58_lookup : ∀ d : Fin 58, b58[mpz_get_ui d.val]? = some (b58.getD d.val 0)
    ∧ (d.val ≠ 0 → b58.getD d.val 0 ≠ toByte ('1').toNat) := by decide

theorem b58_zero : b58[0]? = some (toByte ('1').toNat) := by decide

theorem mod_58_ne_zero (n : Nat) (h1 : mpz_get_ui n ≠ 0) (h2 : mpz_get_ui (n / 58) = 0) :
    n % 58 ≠ 0 := by
  simp only [mpz_get_ui, ULONG_MOD] at h1 h2
  norm_num at h1 h2
  omega

theorem encode_base58_div_spec : ∀ (j pos n : Nat) (w : List Byte), n < 58 ^ j → j ≤ pos →
    ∃ pos' ds, encode_base58_div pos n w = some (pos', ds ++ w) ∧ pos' + ds.length = pos
      ∧ ds.length ≤ j ∧ ((mpz_get_ui n = 0 ∧ ds = []) ∨ (∃ c tl, ds = c :: tl ∧ c ≠ toByte ('1').toNat)) := by
  intro j
  induction j with
  | zero =>
    intro pos n w hn _
    have hn0 : n = 0 := by simpa using hn
    subst hn0
    refine ⟨pos, [], ?_, by simp, by simp, Or.inl ⟨rfl, rfl⟩⟩
    cases pos <;> simp [encode_base58_div, mpz_get_ui]
  | succ j ih =>
    intro pos n w hn hpos
    by_cases hz : mpz_get_ui n = 0
    · refine ⟨pos, [], ?_, by simp, by simp, Or.inl ⟨hz, rfl⟩⟩
      cases pos <;> simp [encode_base58_div, hz]
    · obtain ⟨p, rfl⟩ : ∃ p, pos = p + 1 := ⟨pos - 1, by omega⟩
      have hlook := b58_lookup ⟨n % 58, Nat.mod_lt n (by decide)⟩
      have hdiv : n / 58 < 58 ^ j := by
        rw [Nat.div_lt_iff_lt_mul (by decide)]
        rw [pow_succ] at hn
        exact hn
      obtain ⟨pos', ds, hrun, hlen, hle, hhead⟩ :=
        ih p (n / 58) (b58.getD (n % 58) 0 :: w) hdiv (by omega)
      refine ⟨pos', ds ++ [b58.getD (n % 58) 0], ?_, by simp; omega, by simp; omega, Or.inr ?_⟩
      · simp only [encode_base58_div, bne_iff_ne, ne_eq, hz, not_false_eq_true, ↓reduceIte,
          hlook.1, Option.bind_eq_bind, Option.some_bind, hrun]
        simp
      · rcases hhead with ⟨hq, rfl⟩ | ⟨c, tl, rfl, hc⟩
        · exact ⟨_, [], rfl, hlook.2 (mod_58_ne_zero n hz hq)⟩
        · exact ⟨c, tl ++ [b58.getD (n % 58) 0], rfl, hc⟩

theorem encode_base58_zeros_spec : ∀ (k pos : Nat) (w : List Byte), k ≤ pos →
    encode_base58_zeros k pos w = some (pos - k, List.replicate k (toByte ('1').toNat) ++ w) := by
  intro k
  induction k with
  | zero => intro pos w _; cases pos <;> simp [encode_base58_zeros]
  | succ k ih =>
    intro pos w hk
    obtain ⟨p, rfl⟩ : ∃ p, pos = p + 1 := ⟨pos - 1, by omega⟩
    simp only [encode_base58_zeros, b58_zero, Option.bind_eq_bind, Option.some_bind,
      ih p _ (by omega)]
    simp [List.replicate_succ']

/-- C8: leading-zero law of `encode_base58`.  For every byte sequence made
of `k` zero bytes followed by bytes that do not start with a zero byte, and
short enough for the reserve computation not to wrap (`138 * size < 2 ^ 64`),
the output is `k` characters `'1'` followed by a text that is empty or starts
with a character other than `'1'`. -/
theorem encode_base58_leading_zeros (k : Nat) (rest : List Byte)
    (hrest : rest.head? ≠ some 0) (hsize : (k + rest.length) * 138 < 2 ^ 64) :
    ∃ tail, encode_base58 (List.replicate k 0 ++ rest)
        = some (List.replicate k (toByte ('1').toNat) ++ tail)
      ∧ tail.head? ≠ some (toByte ('1').toNat) := by
  have hlz := count_leading_replicate k rest hrest
  have himp := mpz_import_replicate k rest
  have hlt := mpz_import_lt rest
  have hcap := pow_256_le_pow_58 rest.length
  have hlen : (List.replicate k (0 : Byte) ++ rest).length - k = rest.length := by simp
  have hres : ((rest.length * 138 % U64_MOD / 100 + 1 + k) % U64_MOD)
      = rest.length * 138 / 100 + 1 + k := by
    simp only [U64_MOD]
    norm_num at hsize ⊢
    rw [Nat.mod_eq_of_lt (by omega), Nat.mod_eq_of_lt (by omega)]
  obtain ⟨pos, ds, hrun, hpos, hle, hhead⟩ :=
    encode_base58_div_spec (rest.length * 138 / 100 + 1) (rest.length * 138 / 100 + 1 + k)
      (mpz_import rest) [] (lt_of_lt_of_le hlt hcap) (by omega)
  refine ⟨ds, ?_, ?_⟩
  · simp only [encode_base58, hlz, himp, hlen, hres, hrun, Option.bind_eq_bind, Option.some_bind,
      List.append_nil]
    rw [encode_base58_zeros_spec k pos ds (by omega)]
    rfl
  · rcases hhead with ⟨_, rfl⟩ | ⟨c, tl, rfl, hc⟩
    · simp
    · simpa using hc

/-- The leading-zero law on the bytes `00 00 00 54 65 73 74`. -/
theorem encode_base58_leading_zeros_witness :
    ([(0x54 : Byte), 0x65, 0x73, 0x74].head? ≠ some 0
        ∧ (3 + [(0x54 : Byte), 0x65, 0x73, 0x74].length) * 138 < 2 ^ 64)
      ∧ ∃ tail, encode_base58 (List.replicate 3 0 ++ [0x54, 0x65, 0x73, 0x74])
          = some (List.replicate 3 (toByte ('1').toNat) ++ tail)
        ∧ tail.head? ≠ some (toByte ('1').toNat) :=
  ⟨⟨by decide, by decide⟩,
    encode_base58_leading_zeros 3 [0x54, 0x65, 0x73, 0x74] (by decide) (by decide)⟩

/-- C1, a defect of the code: the base-58 round trip fails.  For the single
zero byte, `encode_base58` returns the text "1", and `decode_base58` of "1"
returns a blob of two bytes, the zero byte and one byte that was never written
(`mpz_sizeinbase` is 1 for the value zero, so one byte too many is allocated).
For the nine bytes `01 00 00 00 00 00 00 00 00` (the value `2 ^ 64`),
`encode_base58` returns the empty text (its loop tests `mpz_get_ui`, the low 64
bits of the dividend), and decoding the empty text returns one byte that was
never written.  Neither result is the input. -/
theorem base58_round_trip_fails (junk : Nat → Byte) :
    (encode_base58 [0] = some (cstr "1")
        ∧ decode_base58 junk (cstr "1") = some [0, junk 1]
        ∧ (encode_base58 [0]).bind (decode_base58 junk) ≠ some [0])
      ∧ (encode_base58 [1, 0, 0, 0, 0, 0, 0, 0, 0] = some []
        ∧ decode_base58 junk [] = some [junk 0]
        ∧ (encode_base58 [1, 0, 0, 0, 0, 0, 0, 0, 0]).bind (decode_base58 junk)
            ≠ some [1, 0, 0, 0, 0, 0, 0, 0, 0]) := by
  have e1 : encode_base58 [0] = some (cstr "1") := by decide
  have d1 : decode_base58 junk (cstr "1") = some [0, junk 1] := rfl
  have e2 : encode_base58 [1, 0, 0, 0, 0, 0, 0, 0, 0] = some [] := by decide
  have d2 : decode_base58 junk [] = some [junk 0] := rfl
  refine ⟨⟨e1, d1, ?_⟩, e2, d2, ?_⟩
  · rw [e1, Option.some_bind, d1]; simp
  · rw [e2, Option.some_bind, d2]; simp

/-- C2, a defect of the code: the base-62 round trip fails in the same two
ways as the base-58 one.  The single zero byte is encoded as "0", which decodes
to two bytes; the nine bytes `01 00 00 00 00 00 00 00 00` are encoded as the
empty text, which decodes to one byte that was never written. -/
theorem base62_round_trip_fails (junk : Nat → Byte) :
    (encode_base62 [0] = some (cstr "0")
        ∧ decode_base62 junk (cstr "0") = some [0, junk 1]
        ∧ (encode_base62 [0]).bind (decode_base62 junk) ≠ some [0])
      ∧ (encode_base62 [1, 0, 0, 0, 0, 0, 0, 0, 0] = some []
        ∧ decode_base62 junk [] = some [junk 0]
        ∧ (encode_base62 [1, 0, 0, 0, 0, 0, 0, 0, 0]).bind (decode_base62 junk)
            ≠ some [1, 0, 0, 0, 0, 0, 0, 0, 0]) := by
  have e1 : encode_base62 [0] = some (cstr "0") := by decide
  have d1 : decode_base62 junk (cstr "0") = some [0, junk 1] := rfl
  have e2 : encode_base62 [1, 0, 0, 0, 0, 0, 0, 0, 0] = some [] := by decide
  have d2 : decode_base62 junk [] = some [junk 0] := rfl
  refine ⟨⟨e1, d1, ?_⟩, e2, d2, ?_⟩
  · rw [e1, Option.some_bind, d1]; simp
  · rw [e2, Option.some_bind, d2]; simp

/-- C6, a defect of the code: `encode_base58` does not divide until the
quotient is zero.  Its loop stops as soon as the low 64 bits of the dividend
are zero.  For the nine bytes `01 00 00 00 00 00 00 00 00` (the value `2 ^ 64`)
it returns the empty text, where the reference conversion gives "jpXCZedGfVR";
for the bytes `3A 00 00 00 00 00 00 00 05` (the value `58 * 2 ^ 64 + 5`) it
returns "6", where the reference conversion gives "jpXCZedGfVR6". -/
theorem encode_base58_stops_early :
    be_value [1, 0, 0, 0, 0, 0, 0, 0, 0] = 2 ^ 64
      ∧ encode_base58 [1, 0, 0, 0, 0, 0, 0, 0, 0] = some []
      ∧ base58_reference [1, 0, 0, 0, 0, 0, 0, 0, 0] = cstr "jpXCZedGfVR"
      ∧ be_value [58, 0, 0, 0, 0, 0, 0, 0, 5] = 58 * 2 ^ 64 + 5
      ∧ encode_base58 [58, 0, 0, 0, 0, 0, 0, 0, 5] = some (cstr "6")
      ∧ base58_reference [58, 0, 0, 0, 0, 0, 0, 0, 5] = cstr "jpXCZedGfVR6" := by
  decide

/-- C7, a defect of the code: for a text whose digit value is zero,
`decode_base58` returns one byte more than the leading `'1'` characters call
for, and never writes that byte: "1" gives two bytes, "111" gives four, the
empty text gives one. -/
theorem decode_base58_zero_value (junk : Nat → Byte) :
    decode_base58 junk (cstr "1") = some [0, junk 1]
      ∧ decode_base58 junk (cstr "111") = some [0, 0, 0, junk 3]
      ∧ decode_base58 junk [] = some [junk 0] :=
  ⟨rfl, rfl, rfl⟩

/-! ### scrub_zeros -/

theorem store_U64_zero (data : List Byte) (w : Nat) (h : 8 * w + 8 ≤ data.length) :
    store_U64 data w 0 = some (data.take (8 * w) ++ List.replicate 8 0 ++ data.drop (8 * w + 8)) := by
  have e : (List.range 8).map (fun j => toByte (0 >>> (8 * j))) = List.replicate 8 (0 : Byte) := by
    decide
  simp only [store_U64, h, ↓reduceIte, e]

theorem scrub_zeros_words_eq (data0 : List Byte) : ∀ (k i : Nat), 8 * (i + k) ≤ data0.length →
    scrub_zeros_words k i (List.replicate (8 * i) 0 ++ data0.drop (8 * i))
      = some (List.replicate (8 * (i + k)) 0 ++ data0.drop (8 * (i + k))) := by
  intro k
  induction k with
  | zero => intro i _; simp [scrub_zeros_words]
  | succ k ih =>
    intro i hlen
    have hl : 8 * i + 8 ≤ (List.replicate (8 * i) (0 : Byte) ++ data0.drop (8 * i)).length := by
      simp only [List.length_append, List.length_replicate, List.length_drop]; omega
    have e1 : (List.replicate (8 * i) (0 : Byte) ++ data0.drop (8 * i)).take (8 * i)
        = List.replicate (8 * i) 0 := by
      rw [List.take_append_of_le_length (by simp)]
      simp
    have e2 : (List.replicate (8 * i) (0 : Byte) ++ data0.drop (8 * i)).drop (8 * i + 8)
        = data0.drop (8 * (i + 1)) := by
      rw [List.drop_append_eq_append_drop]
      simp only [List.length_replicate, List.drop_drop]
      rw [List.drop_eq_nil_of_le (by simp)]
      simp only [List.nil_append]
      congr 1; omega
    have e3 : List.replicate (8 * i) (0 : Byte) ++ List.replicate 8 0
        = List.replicate (8 * (i + 1)) 0 := by
      rw [List.append_replicate_replicate, Nat.mul_add]
    simp only [scrub_zeros_words, store_U64_zero _ _ hl, e1, e2, e3, Option.bind_eq_bind,
      Option.some_bind]
    rw [ih (i + 1) (by omega)]
    congr 3 <;> omega

theorem set_replicate_drop (data0 : List Byte) (n : Nat) (h : n < data0.length) :
    (List.replicate n (0 : Byte) ++ data0.drop n).set n 0
      = List.replicate (n + 1) 0 ++ data0.drop (n + 1) := by
  rw [List.set_append_right _ _ (by simp), List.drop_eq_getElem_cons h]
  simp only [List.length_replicate, Nat.sub_self, List.set_cons_zero]
  rw [List.replicate_succ', List.append_assoc]
  rfl

theorem scrub_zeros_bytes_eq (data0 : List Byte) (start : Nat) : ∀ (k i : Nat),
    start + i + k ≤ data0.length →
    scrub_zeros_bytes start k i (List.replicate (start + i) 0 ++ data0.drop (start + i))
      = some (List.replicate (start + i + k) 0 ++ data0.drop (start + i + k)) := by
  intro k
  induction k with
  | zero => intro i _; simp [scrub_zeros_bytes]
  | succ k ih =>
    intro i hlen
    have hl : start + i < (List.replicate (start + i) (0 : Byte) ++ data0.drop (start + i)).length := by
      simp only [List.length_append, List.length_replicate, List.length_drop]; omega
    simp only [scrub_zeros_bytes, store_Byte, hl, ↓reduceIte, Option.bind_eq_bind,
      Option.some_bind]
    rw [set_replicate_drop data0 (start + i) (by omega)]
    have := ih (i + 1) (by omega)
    rw [show start + (i + 1) = start + i + 1 by omega] at this
    rw [this]
    congr 3 <;> omega

theorem scrub_zeros_eq (data : List Byte) (size : Nat) (h : size ≤ data.length) :
    scrub_zeros data size = some (List.replicate size 0 ++ data.drop size) := by
  have hw := scrub_zeros_words_eq data (size / 8) 0 (by omega)
  simp only [Nat.mul_zero, List.replicate_zero, List.drop_zero, List.nil_append,
    Nat.zero_add] at hw
  have hb := scrub_zeros_bytes_eq data (8 * (size / 8)) (size - 8 * (size / 8)) 0 (by omega)
  simp only [Nat.add_zero] at hb
  have e : size - (size - 8 * (size / 8)) = 8 * (size / 8) := by omega
  have e2 : 8 * (size / 8) + (size - 8 * (size / 8)) = size := by omega
  simp only [scrub_zeros, hw, Option.bind_eq_bind, Option.some_bind, e, hb, e2]

/-- C18: scrub law.  For every buffer and every `size` not larger than the
buffer, `scrub_zeros(data, size)` returns, the buffer keeps its length, and
every byte at an index below `size` is zero. -/
theorem scrub_zeros_law (data : List Byte) (size : Nat) (hsize : size ≤ data.length) :
    ∃ out, scrub_zeros data size = some out ∧ out.length = data.length
      ∧ ∀ i, i < size → out[i]? = some 0 := by
  refine ⟨_, scrub_zeros_eq data size hsize, ?_, ?_⟩
  · simp only [List.length_append, List.length_replicate, List.length_drop]; omega
  · intro i hi
    rw [List.getElem?_append_left (by simpa using hi)]
    simp [hi]

/-- The scrub law on 1024 bytes `ff` with the size 1021. -/
theorem scrub_zeros_law_witness :
    1021 ≤ (List.replicate 1024 (0xff : Byte)).length
      ∧ ∃ out, scrub_zeros (List.replicate 1024 0xff) 1021 = some out
        ∧ out.length = (List.replicate 1024 (0xff : Byte)).length
        ∧ ∀ i, i < 1021 → out[i]? = some 0 :=
  ⟨by rw [List.length_replicate]; norm_num,
    scrub_zeros_law (List.replicate 1024 0xff) 1021 (by rw [List.length_replicate]; norm_num)⟩

/-- C19: scrub frame.  For every buffer and every `size` not larger than
the buffer, `scrub_zeros(data, size)` returns and leaves every byte at an index
`size` or above as it was. -/
theorem scrub_zeros_frame (data : List Byte) (size : Nat) (hsize : size ≤ data.length) :
    ∃ out, scrub_zeros data size = some out
      ∧ ∀ i, size ≤ i → out[i]? = data[i]? := by
  refine ⟨_, scrub_zeros_eq data size hsize, ?_⟩
  intro i hi
  rw [List.getElem?_append_right (by simpa using hi)]
  simp only [List.length_replicate, List.getElem?_drop]
  congr 1; omega

/-- The scrub frame on 1024 bytes `ff` with the size 1021: the bytes 1021 to
1023 are still `ff`. -/
theorem scrub_zeros_frame_witness :
    1021 ≤ (List.replicate 1024 (0xff : Byte)).length
      ∧ ∃ out, scrub_zeros (List.replicate 1024 0xff) 1021 = some out
        ∧ ∀ i, 1021 ≤ i → out[i]? = (List.replicate 1024 (0xff : Byte))[i]? :=
  ⟨by rw [List.length_replicate]; norm_num,
    scrub_zeros_frame (List.replicate 1024 0xff) 1021 (by rw [List.length_replicate]; norm_num)⟩

theorem scrubber_call_some (s : Scrubber) (data : List Byte) :
    ∃ out, s.call data data.length = some out ∧ out.length = data.length := by
  cases s
  · exact ⟨data, rfl, rfl⟩
  · refine ⟨_, scrub_zeros_eq data data.length (le_refl _), by simp⟩

/-! ### the subset constructor -/

theorem U64_sub_eq (a b : Nat) (ha : a < U64_MOD) (hb : b ≤ a) : U64_sub a b = a - b := by
  unfold U64_sub
  rw [show a + U64_MOD - b = (a - b) + U64_MOD by omega, Nat.add_mod_right]
  exact Nat.mod_eq_of_lt (by omega)

theorem subset_fields (P : Blob) (size offset : Nat) (junkCompare : CompareType)
    (hn : P.size_ < U64_MOD) :
    P.subset size offset junkCompare
      = { container_ := P.container_, scrubType_ := P.scrubType_, compareType_ := junkCompare,
          comparator_ := P.comparator_, data_ := P.data_.add (min offset P.size_),
          size_ := min size (P.size_ - min offset P.size_) } := by
  have hmin : (if offset > P.size_ then P.size_ else offset) = min offset P.size_ := by
    split_ifs <;> omega
  have hsub := U64_sub_eq P.size_ (min offset P.size_) hn (Nat.min_le_right _ _)
  simp only [Blob.subset, hmin, hsub]
  congr 1
  split_ifs <;> omega

/-- C11: the bounds of a subset are clamped.  For every view `P` whose size
`n` is a `U64` and all numbers `size` and `offset`, the view
`Blob(P, size, offset)` starts at `P.data() + min offset n` and has the size
`min size (n - min offset n)`; the effective offset plus the size is at most
`n`, the effective offset is at most `n`, so that the `U64` subtraction
`n - offset` of the code is the exact difference, and the sum of the effective
offset and the size is below `2 ^ 64`. -/
theorem subset_bounds_clamped (m : Memory) (P : Blob) (size offset : Nat)
    (junkCompare : CompareType) (hn : P.size < U64_MOD) :
    (Blob.ctor_subset m P size offset junkCompare).2.data
        = P.data.add (min offset P.size)
      ∧ (Blob.ctor_subset m P size offset junkCompare).2.size
        = min size (P.size - min offset P.size)
      ∧ min offset P.size
          + (Blob.ctor_subset m P size offset junkCompare).2.size ≤ P.size
      ∧ min offset P.size ≤ P.size
      ∧ U64_sub P.size (min offset P.size) = P.size - min offset P.size
      ∧ min offset P.size
          + (Blob.ctor_subset m P size offset junkCompare).2.size < U64_MOD := by
  have hf := subset_fields P size offset junkCompare hn
  simp only [Blob.size] at hn ⊢
  simp only [Blob.ctor_subset, Blob.data, hf]
  refine ⟨trivial, trivial, by omega, Nat.min_le_right _ _,
    U64_sub_eq _ _ hn (Nat.min_le_right _ _), by omega⟩

/-- Clamping with `size` and `offset` both `2 ^ 64 - 1` on a view of four
bytes: the subset is empty and starts at the end of the view. -/
theorem subset_bounds_clamped_witness :
    (⟨1, ScrubType.NONE, CompareType.DEFAULT, Comparator.memcmp, ⟨1, 0⟩, 4⟩ : Blob).size < U64_MOD
      ∧ (Blob.ctor_subset ⟨fun _ => [1, 2, 3, 4], fun _ => Scrubber.null, fun _ => 1, 2⟩
          ⟨1, ScrubType.NONE, CompareType.DEFAULT, Comparator.memcmp, ⟨1, 0⟩, 4⟩
          (2 ^ 64 - 1) (2 ^ 64 - 1) CompareType.DEFAULT).2.size = 0
      ∧ (Blob.ctor_subset ⟨fun _ => [1, 2, 3, 4], fun _ => Scrubber.null, fun _ => 1, 2⟩
          ⟨1, ScrubType.NONE, CompareType.DEFAULT, Comparator.memcmp, ⟨1, 0⟩, 4⟩
          (2 ^ 64 - 1) (2 ^ 64 - 1) CompareType.DEFAULT).2.data = ⟨1, 4⟩ := by
  have h := subset_bounds_clamped ⟨fun _ => [1, 2, 3, 4], fun _ => Scrubber.null, fun _ => 1, 2⟩
    ⟨1, ScrubType.NONE, CompareType.DEFAULT, Comparator.memcmp, ⟨1, 0⟩, 4⟩
    (2 ^ 64 - 1) (2 ^ 64 - 1) CompareType.DEFAULT (by decide)
  exact ⟨by decide, by rw [h.2.1]; decide, by rw [h.1]; decide⟩

theorem subset_index (h : Heap) (P : Blob) (size offset : Nat) (junkCompare : CompareType)
    (hn : P.size_ < U64_MOD) (i : Nat) :
    (P.subset size offset junkCompare).index h i = P.index h (min offset P.size_ + i) := by
  rw [subset_fields P size offset junkCompare hn]
  simp only [Blob.index, Heap.read, Ptr.add, Nat.add_assoc]

/-- C12: sharing law.  For every view `P` and every in-range pair
(`offset ≤ n`, `size ≤ n - offset`), the subset view `Blob(P, size, offset)` has
the container of `P`, the memory holds the same bytes and no new allocation,
the container has one more owner, the data pointer is `P.data() + offset`, the
size is `size` and byte `i` is `P[offset + i]` for every `i < size`.  A plain
copy of a view has the same pointer, size and container.  Every byte of a
subset of that subset is a byte of the first subset at an index below its
size. -/
theorem subset_sharing (m : Memory) (P : Blob) (size offset size2 offset2 : Nat)
    (junkCompare junkCompare2 : CompareType)
    (hn : P.size < U64_MOD) (hoff : offset ≤ P.size) (hsize : size ≤ P.size - offset) :
    (Blob.ctor_subset m P size offset junkCompare).2.container_ = P.container_
      ∧ (Blob.ctor_subset m P size offset junkCompare).1.heap = m.heap
      ∧ (Blob.ctor_subset m P size offset junkCompare).1.next = m.next
      ∧ (Blob.ctor_subset m P size offset junkCompare).1.refs P.container_
          = m.refs P.container_ + 1
      ∧ (Blob.ctor_subset m P size offset junkCompare).2.data = P.data.add offset
      ∧ (Blob.ctor_subset m P size offset junkCompare).2.size = size
      ∧ (∀ (h : Heap) (i : Nat), i < size →
          (Blob.ctor_subset m P size offset junkCompare).2.index h i = P.index h (offset + i))
      ∧ ((Blob.copy m P).2.data = P.data ∧ (Blob.copy m P).2.size = P.size
          ∧ (Blob.copy m P).2.container_ = P.container_ ∧ (Blob.copy m P).1.heap = m.heap)
      ∧ (∀ i, i < ((Blob.ctor_subset m P size offset junkCompare).2.subset
              size2 offset2 junkCompare2).size →
          ∃ j, j < (Blob.ctor_subset m P size offset junkCompare).2.size
            ∧ ∀ h : Heap, ((Blob.ctor_subset m P size offset junkCompare).2.subset
                size2 offset2 junkCompare2).index h i
              = (Blob.ctor_subset m P size offset junkCompare).2.index h j) := by
  have hf := subset_fields P size offset junkCompare hn
  simp only [Blob.size] at hn hoff hsize
  have ho : min offset P.size_ = offset := Nat.min_eq_left hoff
  have hs : min size (P.size_ - offset) = size := Nat.min_eq_left hsize
  rw [ho, hs] at hf
  simp only [Blob.ctor_subset, Blob.copy, Blob.data, Blob.size, hf, Memory.retain,
    Function.update_same]
  refine ⟨trivial, trivial, trivial, trivial, trivial, trivial, ?_, ⟨trivial, trivial, trivial, trivial⟩, ?_⟩
  · intro h i _
    simp only [Blob.index, Heap.read, Ptr.add, Nat.add_assoc]
  · intro i hi
    have hf2 := subset_fields
      { container_ := P.container_, scrubType_ := P.scrubType_, compareType_ := junkCompare,
        comparator_ := P.comparator_, data_ := P.data_.add offset, size_ := size }
      size2 offset2 junkCompare2 (by simp only; omega)
    rw [hf2] at hi ⊢
    simp only at hi
    refine ⟨min offset2 size + i, by omega, ?_⟩
    intro h
    simp only [Blob.index, Heap.read, Ptr.add, Nat.add_assoc]

/-- The sharing law on the view of the bytes `01 02 03 04` with the size 3
and the offset 1. -/
theorem subset_sharing_witness :
    ((⟨1, ScrubType.NONE, CompareType.DEFAULT, Comparator.memcmp, ⟨1, 0⟩, 4⟩ : Blob).size < U64_MOD
        ∧ 1 ≤ (⟨1, ScrubType.NONE, CompareType.DEFAULT, Comparator.memcmp, ⟨1, 0⟩, 4⟩ : Blob).size
        ∧ 3 ≤ (⟨1, ScrubType.NONE, CompareType.DEFAULT, Comparator.memcmp, ⟨1, 0⟩, 4⟩ : Blob).size
            - 1)
      ∧ (Blob.ctor_subset ⟨fun _ => [1, 2, 3, 4], fun _ => Scrubber.null, fun _ => 1, 2⟩
          ⟨1, ScrubType.NONE, CompareType.DEFAULT, Comparator.memcmp, ⟨1, 0⟩, 4⟩
          3 1 CompareType.DEFAULT).2.data
        = (⟨1, ScrubType.NONE, CompareType.DEFAULT, Comparator.memcmp, ⟨1, 0⟩, 4⟩ : Blob).data.add 1
      ∧ (Blob.ctor_subset ⟨fun _ => [1, 2, 3, 4], fun _ => Scrubber.null, fun _ => 1, 2⟩
          ⟨1, ScrubType.NONE, CompareType.DEFAULT, Comparator.memcmp, ⟨1, 0⟩, 4⟩
          3 1 CompareType.DEFAULT).2.size = 3 :=
  have h := subset_sharing ⟨fun _ => [1, 2, 3, 4], fun _ => Scrubber.null, fun _ => 1, 2⟩
    ⟨1, ScrubType.NONE, CompareType.DEFAULT, Comparator.memcmp, ⟨1, 0⟩, 4⟩ 3 1 0 0
    CompareType.DEFAULT CompareType.DEFAULT (by decide) (by decide) (by decide)
  ⟨⟨by decide, by decide, by decide⟩, h.2.2.2.2.1, h.2.2.2.2.2.1⟩

theorem subset_bytes (h : Heap) (P : Blob) (size offset : Nat) (junkCompare : CompareType)
    (hn : P.size_ < U64_MOD) :
    (P.subset size offset junkCompare).bytes h
      = (List.range (min size (P.size_ - min offset P.size_))).map
          (fun i => P.index h (min offset P.size_ + i)) := by
  rw [subset_fields P size offset junkCompare hn]
  simp only [Blob.bytes]
  apply List.map_congr_left
  intro i _
  simp only [Blob.index, Heap.read, Ptr.add, Nat.add_assoc]

/-- C20: encoding covers the visible subrange only.  For every view `P`
whose size `n` is a `U64`, all numbers `size` and `offset` and every encoder
`E`, `Blob(P, size, offset).data(E)` is `E` applied to the bytes
`P[o], ..., P[o + s - 1]` with `o = min offset n` and `s = min size (n - o)`;
and the result is the same in every memory that agrees with this one on those
bytes. -/
theorem subset_data_encoded {α : Type} (m : Memory) (P : Blob) (size offset : Nat)
    (junkCompare : CompareType) (E : List Byte → α) (hn : P.size < U64_MOD) :
    (Blob.ctor_subset m P size offset junkCompare).2.data_encoded m.heap E
        = E ((List.range (min size (P.size - min offset P.size))).map
              (fun i => P.index m.heap (min offset P.size + i)))
      ∧ ∀ h : Heap,
          (∀ i, i < min size (P.size - min offset P.size) →
            P.index h (min offset P.size + i) = P.index m.heap (min offset P.size + i)) →
          (Blob.ctor_subset m P size offset junkCompare).2.data_encoded h E
            = (Blob.ctor_subset m P size offset junkCompare).2.data_encoded m.heap E := by
  simp only [Blob.size] at hn ⊢
  simp only [Blob.ctor_subset, Blob.data_encoded, subset_bytes _ P size offset junkCompare hn]
  refine ⟨trivial, ?_⟩
  intro h hagree
  congr 1
  apply List.map_congr_left
  intro i hi
  exact hagree i (List.mem_range.mp hi)

/-- The hexadecimal text of the subset of size 2 at offset 1 of the bytes
`01 02 03 04` is "0203". -/
theorem subset_data_encoded_witness :
    (⟨1, ScrubType.NONE, CompareType.DEFAULT, Comparator.memcmp, ⟨1, 0⟩, 4⟩ : Blob).size < U64_MOD
      ∧ (Blob.ctor_subset ⟨fun _ => [1, 2, 3, 4], fun _ => Scrubber.null, fun _ => 1, 2⟩
          ⟨1, ScrubType.NONE, CompareType.DEFAULT, Comparator.memcmp, ⟨1, 0⟩, 4⟩
          2 1 CompareType.DEFAULT).2.data_encoded (fun _ => [1, 2, 3, 4]) encode_hex
        = some (cstr "0203") := by
  have h := (subset_data_encoded ⟨fun _ => [1, 2, 3, 4], fun _ => Scrubber.null, fun _ => 1, 2⟩
    ⟨1, ScrubType.NONE, CompareType.DEFAULT, Comparator.memcmp, ⟨1, 0⟩, 4⟩
    2 1 CompareType.DEFAULT encode_hex (by decide)).1
  exact ⟨by decide, by rw [h]; decide⟩

/-! ### the memory of containers -/

theorem newBytes_length (junk : Nat → Byte) (n : Nat) : (newBytes junk n).length = n := by
  simp [newBytes]

theorem blob_eta (a : Blob) :
    ({ container_ := a.container_, scrubType_ := a.scrubType_, compareType_ := a.compareType_,
       comparator_ := a.comparator_, data_ := a.data_, size_ := a.size_ } : Blob) = a := rfl

theorem release_shared (m : Memory) (c : Nat) (h : 2 ≤ m.refs c) :
    m.release c = some { m with refs := Function.update m.refs c (m.refs c - 1) } := by
  have : ¬ m.refs c ≤ 1 := by omega
  simp only [Memory.release, this, ↓reduceIte]

theorem memcpy_whole (m : Memory) (c : Nat) (src : Ptr) :
    m.memcpy ⟨c, 0⟩ src (m.heap c).length
      = some { heap := Function.update m.heap c
                         ((List.range (m.heap c).length).map (m.heap.read src)),
               scrubber := m.scrubber, refs := m.refs, next := m.next } := by
  simp only [Memory.memcpy, Nat.zero_add, le_refl, ↓reduceIte, List.take_zero, List.nil_append,
    List.drop_length, List.append_nil]

theorem read_congr (h h2 : Heap) (p : Ptr) (e : h2 p.block = h p.block) (i : Nat) :
    h2.read p i = h.read p i := by
  simp only [Heap.read, e]

theorem read_fresh (h : Heap) (c n : Nat) (f : Nat → Byte)
    (e : h c = (List.range n).map f) (i : Nat) (hi : i < n) :
    h.read ⟨c, 0⟩ i = f i := by
  simp only [Heap.read, e, Nat.zero_add]
  rw [List.getD_eq_getElem?_getD, List.getElem?_map, List.getElem?_range hi]
  rfl

theorem dataIs_shared (m : Memory) (junk : Nat → Byte) (a : Blob) (stream : Ptr) (n : Nat)
    (scrubType : ScrubType) (compareType : CompareType)
    (hne : a.container_ ≠ m.next) (h2 : 2 ≤ m.refs a.container_) :
    Blob.dataIs m junk a stream n scrubType compareType
      = some ({ heap := Function.update m.heap m.next
                          ((List.range n).map
                            (Heap.read (Function.update m.heap m.next (newBytes junk n)) stream)),
                scrubber := Function.update m.scrubber m.next (Blob.scrubberForType scrubType),
                refs := Function.update (Function.update m.refs m.next 1) a.container_
                  (m.refs a.container_ - 1),
                next := m.next + 1 },
              { container_ := m.next, scrubType_ := scrubType, compareType_ := compareType,
                comparator_ := Blob.comparatorForType compareType,
                data_ := ⟨m.next, 0⟩, size_ := n }) := by
  have hrel := release_shared (m.make_shared_Container junk n (Blob.scrubberForType scrubType)).1
    a.container_ (by
      simp only [Memory.make_shared_Container, Function.update_noteq hne]; exact h2)
  simp only [Blob.dataIs, hrel, Option.bind_eq_bind, Option.some_bind, memcpy_whole]
  simp only [Memory.make_shared_Container, Function.update_same, newBytes_length,
    Function.update_idem, Function.update_noteq hne]

/-- C14: rebinding independence.  For every well-formed view `A`, its copy
`B` (which shares the container of `A`) and every stream of an existing block,
`A.dataIs(stream, n)` returns, and afterwards `A` has size `n` and its bytes are
the `n` bytes of the stream, while `B` has the container, size and data pointer
it had, every byte seen through `B` is unchanged, and the container of `B` is
still owned. -/
theorem dataIs_rebinding (m : Memory) (junk : Nat → Byte) (A : Blob) (stream : Ptr) (n : Nat)
    (scrubType : ScrubType) (compareType : CompareType)
    (hA : A.valid m) (hstream : stream.block < m.next) :
    ∃ m' A', Blob.dataIs (Blob.copy m A).1 junk A stream n scrubType compareType = some (m', A')
      ∧ A'.size = n ∧ (∀ i, i < n → A'.index m'.heap i = m.heap.read stream i)
      ∧ (Blob.copy m A).2.container_ = A.container_
      ∧ (Blob.copy m A).2.size = A.size ∧ (Blob.copy m A).2.data = A.data
      ∧ (∀ i, i < A.size → (Blob.copy m A).2.index m'.heap i = A.index m.heap i)
      ∧ 1 ≤ m'.refs A.container_ := by
  obtain ⟨hc, hr, hview⟩ := hA
  have hne : A.container_ ≠ m.next := by omega
  have hsne : stream.block ≠ m.next := by omega
  have hd := dataIs_shared (Blob.copy m A).1 junk A stream n scrubType compareType hne (by
    simp only [Blob.copy, Memory.retain, Function.update_same]; omega)
  refine ⟨_, _, hd, rfl, ?_, rfl, rfl, rfl, ?_, ?_⟩
  · intro i hi
    simp only [Blob.index, Blob.copy, Memory.retain]
    rw [read_fresh _ m.next n
      (Heap.read (Function.update m.heap m.next (newBytes junk n)) stream)
      (by simp only [Function.update_same]) i hi]
    exact read_congr _ _ _ (by simp only [Function.update_noteq hsne]) i
  · intro i hi
    rcases hview with ⟨_, hz⟩ | ⟨hb, _⟩
    · simp only [Blob.size] at hi; omega
    · simp only [Blob.index, Blob.copy, Memory.retain]
      apply read_congr
      rw [hb, Function.update_noteq hne]
  · simp only [Blob.copy, Memory.retain, Function.update_same]
    omega

/-- Rebinding a view of four bytes to three bytes of another block. -/
theorem dataIs_rebinding_witness :
    ((⟨1, ScrubType.NONE, CompareType.DEFAULT, Comparator.memcmp, ⟨1, 0⟩, 4⟩ : Blob).valid
          ⟨fun b => if b = 1 then [1, 2, 3, 4] else [0xa, 0xb, 0xc], fun _ => Scrubber.null,
            fun _ => 1, 3⟩
        ∧ (⟨2, 0⟩ : Ptr).block
          < (⟨fun b => if b = 1 then [1, 2, 3, 4] else [0xa, 0xb, 0xc], fun _ => Scrubber.null,
              fun _ => 1, 3⟩ : Memory).next)
      ∧ ∃ m' A', Blob.dataIs
          (Blob.copy ⟨fun b => if b = 1 then [1, 2, 3, 4] else [0xa, 0xb, 0xc],
              fun _ => Scrubber.null, fun _ => 1, 3⟩
            ⟨1, ScrubType.NONE, CompareType.DEFAULT, Comparator.memcmp, ⟨1, 0⟩, 4⟩).1
          (fun _ => 0) ⟨1, ScrubType.NONE, CompareType.DEFAULT, Comparator.memcmp, ⟨1, 0⟩, 4⟩
          ⟨2, 0⟩ 3 ScrubType.NONE CompareType.DEFAULT = some (m', A')
        ∧ A'.size = 3 :=
  have h := dataIs_rebinding
    ⟨fun b => if b = 1 then [1, 2, 3, 4] else [0xa, 0xb, 0xc], fun _ => Scrubber.null,
      fun _ => 1, 3⟩ (fun _ => 0)
    ⟨1, ScrubType.NONE, CompareType.DEFAULT, Comparator.memcmp, ⟨1, 0⟩, 4⟩ ⟨2, 0⟩ 3
    ScrubType.NONE CompareType.DEFAULT
    ⟨by decide, by decide, Or.inr ⟨rfl, by decide⟩⟩ (by decide)
  ⟨⟨⟨by decide, by decide, Or.inr ⟨rfl, by decide⟩⟩, by decide⟩,
    h.elim fun m' h1 => h1.elim fun A' h2 => ⟨m', A', h2.1, h2.2.1⟩⟩

/-! ### MutableBlob -/

theorem ctor_stream_eq (m : Memory) (junk : Nat → Byte) (stream : Ptr) (n : Nat)
    (scrubType : ScrubType) (compareType : CompareType) :
    Blob.ctor_stream m junk stream n scrubType compareType
      = some ({ heap := Function.update m.heap m.next
                          ((List.range n).map
                            (Heap.read (Function.update m.heap m.next (newBytes junk n)) stream)),
                scrubber := Function.update m.scrubber m.next (Blob.scrubberForType scrubType),
                refs := Function.update m.refs m.next 1,
                next := m.next + 1 },
              { container_ := m.next, scrubType_ := scrubType, compareType_ := compareType,
                comparator_ := Blob.comparatorForType compareType,
                data_ := ⟨m.next, 0⟩, size_ := n }) := by
  simp only [Blob.ctor_stream, Option.bind_eq_bind, Option.some_bind, memcpy_whole]
  simp only [Memory.make_shared_Container, Function.update_same, newBytes_length,
    Function.update_idem]

theorem valid_read_fresh (m : Memory) (v : Blob) (hv : v.valid m) (l : List Byte) (j : Nat)
    (hj : j < v.size_) :
    Heap.read (Function.update m.heap m.next l) v.data_ j = m.heap.read v.data_ j := by
  obtain ⟨hc, _, hview⟩ := hv
  rcases hview with ⟨_, hz⟩ | ⟨hb, _⟩
  · omega
  · apply read_congr
    rw [Function.update_noteq (by rw [hb]; omega)]

theorem getD_set_self (l : List Byte) (i : Nat) (x : Byte) (h : i < l.length) :
    (l.set i x).getD i 0 = x := by
  rw [List.getD_eq_getElem?_getD, List.getElem?_set_self (by simpa using h)]
  rfl

theorem getD_set_other (l : List Byte) (i j : Nat) (x : Byte) (h : j ≠ i) :
    (l.set i x).getD j 0 = l.getD j 0 := by
  rw [List.getD_eq_getElem?_getD, List.getD_eq_getElem?_getD, List.getElem?_set_ne (Ne.symm h)]

theorem mutableBlob_set_eq (m : Memory) (mb : MutableBlob) (i : Nat) (x : Byte)
    (h : i < (m.heap mb.container_).length) :
    mb.set m i x
      = some { heap := Function.update m.heap mb.container_ ((m.heap mb.container_).set i x),
               scrubber := m.scrubber, refs := m.refs, next := m.next } := by
  simp only [MutableBlob.set, store_Byte, h, ↓reduceIte, Option.bind_eq_bind, Option.some_bind]

theorem ctor_Blob_eq (m : Memory) (junk : Nat → Byte) (v : Blob)
    (scrubType : ScrubType) (compareType : CompareType) :
    MutableBlob.ctor_Blob m junk v scrubType compareType
      = some ({ heap := Function.update m.heap m.next
                          ((List.range v.size_).map
                            (Heap.read (Function.update m.heap m.next (newBytes junk v.size_))
                              v.data_)),
                scrubber := Function.update m.scrubber m.next (Blob.scrubberForType scrubType),
                refs := Function.update m.refs m.next 1,
                next := m.next + 1 },
              ⟨{ container_ := m.next, scrubType_ := scrubType, compareType_ := compareType,
                 comparator_ := Blob.comparatorForType compareType,
                 data_ := ⟨m.next, 0⟩, size_ := v.size_ }⟩) := by
  simp only [MutableBlob.ctor_Blob, MutableBlob.ctor_stream, ctor_stream_eq, Option.bind_eq_bind,
    Option.some_bind, Blob.data, Blob.size]

/-- C16: a `MutableBlob` built from a view copies.  For every well-formed
view `v`, `MutableBlob(v)` has the size of `v` and the visible bytes of `v`, in
a container that did not exist before and that it alone owns, and the older
containers keep their bytes.  A write `m[i] = x` with `i` below the size
succeeds, reading `m[i]` back gives `x`, the other bytes of `m` are unchanged,
and so is every byte of every older container, hence every byte seen through
any view of them. -/
theorem mutableBlob_from_blob_copies (m : Memory) (junk : Nat → Byte) (v : Blob)
    (scrubType : ScrubType) (compareType : CompareType) (i : Nat) (x : Byte)
    (hv : v.valid m) :
    ∃ m1 mb, MutableBlob.ctor_Blob m junk v scrubType compareType = some (m1, mb)
      ∧ mb.size = v.size
      ∧ (∀ j, j < v.size → mb.index m1 j = v.index m.heap j)
      ∧ mb.container_ = m.next ∧ m1.refs mb.container_ = 1
      ∧ (∀ b, b < m.next → m1.heap b = m.heap b)
      ∧ (i < v.size → ∃ m2, mb.set m1 i x = some m2
          ∧ mb.index m2 i = x
          ∧ (∀ j, j ≠ i → mb.index m2 j = mb.index m1 j)
          ∧ (∀ b, b < m.next → m2.heap b = m.heap b)
          ∧ ∀ (w : Blob) (j : Nat), w.data.block < m.next →
              w.index m2.heap j = w.index m.heap j) := by
  have hctor := ctor_Blob_eq m junk v scrubType compareType
  refine ⟨_, _, hctor, rfl, ?_, rfl, ?_, ?_, ?_⟩
  · intro j hj
    simp only [MutableBlob.index, MutableBlob.data, Blob.index, Blob.data, Blob.size] at hj ⊢
    rw [read_fresh _ m.next v.size_
      (Heap.read (Function.update m.heap m.next (newBytes junk v.size_)) v.data_)
      (by simp only [Function.update_same]) j hj]
    exact valid_read_fresh m v hv _ j hj
  · simp only [Function.update_same]
  · intro b hb
    simp only [Function.update_noteq (show b ≠ m.next by omega)]
  · intro hi
    simp only [Blob.size] at hi
    have hlen : i < (List.map
        (Heap.read (Function.update m.heap m.next (newBytes junk v.size_)) v.data_)
        (List.range v.size_)).length := by simpa using hi
    refine ⟨_, mutableBlob_set_eq _ _ i x (by simpa only [Function.update_same] using hlen),
      ?_, ?_, ?_, ?_⟩
    · simp only [MutableBlob.index, MutableBlob.data, Heap.read, Function.update_same,
        Nat.zero_add, Function.update_idem]
      exact getD_set_self _ _ _ hlen
    · intro j hj
      simp only [MutableBlob.index, MutableBlob.data, Heap.read, Function.update_same,
        Nat.zero_add, Function.update_idem]
      exact getD_set_other _ _ _ _ hj
    · intro b hb
      simp only [Function.update_idem, Function.update_noteq (show b ≠ m.next by omega)]
    · intro w j hw
      simp only [Blob.index, Blob.data] at hw ⊢
      apply read_congr
      simp only [Function.update_idem, Function.update_noteq (show w.data_.block ≠ m.next by omega)]

/-- A `MutableBlob` built from the subset of size 3 at offset 1 of four bytes
has three bytes. -/
theorem mutableBlob_from_blob_copies_witness :
    (⟨1, ScrubType.NONE, CompareType.DEFAULT, Comparator.memcmp, ⟨1, 1⟩, 3⟩ : Blob).valid
        ⟨fun _ => [1, 2, 3, 4], fun _ => Scrubber.null, fun _ => 1, 2⟩
      ∧ ∃ m1 mb, MutableBlob.ctor_Blob
            ⟨fun _ => [1, 2, 3, 4], fun _ => Scrubber.null, fun _ => 1, 2⟩ (fun _ => 0)
            ⟨1, ScrubType.NONE, CompareType.DEFAULT, Comparator.memcmp, ⟨1, 1⟩, 3⟩
            ScrubType.NONE CompareType.DEFAULT = some (m1, mb)
          ∧ mb.size = 3 :=
  have h := mutableBlob_from_blob_copies
    ⟨fun _ => [1, 2, 3, 4], fun _ => Scrubber.null, fun _ => 1, 2⟩ (fun _ => 0)
    ⟨1, ScrubType.NONE, CompareType.DEFAULT, Comparator.memcmp, ⟨1, 1⟩, 3⟩
    ScrubType.NONE CompareType.DEFAULT 0 0xe
    ⟨by decide, by decide, Or.inr ⟨rfl, by decide⟩⟩
  ⟨⟨by decide, by decide, Or.inr ⟨rfl, by decide⟩⟩,
    h.elim fun m1 h1 => h1.elim fun mb h2 => ⟨m1, mb, h2.1, h2.2.1⟩⟩

/-- C15, a counterexample: a `Blob` built from a `MutableBlob` shares its
container.  A `MutableBlob` is built from the bytes `01 02 03 04` and a `Blob`
is built from it: both have the container 2.  The first byte seen through the
`Blob` is `01`; after the write `m[0] = 0x0e` through the `MutableBlob` it is
`0e`. -/
theorem blob_from_mutableBlob_aliases :
    (MutableBlob.ctor_stream
        ⟨fun _ => [1, 2, 3, 4], fun _ => Scrubber.null, fun _ => 1, 2⟩ (fun _ => 0)
        ⟨1, 0⟩ 4 ScrubType.NONE CompareType.DEFAULT).bind
      (fun r => (r.2.set (Blob.ctor_MutableBlob r.1 r.2).1 0 0xe).map
        (fun m3 =>
          ( (Blob.ctor_MutableBlob r.1 r.2).2.container_,
            r.2.container_,
            (Blob.ctor_MutableBlob r.1 r.2).2.index (Blob.ctor_MutableBlob r.1 r.2).1.heap 0,
            (Blob.ctor_MutableBlob r.1 r.2).2.index m3.heap 0 )))
      = some (2, 2, 1, 0xe) := by
  decide

theorem blob_ctor_MutableBlob_eq (m : Memory) (mb : MutableBlob) :
    Blob.ctor_MutableBlob m mb
      = ({ heap := m.heap, scrubber := m.scrubber,
           refs := Function.update m.refs mb.container_ (m.refs mb.container_ + 1),
           next := m.next }, mb.toBlob) := rfl

/-- C15 as the code has it: a `Blob` built from a `MutableBlob` is made by
the defaulted copy constructor and shares the container.  For every well-formed
`MutableBlob` `m`, the `Blob` built from it has the container, data pointer and
size of `m`, no byte of the memory changes and nothing is allocated, and the
container has one more owner; a later write `m[i] = x` with `i` below the size
is seen through the `Blob` at index `i`, and the bytes at the other indices are
unchanged. -/
theorem blob_from_mutableBlob_shares (m : Memory) (mb : MutableBlob) (i : Nat) (x : Byte)
    (hmb : mb.valid m) (hi : i < mb.size) :
    (Blob.ctor_MutableBlob m mb).2.container_ = mb.container_
      ∧ (Blob.ctor_MutableBlob m mb).2.data = mb.data
      ∧ (Blob.ctor_MutableBlob m mb).2.size = mb.size
      ∧ (Blob.ctor_MutableBlob m mb).1.heap = m.heap
      ∧ (Blob.ctor_MutableBlob m mb).1.next = m.next
      ∧ (Blob.ctor_MutableBlob m mb).1.refs mb.container_ = m.refs mb.container_ + 1
      ∧ ∃ m2, mb.set (Blob.ctor_MutableBlob m mb).1 i x = some m2
          ∧ (Blob.ctor_MutableBlob m mb).2.index m2.heap i = x
          ∧ ∀ j, j ≠ i →
              (Blob.ctor_MutableBlob m mb).2.index m2.heap j
                = (Blob.ctor_MutableBlob m mb).2.index m.heap j := by
  obtain ⟨b⟩ := mb
  obtain ⟨_, _, hdata, hsize⟩ := hmb
  simp only [Blob.size] at hi
  simp only at hdata hsize hi
  have hlen : i < (m.heap b.container_).length := by omega
  have hb : b.data_.block = b.container_ := by rw [hdata]
  have ho : b.data_.off = 0 := by rw [hdata]
  rw [blob_ctor_MutableBlob_eq]
  refine ⟨rfl, by simp only [Blob.data, MutableBlob.data, hdata], rfl, rfl, rfl, by
    simp only [Function.update_same], _, mutableBlob_set_eq _ ⟨b⟩ i x hlen, ?_, ?_⟩
  · simp only [Blob.index, Heap.read, ho, Nat.zero_add]
    rw [hb, Function.update_same]
    exact getD_set_self _ _ _ hlen
  · intro j hj
    simp only [Blob.index, Heap.read, ho, Nat.zero_add]
    rw [hb, Function.update_same]
    exact getD_set_other _ _ _ _ hj

/-- A write through a `MutableBlob` of four bytes is seen through the `Blob`
built from it. -/
theorem blob_from_mutableBlob_shares_witness :
    ((⟨⟨1, ScrubType.NONE, CompareType.DEFAULT, Comparator.memcmp, ⟨1, 0⟩, 4⟩⟩ : MutableBlob).valid
          ⟨fun _ => [1, 2, 3, 4], fun _ => Scrubber.null, fun _ => 1, 2⟩
        ∧ 0 < (⟨⟨1, ScrubType.NONE, CompareType.DEFAULT, Comparator.memcmp, ⟨1, 0⟩, 4⟩⟩
            : MutableBlob).size)
      ∧ ∃ m2, (⟨⟨1, ScrubType.NONE, CompareType.DEFAULT, Comparator.memcmp, ⟨1, 0⟩, 4⟩⟩
            : MutableBlob).set
            (Blob.ctor_MutableBlob ⟨fun _ => [1, 2, 3, 4], fun _ => Scrubber.null, fun _ => 1, 2⟩
              ⟨⟨1, ScrubType.NONE, CompareType.DEFAULT, Comparator.memcmp, ⟨1, 0⟩, 4⟩⟩).1
            0 0xe = some m2
          ∧ (Blob.ctor_MutableBlob ⟨fun _ => [1, 2, 3, 4], fun _ => Scrubber.null, fun _ => 1, 2⟩
              ⟨⟨1, ScrubType.NONE, CompareType.DEFAULT, Comparator.memcmp, ⟨1, 0⟩, 4⟩⟩).2.index
              m2.heap 0 = 0xe :=
  have h := blob_from_mutableBlob_shares
    ⟨fun _ => [1, 2, 3, 4], fun _ => Scrubber.null, fun _ => 1, 2⟩
    ⟨⟨1, ScrubType.NONE, CompareType.DEFAULT, Comparator.memcmp, ⟨1, 0⟩, 4⟩⟩ 0 0xe
    ⟨by decide, by decide, rfl, by decide⟩ (by decide)
  ⟨⟨⟨by decide, by decide, rfl, by decide⟩, by decide⟩,
    h.2.2.2.2.2.2.elim fun m2 h2 => ⟨m2, h2.1, h2.2.1⟩⟩

/-! ### dataIsNull -/

theorem release_isSome (m : Memory) (c : Nat) : ∃ m', m.release c = some m' := by
  by_cases h : m.refs c ≤ 1
  · obtain ⟨out, hout, _⟩ := scrubber_call_some (m.scrubber c) (m.heap c)
    exact ⟨{ heap := Function.update m.heap c out, scrubber := m.scrubber,
             refs := Function.update m.refs c 0, next := m.next }, by
      simp only [Memory.release, h, ↓reduceIte, Memory.destroy_Container, hout,
        Option.bind_eq_bind, Option.some_bind]⟩
  · exact ⟨{ heap := m.heap, scrubber := m.scrubber,
             refs := Function.update m.refs c (m.refs c - 1), next := m.next }, by
      simp only [Memory.release, h, ↓reduceIte]⟩

/-- C17, a defect of the code: `dataIsNull` does not reset the comparator
policy.  For every view, `dataIsNull()` returns, the view is then empty, its
disposal policy is `NONE` and its comparator is the one of the default policy,
but `compareType()` still gives the policy the view had before.  A view built
with `ZEROS` and `CONST` reports, after `dataIsNull()`, the size 0, `NONE`, the
comparator `compare_memcmp` and the policy `CONST`. -/
theorem dataIsNull_keeps_compareType :
    (∀ (m : Memory) (junk : Nat → Byte) (a : Blob),
        ∃ m' a', Blob.dataIsNull m junk a = some (m', a')
          ∧ a'.size = 0 ∧ a'.scrubType = ScrubType.NONE
          ∧ a'.comparator_ = Blob.comparatorForType CompareType.DEFAULT
          ∧ a'.compareType = a.compareType)
      ∧ (Blob.dataIsNull
            (Blob.ctor_size ⟨fun _ => [], fun _ => Scrubber.null, fun _ => 0, 1⟩ (fun _ => 0xff)
              4 ScrubType.ZEROS CompareType.CONST).1 (fun _ => 0xff)
            (Blob.ctor_size ⟨fun _ => [], fun _ => Scrubber.null, fun _ => 0, 1⟩ (fun _ => 0xff)
              4 ScrubType.ZEROS CompareType.CONST).2).map
          (fun r => (r.2.size, r.2.scrubType, r.2.comparator_, r.2.compareType))
        = some (0, ScrubType.NONE, Comparator.memcmp, CompareType.CONST) := by
  constructor
  · intro m junk a
    obtain ⟨m', hm'⟩ := release_isSome
      (m.make_shared_Container junk 0 (Blob.scrubberForType ScrubType.NONE)).1 a.container_
    exact ⟨m', { container_ := m.next, scrubType_ := ScrubType.NONE,
                 compareType_ := a.compareType_,
                 comparator_ := Blob.comparatorForType CompareType.DEFAULT,
                 data_ := nullptr, size_ := 0 }, by
      simp only [Blob.dataIsNull, hm', Option.bind_eq_bind, Option.some_bind]
      rfl, rfl, rfl, rfl, rfl⟩
  · decide

/-! ### the list constructor -/

theorem splice_length (H B : List Byte) (offset : Nat) (h : offset + B.length ≤ H.length) :
    (splice H offset B).length = H.length := by
  simp only [splice, List.length_append, List.length_take, List.length_drop]
  omega

theorem splice_nil (H : List Byte) (offset : Nat) : splice H offset [] = H := by
  simp [splice]

theorem splice_splice (H B1 B2 : List Byte) (offset : Nat)
    (h : offset + B1.length + B2.length ≤ H.length) :
    splice (splice H offset B1) (offset + B1.length) B2 = splice H offset (B1 ++ B2) := by
  have hl : (H.take offset ++ B1).length = offset + B1.length := by
    simp only [List.length_append, List.length_take]; omega
  have e1 : (H.take offset ++ B1 ++ H.drop (offset + B1.length)).take (offset + B1.length)
      = H.take offset ++ B1 := by
    rw [List.take_append_of_le_length (by omega), List.take_of_length_le (by omega)]
  have e2 : (H.take offset ++ B1 ++ H.drop (offset + B1.length)).drop
      (offset + B1.length + B2.length) = H.drop (offset + (B1 ++ B2).length) := by
    rw [List.drop_append_eq_append_drop, List.drop_eq_nil_of_le (by omega), hl, List.drop_drop,
      List.nil_append, List.length_append]
    congr 1; omega
  unfold splice
  rw [e1, e2]
  simp only [List.append_assoc]

theorem memcpy_eq (m : Memory) (dst src : Ptr) (n : Nat)
    (h : dst.off + n ≤ (m.heap dst.block).length) :
    m.memcpy dst src n
      = some { heap := Function.update m.heap dst.block
                 (splice (m.heap dst.block) dst.off ((List.range n).map (m.heap.read src))),
               scrubber := m.scrubber, refs := m.refs, next := m.next } := by
  simp only [Memory.memcpy, h, ↓reduceIte, splice, List.length_map, List.length_range]

theorem memory_eta (m : Memory) :
    ({ heap := m.heap, scrubber := m.scrubber, refs := m.refs, next := m.next } : Memory) = m :=
  rfl

theorem copy_destroy (m : Memory) (b : Blob) (h : 1 ≤ m.refs b.container_) :
    (Blob.copy m b).2.destroy (Blob.copy m b).1 = some m := by
  have h2 : 2 ≤ (m.retain b.container_).refs b.container_ := by
    simp only [Memory.retain, Function.update_same]; omega
  simp only [Blob.destroy, Blob.copy, release_shared _ _ h2]
  simp only [Memory.retain, Function.update_same, Function.update_idem, Nat.add_sub_cancel,
    Function.update_eq_self]

theorem ctor_list_size_eq : ∀ (blobs : List Blob) (m : Memory) (acc : Nat),
    (∀ b ∈ blobs, 1 ≤ m.refs b.container_) → acc + (blobs.map Blob.size).sum < U64_MOD →
    Blob.ctor_list_size blobs m acc = some (m, acc + (blobs.map Blob.size).sum) := by
  intro blobs
  induction blobs with
  | nil => intro m acc _ _; simp [Blob.ctor_list_size]
  | cons b rest ih =>
    intro m acc hrefs hsum
    simp only [List.map_cons, List.sum_cons] at hsum ⊢
    have hmod : (acc + b.size) % U64_MOD = acc + b.size := Nat.mod_eq_of_lt (by omega)
    have hd := copy_destroy m b (hrefs b (List.mem_cons_self b rest))
    have hsz : (Blob.copy m b).2.size = b.size := rfl
    simp only [Blob.ctor_list_size, hsz, hd, hmod, Option.bind_eq_bind, Option.some_bind]
    rw [ih m (acc + b.size) (fun x hx => hrefs x (List.mem_cons_of_mem b hx)) (by omega)]
    congr 2; omega

theorem bytes_length (h : Heap) (b : Blob) : (b.bytes h).length = b.size := by
  simp [Blob.bytes, Blob.size]

theorem flatMap_bytes_length (h : Heap) : ∀ blobs : List Blob,
    (blobs.flatMap (fun b => b.bytes h)).length = (blobs.map Blob.size).sum := by
  intro blobs
  induction blobs with
  | nil => rfl
  | cons b rest ih =>
    simp only [List.flatMap_cons, List.length_append, bytes_length, ih, List.map_cons,
      List.sum_cons]

theorem bytes_update (h : Heap) (c : Nat) (l : List Byte) (b : Blob)
    (hb : b.size_ = 0 ∨ b.data_.block ≠ c) :
    Blob.bytes (Function.update h c l) b = b.bytes h := by
  rcases hb with hz | hne
  · simp [Blob.bytes, hz]
  · simp only [Blob.bytes]
    congr 1
    funext i
    simp only [Heap.read, Function.update_noteq hne]

theorem flatMap_bytes_update (h : Heap) (c : Nat) (l : List Byte) : ∀ blobs : List Blob,
    (∀ b ∈ blobs, b.size_ = 0 ∨ b.data_.block ≠ c) →
    blobs.flatMap (fun b => Blob.bytes (Function.update h c l) b)
      = blobs.flatMap (fun b => b.bytes h) := by
  intro blobs
  induction blobs with
  | nil => intro _; rfl
  | cons b rest ih =>
    intro hb
    simp only [List.flatMap_cons]
    rw [bytes_update h c l b (hb b (List.mem_cons_self b rest)),
      ih (fun x hx => hb x (List.mem_cons_of_mem b hx))]

theorem ctor_list_copy_cons (c : Nat) (b : Blob) (rest : List Blob) (m : Memory) (offset : Nat)
    (hrefs : 1 ≤ m.refs b.container_) (hfit : offset + b.size ≤ (m.heap c).length) :
    Blob.ctor_list_copy ⟨c, 0⟩ (b :: rest) m offset
      = Blob.ctor_list_copy ⟨c, 0⟩ rest
          { heap := Function.update m.heap c (splice (m.heap c) offset (b.bytes m.heap)),
            scrubber := m.scrubber, refs := m.refs, next := m.next }
          ((offset + b.size) % U64_MOD) := by
  have hcp : (Blob.copy m b).1.memcpy (Ptr.add ⟨c, 0⟩ offset) (Blob.copy m b).2.data
      (Blob.copy m b).2.size
      = some { heap := Function.update m.heap c (splice (m.heap c) offset (b.bytes m.heap)),
               scrubber := m.scrubber,
               refs := Function.update m.refs b.container_ (m.refs b.container_ + 1),
               next := m.next } := by
    have hm := memcpy_eq (Blob.copy m b).1 (Ptr.add ⟨c, 0⟩ offset) (Blob.copy m b).2.data
      (Blob.copy m b).2.size
      (by simpa [Blob.copy, Memory.retain, Ptr.add, Blob.size] using hfit)
    rw [hm]
    simp [Blob.copy, Memory.retain, Ptr.add, Blob.size, Blob.data, Blob.bytes]
  have hrel : Memory.release
      { heap := Function.update m.heap c (splice (m.heap c) offset (b.bytes m.heap)),
        scrubber := m.scrubber,
        refs := Function.update m.refs b.container_ (m.refs b.container_ + 1),
        next := m.next } b.container_
      = some { heap := Function.update m.heap c (splice (m.heap c) offset (b.bytes m.heap)),
               scrubber := m.scrubber, refs := m.refs, next := m.next } := by
    rw [release_shared _ _ (by simp only [Function.update_same]; omega)]
    simp only [Function.update_same, Function.update_idem, Nat.add_sub_cancel,
      Function.update_eq_self]
  have hsz : (Blob.copy m b).2.size = b.size := rfl
  have hcn : (Blob.copy m b).2.container_ = b.container_ := rfl
  rw [hsz] at hcp
  simp only [Blob.ctor_list_copy, hsz, hcp, Blob.destroy, hcn, hrel, hsz, Option.bind_eq_bind,
    Option.some_bind]

theorem ctor_list_copy_eq (c : Nat) : ∀ (blobs : List Blob) (m : Memory) (offset : Nat),
    (∀ b ∈ blobs, 1 ≤ m.refs b.container_ ∧ (b.size_ = 0 ∨ b.data_.block ≠ c)) →
    offset + (blobs.map Blob.size).sum ≤ (m.heap c).length →
    offset + (blobs.map Blob.size).sum < U64_MOD →
    Blob.ctor_list_copy ⟨c, 0⟩ blobs m offset
      = some { heap := Function.update m.heap c
                 (splice (m.heap c) offset (blobs.flatMap (fun b => b.bytes m.heap))),
               scrubber := m.scrubber, refs := m.refs, next := m.next } := by
  intro blobs
  induction blobs with
  | nil =>
    intro m offset _ _ _
    simp only [Blob.ctor_list_copy, List.flatMap_nil, splice_nil, Function.update_eq_self]
  | cons b rest ih =>
    intro m offset hb hfit hlt
    simp only [List.map_cons, List.sum_cons] at hfit hlt
    have hmod : (offset + b.size) % U64_MOD = offset + b.size := Nat.mod_eq_of_lt (by omega)
    have hb0 := hb b (List.mem_cons_self b rest)
    have hrest : ∀ x ∈ rest, 1 ≤ m.refs x.container_ ∧ (x.size_ = 0 ∨ x.data_.block ≠ c) :=
      fun x hx => hb x (List.mem_cons_of_mem b hx)
    have hlen : (splice (m.heap c) offset (b.bytes m.heap)).length = (m.heap c).length :=
      splice_length _ _ _ (by rw [bytes_length]; omega)
    rw [ctor_list_copy_cons c b rest m offset hb0.1 (by omega), hmod,
      ih { heap := Function.update m.heap c (splice (m.heap c) offset (b.bytes m.heap)),
           scrubber := m.scrubber, refs := m.refs, next := m.next }
        (offset + b.size) hrest
        (by simp only [Function.update_same, hlen]; omega) (by omega)]
    simp only [Function.update_same, Function.update_idem, List.flatMap_cons]
    rw [flatMap_bytes_update m.heap c _ rest (fun x hx => (hrest x hx).2)]
    have hss := splice_splice (m.heap c) (b.bytes m.heap)
      (rest.flatMap (fun b => b.bytes m.heap)) offset
      (by rw [bytes_length, flatMap_bytes_length]; omega)
    rw [bytes_length] at hss
    rw [hss]

theorem splice_whole (H B : List Byte) (h : B.length = H.length) : splice H 0 B = B := by
  simp [splice, h]

theorem map_read_whole (h : Heap) (c : Nat) (l : List Byte) (e : h c = l) :
    (List.range l.length).map (h.read ⟨c, 0⟩) = l := by
  apply List.ext_getElem
  · simp
  · intro i h1 h2
    simp only [List.getElem_map, List.getElem_range, Heap.read, e, Nat.zero_add]
    rw [List.getD_eq_getElem?_getD, List.getElem?_eq_getElem h2]
    rfl

theorem valid_not_fresh (m : Memory) (b : Blob) (hv : b.valid m) :
    b.size_ = 0 ∨ b.data_.block ≠ m.next := by
  obtain ⟨hc, _, hview⟩ := hv
  rcases hview with ⟨_, hz⟩ | ⟨hb, _⟩
  · exact Or.inl hz
  · exact Or.inr (by rw [hb]; omega)

theorem ctor_list_eq (m : Memory) (junk : Nat → Byte) (blobs : List Blob)
    (scrubType : ScrubType) (compareType : CompareType)
    (hv : ∀ b ∈ blobs, b.valid m) (hsum : (blobs.map Blob.size).sum < U64_MOD) :
    Blob.ctor_list m junk blobs scrubType compareType
      = some ({ heap := Function.update m.heap m.next (blobs.flatMap (fun b => b.bytes m.heap)),
                scrubber := Function.update m.scrubber m.next (Blob.scrubberForType scrubType),
                refs := Function.update m.refs m.next 1,
                next := m.next + 1 },
              { container_ := m.next, scrubType_ := scrubType, compareType_ := compareType,
                comparator_ := Blob.comparatorForType compareType,
                data_ := ⟨m.next, 0⟩, size_ := (blobs.map Blob.size).sum }) := by
  have hsize := ctor_list_size_eq blobs m 0 (fun b hb => (hv b hb).2.1) (by omega)
  rw [Nat.zero_add] at hsize
  have hcopy := ctor_list_copy_eq m.next blobs
    { heap := Function.update m.heap m.next (newBytes junk (blobs.map Blob.size).sum),
      scrubber := Function.update m.scrubber m.next (Blob.scrubberForType scrubType),
      refs := Function.update m.refs m.next 1,
      next := m.next + 1 } 0
    (fun b hb => ⟨by
        have hc := (hv b hb).1
        have hr := (hv b hb).2.1
        simp only [Function.update_noteq (Nat.ne_of_lt hc)]
        exact hr, valid_not_fresh m b (hv b hb)⟩)
    (by simp only [Function.update_same, newBytes_length]; omega)
    (by omega)
  simp only [Function.update_same, Function.update_idem] at hcopy
  rw [flatMap_bytes_update m.heap m.next _ blobs (fun b hb => valid_not_fresh m b (hv b hb)),
    splice_whole _ _ (by rw [flatMap_bytes_length, newBytes_length])] at hcopy
  simp only [Blob.ctor_list, hsize, Memory.make_shared_Container, hcopy, Option.bind_eq_bind,
    Option.some_bind]

/-- C13: concatenation.  For every list of well-formed views whose sizes
add up to a `U64`, the list constructor returns a view whose size is the sum of
the sizes and whose bytes are the visible bytes of the first view, then of the
second, and so on; it sits at offset zero of a container that did not exist
before, has that container for itself and fills it; every older container keeps
its bytes and its owners; and the disposal policy, the scrubber of the new
container, the comparator policy and the comparator are the ones requested in
the call. -/
theorem ctor_list_concatenates (m : Memory) (junk : Nat → Byte) (blobs : List Blob)
    (scrubType : ScrubType) (compareType : CompareType)
    (hv : ∀ b ∈ blobs, b.valid m) (hsum : (blobs.map Blob.size).sum < U64_MOD) :
    ∃ m2 v, Blob.ctor_list m junk blobs scrubType compareType = some (m2, v)
      ∧ v.size = (blobs.map Blob.size).sum
      ∧ v.bytes m2.heap = blobs.flatMap (fun b => b.bytes m.heap)
      ∧ v.container_ = m.next ∧ m2.next = m.next + 1 ∧ m2.refs v.container_ = 1
      ∧ v.data = ⟨v.container_, 0⟩ ∧ (m2.heap v.container_).length = v.size
      ∧ (∀ c, c < m.next → m2.heap c = m.heap c ∧ m2.refs c = m.refs c)
      ∧ v.scrubType = scrubType ∧ m2.scrubber v.container_ = Blob.scrubberForType scrubType
      ∧ v.compareType = compareType ∧ v.comparator_ = Blob.comparatorForType compareType := by
  refine ⟨_, _, ctor_list_eq m junk blobs scrubType compareType hv hsum, rfl, ?_, rfl, rfl, ?_,
    rfl, ?_, ?_, rfl, ?_, rfl, rfl⟩
  · have h := map_read_whole
      (Function.update m.heap m.next (blobs.flatMap (fun b => b.bytes m.heap))) m.next
      (blobs.flatMap (fun b => b.bytes m.heap)) (Function.update_same _ _ _)
    rw [flatMap_bytes_length] at h
    exact h
  · simp only [Function.update_same]
  · simp only [Function.update_same, flatMap_bytes_length, Blob.size]
  · intro c hc
    simp only [Function.update_noteq (Nat.ne_of_lt hc), and_self]
  · simp only [Function.update_same]

/-- The list of the view of `01 02 03 04` and of its subset `02 03` gives the
six bytes `01 02 03 04 02 03`, with the requested policies. -/
theorem ctor_list_concatenates_witness :
    ((∀ b ∈ [(⟨1, ScrubType.NONE, CompareType.DEFAULT, Comparator.memcmp, ⟨1, 0⟩, 4⟩ : Blob),
              ⟨1, ScrubType.NONE, CompareType.DEFAULT, Comparator.memcmp, ⟨1, 1⟩, 2⟩],
          b.valid ⟨fun _ => [1, 2, 3, 4], fun _ => Scrubber.null, fun _ => 2, 2⟩)
        ∧ ([(⟨1, ScrubType.NONE, CompareType.DEFAULT, Comparator.memcmp, ⟨1, 0⟩, 4⟩ : Blob),
            ⟨1, ScrubType.NONE, CompareType.DEFAULT, Comparator.memcmp, ⟨1, 1⟩, 2⟩].map
              Blob.size).sum < U64_MOD)
      ∧ ∃ m2 v, Blob.ctor_list ⟨fun _ => [1, 2, 3, 4], fun _ => Scrubber.null, fun _ => 2, 2⟩
            (fun _ => 0)
            [⟨1, ScrubType.NONE, CompareType.DEFAULT, Comparator.memcmp, ⟨1, 0⟩, 4⟩,
             ⟨1, ScrubType.NONE, CompareType.DEFAULT, Comparator.memcmp, ⟨1, 1⟩, 2⟩]
            ScrubType.ZEROS CompareType.CONST = some (m2, v)
          ∧ v.size = 6 ∧ v.bytes m2.heap = [1, 2, 3, 4, 2, 3]
          ∧ v.scrubType = ScrubType.ZEROS ∧ v.compareType = CompareType.CONST :=
  have hv : ∀ b ∈ [(⟨1, ScrubType.NONE, CompareType.DEFAULT, Comparator.memcmp, ⟨1, 0⟩, 4⟩ : Blob),
      ⟨1, ScrubType.NONE, CompareType.DEFAULT, Comparator.memcmp, ⟨1, 1⟩, 2⟩],
      b.valid ⟨fun _ => [1, 2, 3, 4], fun _ => Scrubber.null, fun _ => 2, 2⟩ := by
    intro b hb
    simp only [List.mem_cons, List.mem_singleton, List.not_mem_nil, or_false] at hb
    rcases hb with rfl | rfl
    · exact ⟨by decide, by decide, Or.inr ⟨rfl, by decide⟩⟩
    · exact ⟨by decide, by decide, Or.inr ⟨rfl, by decide⟩⟩
  have hs : ([(⟨1, ScrubType.NONE, CompareType.DEFAULT, Comparator.memcmp, ⟨1, 0⟩, 4⟩ : Blob),
      ⟨1, ScrubType.NONE, CompareType.DEFAULT, Comparator.memcmp, ⟨1, 1⟩, 2⟩].map
        Blob.size).sum < U64_MOD := by decide
  have h := ctor_list_concatenates
    ⟨fun _ => [1, 2, 3, 4], fun _ => Scrubber.null, fun _ => 2, 2⟩ (fun _ => 0)
    [⟨1, ScrubType.NONE, CompareType.DEFAULT, Comparator.memcmp, ⟨1, 0⟩, 4⟩,
     ⟨1, ScrubType.NONE, CompareType.DEFAULT, Comparator.memcmp, ⟨1, 1⟩, 2⟩]
    ScrubType.ZEROS CompareType.CONST hv hs
  ⟨⟨hv, hs⟩, h.elim fun m2 h1 => h1.elim fun v h2 =>
    ⟨m2, v, h2.1, h2.2.1, h2.2.2.1.trans (by decide), h2.2.2.2.2.2.2.2.2.2.1,
      h2.2.2.2.2.2.2.2.2.2.2.2.1⟩⟩

/-! ### fixed vectors -/

/-- C25: the fixed base-58 vector.  `encode_base58` of the bytes
`00 00 00 54 65 73 74` is "1113A836b", which starts with "111", and
`decode_base58` of "1113A836b" is those seven bytes. -/
theorem base58_fixed_vector (junk : Nat → Byte) :
    encode_base58 [0, 0, 0, 0x54, 0x65, 0x73, 0x74] = some (cstr "1113A836b")
      ∧ (cstr "1113A836b").take 3 = cstr "111"
      ∧ decode_base58 junk (cstr "1113A836b") = some [0, 0, 0, 0x54, 0x65, 0x73, 0x74] := by
  refine ⟨by decide, by decide, ?_⟩
  rfl

/-- C26: the fixed base-64 vector.  `encode_base64` of the bytes
`00 00 00 54 65 73 74` is "AAAAVGVzdA", ten characters without `'='`, and
`decode_base64` of "AAAAVGVzdA" is those seven bytes. -/
theorem base64_fixed_vector (junk3 junk : Nat → Byte) :
    encode_base64 junk3 [0, 0, 0, 0x54, 0x65, 0x73, 0x74] = some (cstr "AAAAVGVzdA")
      ∧ (cstr "AAAAVGVzdA").length = 10
      ∧ toByte ('=').toNat ∉ cstr "AAAAVGVzdA"
      ∧ decode_base64 junk (cstr "AAAAVGVzdA") = some [0, 0, 0, 0x54, 0x65, 0x73, 0x74] := by
  have ht : b64_text [0, 0, 0, 0x54, 0x65, 0x73, 0x74] = cstr "AAAAVGVzdA" := by decide
  refine ⟨by rw [encode_base64_eq, ht], by decide, by decide, ?_⟩
  rw [← ht]
  exact decode_base64_b64_text junk _

/-- C27: the fixed hexadecimal vector.  `encode_hex` of the bytes
`00 00 00 54 65 73 74` is "00000054657374", and `decode_hex` of that text is
those seven bytes. -/
theorem hex_fixed_vector (junk : Nat → Byte) :
    encode_hex [0, 0, 0, 0x54, 0x65, 0x73, 0x74] = some (cstr "00000054657374")
      ∧ decode_hex junk (cstr "00000054657374") = some [0, 0, 0, 0x54, 0x65, 0x73, 0x74] := by
  have ht : hex_text [0, 0, 0, 0x54, 0x65, 0x73, 0x74] = cstr "00000054657374" := by decide
  refine ⟨by decide, ?_⟩
  rw [← ht]
  exact decode_hex_hex_text junk _ (by decide)

/-! ### base 64 without padding -/

set_option maxRecDepth 100000 in
theorem b64_char_alphabet : ∀ v : Fin 64, base64_alphabet (b64_char v.val) = true := by
  decide

/-- C21: `encode_base64` emits no padding.  For every byte sequence of
length `n`, and whatever the local array holds at first, the output has length
`4 * (n / 3) + r` with `r = 0, 2, 3` for `n % 3 = 0, 1, 2`, and every character
of it is an entry of the table `base64`, lies in `A-Z a-z 0-9 + /` and is not
`'='`. -/
theorem encode_base64_no_padding (junk3 : Nat → Byte) (data : List Byte) :
    ∃ t, encode_base64 junk3 data = some t
      ∧ t.length = 4 * (data.length / 3)
          + (if data.length % 3 = 0 then 0 else if data.length % 3 = 1 then 2 else 3)
      ∧ ∀ c ∈ t, c ∈ base64 ∧ base64_alphabet c = true ∧ c ≠ toByte ('=').toNat := by
  refine ⟨b64_text data, encode_base64_eq junk3 data, ?_, ?_⟩
  · rw [b64_text_length]
    have h3 : data.length % 3 < 3 := Nat.mod_lt _ (by decide)
    split_ifs <;> omega
  · intro c hc
    obtain ⟨v, hv, rfl⟩ := mem_b64_text data c hc
    refine ⟨?_, b64_char_alphabet ⟨v, hv⟩, b64_char_ne_pad ⟨v, hv⟩⟩
    have hlen : v < base64.length := by
      have : base64.length = 64 := by decide
      omega
    simp only [b64_char, List.getD_eq_getElem?_getD, List.getElem?_eq_getElem hlen,
      Option.getD_some]
    exact List.getElem_mem hlen

/-- The text of the bytes `00 00 00 54 65 73 74` has ten characters, none of
them the padding character. -/
theorem encode_base64_no_padding_witness :
    ∃ t, encode_base64 (fun _ => 0) [0, 0, 0, 0x54, 0x65, 0x73, 0x74] = some t
      ∧ t.length = 10 ∧ ∀ c ∈ t, c ≠ toByte ('=').toNat :=
  (encode_base64_no_padding (fun _ => 0) [0, 0, 0, 0x54, 0x65, 0x73, 0x74]).elim
    fun t ht => ⟨t, ht.1, ht.2.1.trans (by decide), fun c hc => (ht.2.2 c hc).2.2⟩

/-! ### decode_base64 on any text -/

set_option maxRecDepth 100000 in
theorem decode_base64_char_total : ∀ d : Byte, decode_base64_char d = some (b64_value d) := by
  decide

theorem b64_bytes_length : ∀ data : List Byte,
    (b64_bytes data).length = 3 * (data.length / 4) + (data.length % 4 - 1)
  | [] => by simp [b64_bytes]
  | [_] => by simp [b64_bytes]
  | [_, _] => by simp [b64_bytes, decode_base64_group]
  | [_, _, _] => by simp [b64_bytes, decode_base64_group]
  | a :: b :: c :: d :: rest => by
    have ih := b64_bytes_length rest
    simp only [b64_bytes, List.length_append, ih, List.length_cons, decode_base64_group,
      List.length_nil]
    have e1 : (rest.length + 1 + 1 + 1 + 1) / 4 = rest.length / 4 + 1 := by omega
    have e2 : (rest.length + 1 + 1 + 1 + 1) % 4 = rest.length % 4 := by omega
    rw [e1, e2]
    omega

theorem decode_base64_loop_tail_any (junk : Nat → Byte) :
    ∀ (data pre out : List Byte) (outSize s : Nat),
      outSize = out.length + (b64_bytes data).length → s = data.length % 4 →
      (decode_base64_loop (pre ++ data) (data.length / 4) pre.length out).bind
        (decode_base64_tail junk (pre ++ data) outSize s) = some (out ++ b64_bytes data)
  | [], pre, out, outSize, s, ho, hs => by
    simp only [List.length_nil, Nat.zero_div, Nat.zero_mod] at hs ⊢
    subst hs
    simp only [decode_base64_loop, Option.bind_eq_bind, Option.some_bind, decode_base64_tail,
      b64_bytes]
    simp only [ge_iff_le, Nat.not_succ_le_zero, ↓reduceIte, List.append_nil]
    exact stored_full junk _ _ (by simp [ho, b64_bytes])
  | [a], pre, out, outSize, s, ho, hs => by
    simp only [List.length_singleton, Nat.reduceDiv, Nat.reduceMod] at hs ⊢
    subst hs
    simp only [decode_base64_loop, Option.bind_eq_bind, Option.some_bind, decode_base64_tail,
      b64_bytes]
    simp only [ge_iff_le, Nat.not_succ_le_self, ↓reduceIte, List.append_nil]
    exact stored_full junk _ _ (by simp [ho, b64_bytes])
  | [a, b], pre, out, outSize, s, ho, hs => by
    have hl : [a, b].length = 2 := rfl
    rw [hl] at hs ⊢
    subst hs
    have r0 : (pre ++ [a, b])[pre.length]? = some a := by
      rw [getElem?_append_zero]; simp
    have r1 : (pre ++ [a, b])[pre.length + 1]? = some b := by
      rw [getElem?_append_add]; simp
    simp only [decode_base64_loop, Option.bind_eq_bind, Option.some_bind, decode_base64_tail,
      r0, r1, decode_base64_char_total, b64_bytes, decode_base64_group]
    simp only [Nat.reduceMod, Nat.reduceDiv, ge_iff_le, le_refl, ↓reduceIte, gt_iff_lt,
      lt_self_iff_false, List.take]
    exact stored_full junk _ _ (by simp [ho, b64_bytes, decode_base64_group])
  | [a, b, c], pre, out, outSize, s, ho, hs => by
    have hl : [a, b, c].length = 3 := rfl
    rw [hl] at hs ⊢
    subst hs
    have r0 : (pre ++ [a, b, c])[pre.length]? = some a := by
      rw [getElem?_append_zero]; simp
    have r1 : (pre ++ [a, b, c])[pre.length + 1]? = some b := by
      rw [getElem?_append_add]; simp
    have r2 : (pre ++ [a, b, c])[pre.length + 2]? = some c := by
      rw [getElem?_append_add]; simp
    simp only [decode_base64_loop, Option.bind_eq_bind, Option.some_bind, decode_base64_tail,
      r0, r1, r2, decode_base64_char_total, b64_bytes, decode_base64_group]
    simp only [Nat.reduceMod, Nat.reduceDiv, ge_iff_le, Nat.reduceLeDiff, ↓reduceIte, gt_iff_lt,
      Nat.lt_add_one, List.append_assoc, List.cons_append, List.nil_append, List.take]
    exact stored_full junk _ _ (by simp [ho, b64_bytes, decode_base64_group])
  | a :: b :: c :: d :: rest, pre, out, outSize, s, ho, hs => by
    have hl : (a :: b :: c :: d :: rest).length = rest.length + 4 := rfl
    have hk : (rest.length + 4) / 4 = rest.length / 4 + 1 := by omega
    have hm : (rest.length + 4) % 4 = rest.length % 4 := by omega
    rw [hl, hm] at hs
    rw [hl, hk]
    have r0 : (pre ++ a :: b :: c :: d :: rest)[pre.length]? = some a := by
      rw [getElem?_append_zero]; simp
    have r1 : (pre ++ a :: b :: c :: d :: rest)[pre.length + 1]? = some b := by
      rw [getElem?_append_add]; simp
    have r2 : (pre ++ a :: b :: c :: d :: rest)[pre.length + 2]? = some c := by
      rw [getElem?_append_add]; simp
    have r3 : (pre ++ a :: b :: c :: d :: rest)[pre.length + 3]? = some d := by
      rw [getElem?_append_add]; simp
    have ih := decode_base64_loop_tail_any junk rest (pre ++ [a, b, c, d])
      (out ++ decode_base64_group (b64_value a) (b64_value b) (b64_value c) (b64_value d))
      outSize s (by simp [ho, b64_bytes, decode_base64_group]; omega) hs
    have e : pre ++ a :: b :: c :: d :: rest = pre ++ [a, b, c, d] ++ rest := by simp
    have e2 : (pre ++ [a, b, c, d]).length = pre.length + 4 := by simp
    rw [e2, ← e] at ih
    simp only [decode_base64_loop, Option.bind_eq_bind, Option.some_bind, r0, r1, r2, r3,
      decode_base64_char_total, b64_bytes]
    simpa using ih

theorem decode_base64_eq (junk : Nat → Byte) (data : List Byte) :
    decode_base64 junk data = some (b64_bytes data) := by
  have hlen := b64_bytes_length data
  have hand : data.length &&& 0x3 = data.length % 4 := Nat.and_pow_two_sub_one_eq_mod _ 2
  have hout : (data.length / 4) * 3 + (if data.length % 4 ≥ 2 then data.length % 4 - 1 else 0)
      = (b64_bytes data).length := by
    rw [hlen]
    split_ifs <;> omega
  have h := decode_base64_loop_tail_any junk data [] [] (b64_bytes data).length
    (data.length % 4) (by simp) rfl
  simp only [List.nil_append, List.length_nil] at h
  simp only [decode_base64, Option.bind_eq_bind, hand, Nat.shiftRight_eq_div_pow, hout]
  exact h

theorem b64_bytes_append : ∀ (t u : List Byte), t.length % 4 = 0 →
    b64_bytes (t ++ u) = b64_bytes t ++ b64_bytes u
  | [], u, _ => by simp [b64_bytes]
  | [_], _, h => by simp at h
  | [_, _], _, h => by simp at h
  | [_, _, _], _, h => by simp at h
  | a :: b :: c :: d :: rest, u, h => by
    have hr : rest.length % 4 = 0 := by
      simp only [List.length_cons] at h
      omega
    have ih := b64_bytes_append rest u hr
    simp only [List.cons_append, b64_bytes, List.append_assoc]
    rw [← ih]
    rfl

/-- C22: leftover handling of `decode_base64`.  For every text of length
`L`, made of any characters, `decode_base64` returns `3 * (L / 4) + e` bytes
with `e = 0, 0, 1, 2` for `L % 4 = 0, 1, 2, 3`.  When `L` is a multiple of four
it returns `3 * (L / 4)` bytes; four more characters add three bytes, three more
characters add two bytes, two more characters add one byte, and one more
character changes nothing, whatever that character is. -/
theorem decode_base64_leftover (junk : Nat → Byte) (data : List Byte) (a b c d : Byte) :
    (∃ out, decode_base64 junk data = some out
        ∧ out.length = 3 * (data.length / 4)
            + (if data.length % 4 = 2 then 1 else if data.length % 4 = 3 then 2 else 0))
      ∧ (data.length % 4 = 0 →
          ∃ out, decode_base64 junk data = some out ∧ out.length = 3 * (data.length / 4)
            ∧ decode_base64 junk (data ++ [a, b, c, d])
                = some (out ++ [toByte (((b64_value a).val <<< 2) ||| ((b64_value b).val >>> 4)),
                                toByte (((b64_value b).val <<< 4) ||| ((b64_value c).val >>> 2)),
                                toByte (((b64_value c).val <<< 6) ||| (b64_value d).val)])
            ∧ decode_base64 junk (data ++ [a, b, c])
                = some (out ++ [toByte (((b64_value a).val <<< 2) ||| ((b64_value b).val >>> 4)),
                                toByte (((b64_value b).val <<< 4) ||| ((b64_value c).val >>> 2))])
            ∧ decode_base64 junk (data ++ [a, b])
                = some (out ++ [toByte (((b64_value a).val <<< 2) ||| ((b64_value b).val >>> 4))])
            ∧ decode_base64 junk (data ++ [a]) = some out) := by
  constructor
  · refine ⟨_, decode_base64_eq junk data, ?_⟩
    rw [b64_bytes_length]
    have h4 : data.length % 4 < 4 := Nat.mod_lt _ (by decide)
    split_ifs <;> omega
  · intro h4
    refine ⟨_, decode_base64_eq junk data, ?_, ?_, ?_, ?_, ?_⟩
    · rw [b64_bytes_length]; omega
    · rw [decode_base64_eq, b64_bytes_append _ _ h4]
      simp [b64_bytes, decode_base64_group]
    · rw [decode_base64_eq, b64_bytes_append _ _ h4]
      simp [b64_bytes, decode_base64_group]
    · rw [decode_base64_eq, b64_bytes_append _ _ h4]
      simp [b64_bytes, decode_base64_group]
    · rw [decode_base64_eq, b64_bytes_append _ _ h4]
      simp [b64_bytes]

/-- One character after the eight characters "AAAAVGVz", be it `d` or `=`,
changes nothing. -/
theorem decode_base64_leftover_witness :
    (cstr "AAAAVGVz").length % 4 = 0
      ∧ decode_base64 (fun _ => 0) (cstr "AAAAVGVz" ++ cstr "d")
          = decode_base64 (fun _ => 0) (cstr "AAAAVGVz")
      ∧ decode_base64 (fun _ => 0) (cstr "AAAAVGVz" ++ cstr "=")
          = decode_base64 (fun _ => 0) (cstr "AAAAVGVz") :=
  have h1 := (decode_base64_leftover (fun _ => 0) (cstr "AAAAVGVz")
    (toByte ('d').toNat) 0 0 0).2 (by decide)
  have h2 := (decode_base64_leftover (fun _ => 0) (cstr "AAAAVGVz")
    (toByte ('=').toNat) 0 0 0).2 (by decide)
  ⟨by decide,
    h1.elim fun out h => h.2.2.2.2.2.trans h.1.symm,
    h2.elim fun out h => h.2.2.2.2.2.trans h.1.symm⟩

theorem decode_base64_loop_pos (data : List Byte) :
    ∀ (k pos : Nat) (out : List Byte) (p : Nat) (w : List Byte),
      decode_base64_loop data k pos out = some (p, w) →
      p = pos + 4 * k ∧ w.length = out.length + 3 * k ∧ (0 < k → p ≤ data.length) := by
  intro k
  induction k with
  | zero =>
    intro pos out p w h
    simp only [decode_base64_loop, Option.some.injEq, Prod.mk.injEq] at h
    obtain ⟨rfl, rfl⟩ := h
    simp
  | succ k ih =>
    intro pos out p w h
    simp only [decode_base64_loop, Option.bind_eq_bind] at h
    cases hA : data[pos]? with
    | none => simp [hA] at h
    | some dA =>
      cases hB : data[pos + 1]? with
      | none => simp [hA, hB] at h
      | some dB =>
        cases hC : data[pos + 2]? with
        | none => simp [hA, hB, hC] at h
        | some dC =>
          cases hD : data[pos + 3]? with
          | none => simp [hA, hB, hC, hD] at h
          | some dD =>
            simp only [hA, hB, hC, hD, Option.some_bind, decode_base64_char_total] at h
            obtain ⟨h1, h2, h3⟩ := ih _ _ _ _ h
            have hlt : pos + 3 < data.length := by
              by_contra hn
              rw [List.getElem?_eq_none (by omega)] at hD
              exact Option.noConfusion hD
            refine ⟨by omega, ?_, ?_⟩
            · simp only [List.length_append, decode_base64_group, List.length_cons,
                List.length_nil] at h2
              omega
            · intro _
              by_cases hk : 0 < k
              · exact h3 hk
              · have : k = 0 := by omega
                subst this
                omega

/-- C24: `decode_base64` stays in bounds on any input.  The lookup table has
80 entries and the lookup of every character, in the alphabet or not, returns a
byte.  For every byte string, the loop over the groups ends at the read position
`4 * (size / 4)`, which with the `size & 0x3` stragglers is exactly `size`; the
function returns (no read of the input, no table lookup and no store is out of
range), the output has the allocated size
`groups * 3 + (stragglers >= 2 ? stragglers - 1 : 0)`, and it is the same
whatever the allocation held before: every allocated byte is written. -/
theorem decode_base64_in_bounds (junk : Nat → Byte) (data : List Byte) :
    b64.length = 80
      ∧ (∀ d : Byte, ∃ v, decode_base64_char d = some v)
      ∧ ∃ p w out, decode_base64_loop data (data.length >>> 2) 0 [] = some (p, w)
          ∧ p = 4 * (data.length / 4) ∧ p + (data.length &&& 0x3) = data.length
          ∧ decode_base64 junk data = some out
          ∧ out.length = (data.length >>> 2) * 3
              + (if (data.length &&& 0x3) ≥ 2 then (data.length &&& 0x3) - 1 else 0)
          ∧ ∀ junk2 : Nat → Byte, decode_base64 junk2 data = some out := by
  refine ⟨by decide, fun d => ⟨_, decode_base64_char_total d⟩, ?_⟩
  have hand : data.length &&& 0x3 = data.length % 4 := Nat.and_pow_two_sub_one_eq_mod _ 2
  have hshift : data.length >>> 2 = data.length / 4 := by
    simp only [Nat.shiftRight_eq_div_pow]
  have heq := decode_base64_eq junk data
  cases hloop : decode_base64_loop data (data.length >>> 2) 0 [] with
  | none =>
    simp only [decode_base64, hloop, Option.bind_eq_bind, Option.none_bind] at heq
    exact Option.noConfusion heq
  | some r =>
    obtain ⟨p, w⟩ := r
    obtain ⟨hp, _, _⟩ := decode_base64_loop_pos data _ _ _ _ _ hloop
    rw [hshift] at hp
    refine ⟨p, w, _, rfl, by omega, by omega, heq, ?_, fun junk2 => decode_base64_eq junk2 data⟩
    show (b64_bytes data).length = _
    rw [b64_bytes_length, hand, hshift]
    have h4 : data.length % 4 < 4 := Nat.mod_lt _ (by decide)
    split_ifs <;> omega

/-! ### decode_hex on any text -/

theorem hex_pairs_length : ∀ data : List Byte, (hex_pairs data).length = data.length / 2
  | [] => by simp [hex_pairs]
  | [_] => by simp [hex_pairs]
  | a :: b :: rest => by
    have ih := hex_pairs_length rest
    simp only [hex_pairs, List.length_cons, ih]
    omega

theorem hex_pairs_append : ∀ (t u : List Byte), t.length % 2 = 0 →
    hex_pairs (t ++ u) = hex_pairs t ++ hex_pairs u
  | [], u, _ => by simp [hex_pairs]
  | [_], _, h => by simp at h
  | a :: b :: rest, u, h => by
    have hr : rest.length % 2 = 0 := by
      simp only [List.length_cons] at h
      omega
    have ih := hex_pairs_append rest u hr
    simp only [List.cons_append, hex_pairs]
    rw [← ih]
    rfl

theorem decode_hex_loop_any : ∀ (data pre out : List Byte),
    decode_hex_loop (pre ++ data) (data.length / 2) pre.length out
      = some (out ++ hex_pairs data)
  | [], pre, out => by simp [decode_hex_loop, hex_pairs]
  | [_], pre, out => by simp [decode_hex_loop, hex_pairs]
  | a :: b :: rest, pre, out => by
    have hk : (a :: b :: rest).length / 2 = rest.length / 2 + 1 := by
      simp only [List.length_cons]; omega
    have r0 : (pre ++ a :: b :: rest)[pre.length]? = some a := by
      rw [getElem?_append_zero]; simp
    have r1 : (pre ++ a :: b :: rest)[pre.length + 1]? = some b := by
      rw [getElem?_append_add]; simp
    have ih := decode_hex_loop_any rest (pre ++ [a, b]) (out ++ [decode_hex_byte a b])
    have e : pre ++ a :: b :: rest = pre ++ [a, b] ++ rest := by simp
    have e2 : (pre ++ [a, b]).length = pre.length + 2 := by simp
    rw [e2, ← e] at ih
    rw [hk]
    simp only [decode_hex_loop, r0, r1, Option.bind_eq_bind, Option.some_bind, hex_pairs]
    simpa using ih

theorem decode_hex_eq (junk : Nat → Byte) (data : List Byte) (hsize : data.length < 2 ^ 64) :
    decode_hex junk data = some (hex_pairs data) := by
  have hm : (data.length &&& 0xFFFFFFFFFFFFFFFE) / 2 = data.length / 2 := by
    rw [and_not_1 _ hsize]; omega
  have hloop := decode_hex_loop_any data [] []
  simp only [List.nil_append, List.length_nil] at hloop
  simp only [decode_hex, hm, Option.bind_eq_bind, hloop, Option.some_bind]
  exact stored_full junk _ _ (hex_pairs_length data)

/-- C23: `decode_hex` truncates to an even number of characters.  For every
text `t` whose length is a `U64`, `decode_hex` returns and the output has length
`|t| / 2`; when `|t|` is odd the output is the one of `t` without its last
character, and also the one of `t` with any other last character. -/
theorem decode_hex_truncates (junk : Nat → Byte) (t : List Byte) (ht : t.length < 2 ^ 64) :
    ∃ out, decode_hex junk t = some out ∧ out.length = t.length / 2
      ∧ (t.length % 2 = 1 → decode_hex junk t.dropLast = some out)
      ∧ (t.length % 2 = 1 → ∀ c : Byte, decode_hex junk (t.dropLast ++ [c]) = some out) := by
  refine ⟨_, decode_hex_eq junk t ht, hex_pairs_length t, ?_, ?_⟩
  · intro hodd
    have hne : t ≠ [] := by
      intro h
      rw [h] at hodd
      simp at hodd
    have hdl : t.dropLast.length % 2 = 0 := by
      rw [List.length_dropLast]; omega
    rw [decode_hex_eq junk _ (by rw [List.length_dropLast]; omega)]
    conv_rhs => rw [← List.dropLast_append_getLast hne]
    rw [hex_pairs_append _ _ hdl]
    simp [hex_pairs]
  · intro hodd c
    have hne : t ≠ [] := by
      intro h
      rw [h] at hodd
      simp at hodd
    have hdl : t.dropLast.length % 2 = 0 := by
      rw [List.length_dropLast]; omega
    have hlen : t.dropLast.length + 1 = t.length := by
      rw [List.length_dropLast]; omega
    rw [decode_hex_eq junk _ (by rw [List.length_append, List.length_singleton]; omega)]
    conv_rhs => rw [← List.dropLast_append_getLast hne]
    rw [hex_pairs_append _ _ hdl, hex_pairs_append _ _ hdl]
    simp [hex_pairs]

/-- The nine characters "000000546" decode as the eight characters
"00000054". -/
theorem decode_hex_truncates_witness :
    (cstr "000000546").length < 2 ^ 64 ∧ (cstr "000000546").length % 2 = 1
      ∧ decode_hex (fun _ => 0) (cstr "000000546") = some [0, 0, 0, 0x54]
      ∧ decode_hex (fun _ => 0) (cstr "00000054") = some [0, 0, 0, 0x54] :=
  (decode_hex_truncates (fun _ => 0) (cstr "000000546") (by decide)).elim fun out h =>
    have ho : some out = some [(0 : Byte), 0, 0, 0x54] := h.1.symm.trans (by decide)
    ⟨by decide, by decide, h.1.trans ho, ((h.2.2.2 (by decide)) (toByte ('4').toNat)).trans ho⟩

/-! ### the steps of compare_constant -/

theorem foldl_steps {α : Type} (f : α → Nat) (g : α → Step) :
    ∀ (l : List α) (r : Nat) (t : List Step),
      l.foldl (fun s i => (s.1 ||| f i, s.2 ++ [g i])) (r, t)
        = (l.foldl (fun result i => result ||| f i) r, t ++ l.map g) := by
  intro l
  induction l with
  | nil => intro r t; simp
  | cons x rest ih =>
    intro r t
    simp only [List.foldl_cons, ih, List.map_cons, List.append_assoc, List.singleton_append]

theorem compare_constant_steps_eq (h : Heap) (a b : Blob) (hsize : a.size = b.size) :
    compare_constant_steps h a b
      = (compare_constant h a b,
         (List.range (a.size / 8)).map Step.word
           ++ (List.range' (a.size / 8 * 8) (a.size % 8)).map Step.byte ++ [Step.ret]) := by
  have hne : ¬ a.size ≠ b.size := by simp [hsize]
  have hrem : a.size - a.size / 8 * 8 = a.size % 8 := by omega
  have hshift : a.size >>> 3 = a.size / 8 := by simp only [Nat.shiftRight_eq_div_pow]
  simp only [compare_constant_steps, compare_constant, hne, ↓reduceIte, foldl_steps, hshift,
    hrem, List.nil_append]

/-- C28: constant-time comparison.  For every size `n`, any two memories
and any two pairs of views of size `n`, `compare_constant` runs the same list
of steps on both pairs: `n / 8` word steps on the words `0, 1, ...`, then
`n % 8` byte steps on the bytes from `8 * (n / 8)` on, then the one `return`;
that is `n / 8 + n % 8 + 1` steps.  The value computed along the steps is the
one of `compare_constant`, and it is `true` exactly when the views differ at
some index below `n`.  Against a view of another size the only step is the
early `return true`. -/
theorem compare_constant_steps_by_size (n : Nat) (h h2 : Heap) (a b a2 b2 : Blob)
    (ha : a.size = n) (hb : b.size = n) (ha2 : a2.size = n) (hb2 : b2.size = n) :
    (compare_constant_steps h a b).2 = (compare_constant_steps h2 a2 b2).2
      ∧ (compare_constant_steps h a b).2
          = (List.range (n / 8)).map Step.word
              ++ (List.range' (n / 8 * 8) (n % 8)).map Step.byte ++ [Step.ret]
      ∧ (compare_constant_steps h a b).2.length = n / 8 + n % 8 + 1
      ∧ (compare_constant_steps h a b).1 = compare_constant h a b
      ∧ ((compare_constant_steps h a b).1 = true ↔ ∃ i, i < n ∧ a.index h i ≠ b.index h i)
      ∧ ∀ c : Blob, c.size ≠ n → compare_constant_steps h a c = (true, [Step.size_mismatch]) := by
  have e1 := compare_constant_steps_eq h a b (ha.trans hb.symm)
  have e2 := compare_constant_steps_eq h2 a2 b2 (ha2.trans hb2.symm)
  rw [ha] at e1
  rw [ha2] at e2
  refine ⟨by rw [e1, e2], by rw [e1], ?_, by rw [e1], ?_, ?_⟩
  · rw [e1]
    simp only [List.length_append, List.length_map, List.length_range, List.length_range',
      List.length_singleton]
  · rw [e1]
    show compare_constant h a b = true ↔ _
    rw [compare_constant_iff, ha, hb]
    simp
  · intro c hc
    have hne : a.size ≠ c.size := by
      rw [ha]
      exact fun e => hc e.symm
    unfold compare_constant_steps
    exact if_pos hne

/-- Two pairs of views of eleven bytes, one pair equal and one not: both run
one word step and three byte steps. -/
theorem compare_constant_steps_by_size_witness :
    (compare_constant_steps (fun _ => [1, 2, 3, 4, 5, 6, 7, 8, 9, 10, 11])
        ⟨1, ScrubType.NONE, CompareType.CONST, Comparator.constant, ⟨1, 0⟩, 11⟩
        ⟨1, ScrubType.NONE, CompareType.CONST, Comparator.constant, ⟨1, 0⟩, 11⟩).2
      = (compare_constant_steps (fun b => if b = 1 then List.replicate 11 0 else [0xff])
          ⟨1, ScrubType.NONE, CompareType.CONST, Comparator.constant, ⟨1, 0⟩, 11⟩
          ⟨2, ScrubType.NONE, CompareType.CONST, Comparator.constant, ⟨2, 0⟩, 11⟩).2
      ∧ (compare_constant_steps (fun _ => [1, 2, 3, 4, 5, 6, 7, 8, 9, 10, 11])
          ⟨1, ScrubType.NONE, CompareType.CONST, Comparator.constant, ⟨1, 0⟩, 11⟩
          ⟨1, ScrubType.NONE, CompareType.CONST, Comparator.constant, ⟨1, 0⟩, 11⟩).2
        = [Step.word 0, Step.byte 8, Step.byte 9, Step.byte 10, Step.ret] :=
  have h := compare_constant_steps_by_size 11 (fun _ => [1, 2, 3, 4, 5, 6, 7, 8, 9, 10, 11])
    (fun b => if b = 1 then List.replicate 11 0 else [0xff])
    ⟨1, ScrubType.NONE, CompareType.CONST, Comparator.constant, ⟨1, 0⟩, 11⟩
    ⟨1, ScrubType.NONE, CompareType.CONST, Comparator.constant, ⟨1, 0⟩, 11⟩
    ⟨1, ScrubType.NONE, CompareType.CONST, Comparator.constant, ⟨1, 0⟩, 11⟩
    ⟨2, ScrubType.NONE, CompareType.CONST, Comparator.constant, ⟨2, 0⟩, 11⟩ rfl rfl rfl rfl
  ⟨h.1, h.2.1.trans (by decide)⟩

/-! ### the reserve of encode_base58 -/

theorem count_leading_split : ∀ data : List Byte,
    ∃ rest, data = List.replicate (count_leading 0 data) 0 ++ rest ∧ rest.head? ≠ some 0 := by
  intro data
  induction data with
  | nil => exact ⟨[], rfl, by simp⟩
  | cons d tl ih =>
    by_cases hd : d = 0
    · obtain ⟨rest, hrest, hhead⟩ := ih
      refine ⟨rest, ?_, hhead⟩
      simp only [count_leading, hd, ↓reduceIte, List.replicate_succ, List.cons_append]
      rw [← hrest]
    · refine ⟨d :: tl, by simp [count_leading, hd], ?_⟩
      simp only [List.head?_cons, ne_eq, Option.some.injEq]
      exact hd

theorem radix_digits_aux_length : ∀ (fuel n : Nat) (acc : List Nat) (j : Nat),
    n < 58 ^ j → n ≤ fuel → (radix_digits_aux 58 fuel n acc).length ≤ j + acc.length := by
  intro fuel
  induction fuel with
  | zero =>
    intro n acc j _ _
    simp only [radix_digits_aux]
    omega
  | succ fuel ih =>
    intro n acc j hlt hle
    by_cases hn : n = 0
    · simp only [radix_digits_aux, hn, ↓reduceIte]
      omega
    · simp only [radix_digits_aux, hn, ↓reduceIte]
      cases j with
      | zero =>
        simp only [pow_zero] at hlt
        omega
      | succ j =>
        have hdiv : n / 58 < 58 ^ j := by
          rw [pow_succ] at hlt
          exact Nat.div_lt_of_lt_mul (by rw [Nat.mul_comm]; exact hlt)
        have hfuel : n / 58 ≤ fuel := by
          have : n / 58 < n := Nat.div_lt_self (by omega) (by decide)
          omega
        have := ih (n / 58) (n % 58 :: acc) j hdiv hfuel
        simp only [List.length_cons] at this
        omega

/-- C29: the reserve of `encode_base58` is never too small.  For every
input of `n` bytes, `k` of them leading zero bytes, with `138 * n` a `U64`:
`encode_base58` returns (the write position never moves below the buffer), its
output is `k` characters `'1'` followed by at most `(n - k) * 138 / 100 + 1`
digits, so at most `reserve = (n - k) * 138 / 100 + 1 + k` characters in all.
And every integer below `256 ^ m` has at most `138 * m / 100 + 1` digits in
base 58. -/
theorem encode_base58_reserve (data : List Byte) (hsize : data.length * 138 < 2 ^ 64) :
    count_leading 0 data ≤ data.length
      ∧ (∃ ds, encode_base58 data
            = some (List.replicate (count_leading 0 data) (toByte ('1').toNat) ++ ds)
          ∧ ds.length ≤ (data.length - count_leading 0 data) * 138 / 100 + 1
          ∧ (List.replicate (count_leading 0 data) (toByte ('1').toNat) ++ ds).length
              ≤ (data.length - count_leading 0 data) * 138 / 100 + 1 + count_leading 0 data)
      ∧ ∀ m N : Nat, N < 256 ^ m → (radix_digits 58 N).length ≤ 138 * m / 100 + 1 := by
  obtain ⟨rest, hdata, hrest⟩ := count_leading_split data
  have hn : data.length = count_leading 0 data + rest.length := by
    conv_lhs => rw [hdata]
    simp
  have himp : mpz_import data = mpz_import rest := by
    conv_lhs => rw [hdata]
    exact mpz_import_replicate _ rest
  have hlt := mpz_import_lt rest
  have hcap := pow_256_le_pow_58 rest.length
  have hlen : data.length - count_leading 0 data = rest.length := by omega
  have hres : ((rest.length * 138 % U64_MOD / 100 + 1 + count_leading 0 data) % U64_MOD)
      = rest.length * 138 / 100 + 1 + count_leading 0 data := by
    simp only [U64_MOD]
    norm_num at hsize ⊢
    rw [Nat.mod_eq_of_lt (by omega), Nat.mod_eq_of_lt (by omega)]
  obtain ⟨pos, ds, hrun, hpos, hle, _⟩ :=
    encode_base58_div_spec (rest.length * 138 / 100 + 1)
      (rest.length * 138 / 100 + 1 + count_leading 0 data)
      (mpz_import rest) [] (lt_of_lt_of_le hlt hcap) (by omega)
  refine ⟨by omega, ⟨ds, ?_, by rw [hlen]; exact hle, ?_⟩, ?_⟩
  · simp only [encode_base58, himp, hlen, hres, hrun, Option.bind_eq_bind, Option.some_bind,
      List.append_nil]
    rw [encode_base58_zeros_spec _ pos ds (by omega)]
    rfl
  · rw [hlen, List.length_append, List.length_replicate]
    omega
  · intro m N hN
    have h58 : N < 58 ^ (m * 138 / 100 + 1) := lt_of_lt_of_le hN (pow_256_le_pow_58 m)
    have := radix_digits_aux_length N N [] (m * 138 / 100 + 1) h58 (le_refl N)
    simp only [List.length_nil, Nat.add_zero] at this
    rw [Nat.mul_comm 138 m]
    exact this

/-- The bytes `00 00 00 54 65 73 74` give three characters `1` and at most six
digits. -/
theorem encode_base58_reserve_witness :
    [(0 : Byte), 0, 0, 0x54, 0x65, 0x73, 0x74].length * 138 < 2 ^ 64
      ∧ ∃ ds, encode_base58 [0, 0, 0, 0x54, 0x65, 0x73, 0x74]
            = some (List.replicate 3 (toByte ('1').toNat) ++ ds)
          ∧ ds.length ≤ 6 :=
  have h := encode_base58_reserve [0, 0, 0, 0x54, 0x65, 0x73, 0x74] (by decide)
  ⟨by decide, h.2.1.elim fun ds hds => ⟨ds, hds.1, hds.2.1⟩⟩

/-! ### the policies of a subset -/

/-- C30, a defect of the code: the subset constructor does not set the
comparator policy.  For every view `P` and all `size` and `offset`, the view
`Blob(P, size, offset)` has the disposal policy and the comparator of `P`, and
its `==` calls that comparator; but `compareType()` returns what the member
held before the constructor ran, since `compareType_` is missing from the
initialiser list.  For a view built with `ZEROS` and `CONST`, whose
`compareType()` is `CONST`, a subset built over storage that held `DEFAULT`
reports `DEFAULT` while it compares with `compare_constant`. -/
theorem subset_compareType_unset :
    (∀ (m : Memory) (P : Blob) (size offset : Nat) (junkCompare : CompareType),
        (Blob.ctor_subset m P size offset junkCompare).2.scrubType = P.scrubType
          ∧ (Blob.ctor_subset m P size offset junkCompare).2.comparator_ = P.comparator_
          ∧ (∀ (h : Heap) (other : Blob),
              (Blob.ctor_subset m P size offset junkCompare).2.operator_eq h other
                = ((Blob.ctor_subset m P size offset junkCompare).2.comparator_.call h
                    (Blob.ctor_subset m P size offset junkCompare).2 other).not)
          ∧ (Blob.ctor_subset m P size offset junkCompare).2.compareType = junkCompare)
      ∧ (Blob.ctor_size ⟨fun _ => [], fun _ => Scrubber.null, fun _ => 0, 1⟩ (fun _ => 0xff)
            4 ScrubType.ZEROS CompareType.CONST).2.compareType = CompareType.CONST
      ∧ (Blob.ctor_subset
            (Blob.ctor_size ⟨fun _ => [], fun _ => Scrubber.null, fun _ => 0, 1⟩ (fun _ => 0xff)
              4 ScrubType.ZEROS CompareType.CONST).1
            (Blob.ctor_size ⟨fun _ => [], fun _ => Scrubber.null, fun _ => 0, 1⟩ (fun _ => 0xff)
              4 ScrubType.ZEROS CompareType.CONST).2
            2 1 CompareType.DEFAULT).2.compareType = CompareType.DEFAULT
      ∧ (Blob.ctor_subset
            (Blob.ctor_size ⟨fun _ => [], fun _ => Scrubber.null, fun _ => 0, 1⟩ (fun _ => 0xff)
              4 ScrubType.ZEROS CompareType.CONST).1
            (Blob.ctor_size ⟨fun _ => [], fun _ => Scrubber.null, fun _ => 0, 1⟩ (fun _ => 0xff)
              4 ScrubType.ZEROS CompareType.CONST).2
            2 1 CompareType.DEFAULT).2.comparator_ = Comparator.constant := by
  refine ⟨fun m P size offset junkCompare => ⟨rfl, rfl, fun h other => rfl, rfl⟩, ?_, ?_, ?_⟩
  · rfl
  · rfl
  · rfl

/-! ### the base-58 round trip below `2 ^ 64` -/

set_option maxRecDepth 100000 in
theorem decode_base58_digit_b58 : ∀ d : Fin 58,
    (decode_base58_digit (b58.getD d.val 0)).val = d.val := by decide

theorem decode_base58_digit_one : (decode_base58_digit (toByte ('1').toNat)).val = 0 := by
  decide

theorem encode_base58_div_value : ∀ (j pos n : Nat) (w : List Byte),
    n < 58 ^ j → n < 2 ^ 64 → j ≤ pos →
    ∃ pos' ds, encode_base58_div pos n w = some (pos', ds ++ w) ∧ pos' + ds.length = pos
      ∧ ds.length ≤ j
      ∧ ds.foldl (fun p d => p * 58 + (decode_base58_digit d).val) 0 = n
      ∧ ((n = 0 ∧ ds = []) ∨ (∃ c tl, ds = c :: tl ∧ c ≠ toByte ('1').toNat)) := by
  intro j
  induction j with
  | zero =>
    intro pos n w hn _ _
    have hn0 : n = 0 := by simpa using hn
    subst hn0
    refine ⟨pos, [], ?_, by simp, by simp, by simp, Or.inl ⟨rfl, rfl⟩⟩
    cases pos <;> simp [encode_base58_div, mpz_get_ui]
  | succ j ih =>
    intro pos n w hn h64 hpos
    have hui : mpz_get_ui n = n := by
      simp only [mpz_get_ui, ULONG_MOD]
      exact Nat.mod_eq_of_lt h64
    by_cases hz : n = 0
    · subst hz
      refine ⟨pos, [], ?_, by simp, by simp, by simp, Or.inl ⟨rfl, rfl⟩⟩
      cases pos <;> simp [encode_base58_div, mpz_get_ui]
    · obtain ⟨p, rfl⟩ : ∃ p, pos = p + 1 := ⟨pos - 1, by omega⟩
      have hlook := b58_lookup ⟨n % 58, Nat.mod_lt n (by decide)⟩
      have hdig := decode_base58_digit_b58 ⟨n % 58, Nat.mod_lt n (by decide)⟩
      simp only at hdig
      have hdiv : n / 58 < 58 ^ j := by
        rw [Nat.div_lt_iff_lt_mul (by decide)]
        rw [pow_succ] at hn
        exact hn
      have hdiv64 : n / 58 < 2 ^ 64 := lt_of_le_of_lt (Nat.div_le_self n 58) h64
      obtain ⟨pos', ds, hrun, hlen, hle, hval, hhead⟩ :=
        ih p (n / 58) (b58.getD (n % 58) 0 :: w) hdiv hdiv64 (by omega)
      have hzu : ¬ mpz_get_ui n = 0 := by rw [hui]; exact hz
      refine ⟨pos', ds ++ [b58.getD (n % 58) 0], ?_, by simp; omega, by simp; omega, ?_, Or.inr ?_⟩
      · simp only [encode_base58_div, bne_iff_ne, ne_eq, hzu, not_false_eq_true, ↓reduceIte,
          hlook.1, Option.bind_eq_bind, Option.some_bind, hrun]
        simp
      · rw [List.foldl_append, hval]
        simp only [List.foldl_cons, List.foldl_nil, hdig]
        exact Nat.div_add_mod' n 58
      · rcases hhead with ⟨hq, rfl⟩ | ⟨c, tl, rfl, hc⟩
        · refine ⟨_, [], rfl, hlook.2 ?_⟩
          simp only
          omega
        · exact ⟨c, tl ++ [b58.getD (n % 58) 0], rfl, hc⟩

theorem count_leading_replicate_of (c : Byte) (k : Nat) (rest : List Byte)
    (hrest : rest.head? ≠ some c) :
    count_leading c (List.replicate k c ++ rest) = k := by
  induction k with
  | zero =>
    cases rest with
    | nil => rfl
    | cons d tl =>
      have : d ≠ c := fun h => hrest (by simp [h])
      simp [count_leading, this]
  | succ k ih => simp [List.replicate_succ, count_leading, ih]

theorem foldl_digits_replicate (k : Nat) (ds : List Byte) :
    (List.replicate k (toByte ('1').toNat) ++ ds).foldl
        (fun p d => p * 58 + (decode_base58_digit d).val) 0
      = ds.foldl (fun p d => p * 58 + (decode_base58_digit d).val) 0 := by
  induction k with
  | zero => simp
  | succ k ih =>
    rw [List.replicate_succ, List.cons_append, List.foldl_cons, decode_base58_digit_one]
    exact ih

theorem mpz_import_append_singleton (init : List Byte) (d : Byte) :
    mpz_import (init ++ [d]) = mpz_import init * 256 + d.val := by
  simp only [mpz_import, List.foldl_append, List.foldl_cons, List.foldl_nil]

theorem mpz_import_pos (rest : List Byte) (hne : rest ≠ []) (hhead : rest.head? ≠ some 0) :
    256 ^ (rest.length - 1) ≤ mpz_import rest := by
  cases rest with
  | nil => exact absurd rfl hne
  | cons d tl =>
    have hd : d ≠ 0 := fun h => hhead (by simp [h])
    have hd1 : 1 ≤ d.val := by
      have : d.val ≠ 0 := fun h => hd (Fin.ext h)
      omega
    rw [mpz_import_cons]
    simp only [List.length_cons, Nat.add_sub_cancel]
    nlinarith [Nat.zero_le (mpz_import tl), Nat.pos_pow_of_pos tl.length (show 0 < 256 by decide)]

theorem mpz_export_aux_import : ∀ (rest : List Byte) (fuel : Nat) (acc : List Byte),
    rest.head? ≠ some 0 → mpz_import rest ≤ fuel →
    mpz_export_aux fuel (mpz_import rest) acc = rest ++ acc := by
  intro rest
  induction rest using List.reverseRecOn with
  | nil =>
    intro fuel acc _ _
    cases fuel <;> simp [mpz_export_aux, mpz_import]
  | append_singleton init d ih =>
    intro fuel acc hhead hfuel
    have hne : init ++ [d] ≠ [] := by simp
    have hpos := mpz_import_pos (init ++ [d]) hne hhead
    have hp : 0 < 256 ^ ((init ++ [d]).length - 1) := Nat.pos_pow_of_pos _ (by decide)
    have himp := mpz_import_append_singleton init d
    have hd := d.isLt
    have hnz : mpz_import (init ++ [d]) ≠ 0 := by omega
    obtain ⟨f, rfl⟩ : ∃ f, fuel = f + 1 := ⟨fuel - 1, by omega⟩
    have hdiv : mpz_import (init ++ [d]) / 256 = mpz_import init := by omega
    have hmod : toByte (mpz_import (init ++ [d]) % 256) = d := by
      apply Fin.ext
      simp only [toByte]
      omega
    have hinit : init.head? ≠ some 0 := by
      cases init with
      | nil => simp
      | cons x tl => simpa using hhead
    simp only [mpz_export_aux, hnz, ↓reduceIte, hdiv, hmod]
    rw [ih f (d :: acc) hinit (by omega)]
    simp

theorem mpz_export_import (rest : List Byte) (hhead : rest.head? ≠ some 0) :
    mpz_export (mpz_import rest) = rest := by
  have := mpz_export_aux_import rest (mpz_import rest) [] hhead (le_refl _)
  simpa [mpz_export] using this

theorem bit_count_bounds : ∀ (fuel n : Nat), n ≤ fuel → n ≠ 0 →
    1 ≤ bit_count fuel n ∧ 2 ^ (bit_count fuel n - 1) ≤ n ∧ n < 2 ^ bit_count fuel n := by
  intro fuel
  induction fuel with
  | zero => intro n h hn; omega
  | succ fuel ih =>
    intro n hle hn
    simp only [bit_count, hn, ↓reduceIte, Nat.add_sub_cancel]
    by_cases h2 : n / 2 = 0
    · have h1 : n = 1 := by omega
      subst h1
      cases fuel <;> simp [bit_count]
    · obtain ⟨hb1, hlo, hhi⟩ := ih (n / 2) (by omega) h2
      refine ⟨by omega, ?_, ?_⟩
      · obtain ⟨c, hc⟩ : ∃ c, bit_count fuel (n / 2) = c + 1 :=
          ⟨bit_count fuel (n / 2) - 1, by omega⟩
        rw [hc] at hlo ⊢
        simp only [Nat.add_sub_cancel] at hlo
        rw [pow_succ]
        omega
      · rw [pow_succ]
        omega

theorem sizeinbase_import (rest : List Byte) (hne : rest ≠ []) (hhead : rest.head? ≠ some 0) :
    (mpz_sizeinbase_2 (mpz_import rest) + 7) / 8 = rest.length := by
  have hpos := mpz_import_pos rest hne hhead
  have hlt := mpz_import_lt rest
  have hp : 0 < 256 ^ (rest.length - 1) := Nat.pos_pow_of_pos _ (by decide)
  have hnz : mpz_import rest ≠ 0 := by omega
  obtain ⟨hb1, hlo, hhi⟩ := bit_count_bounds (mpz_import rest) (mpz_import rest) (le_refl _) hnz
  have hlen : 1 ≤ rest.length := by
    cases rest with
    | nil => exact absurd rfl hne
    | cons _ _ => simp
  have e1 : (256 : Nat) ^ rest.length = 2 ^ (8 * rest.length) := by
    rw [show (256 : Nat) = 2 ^ 8 by norm_num, ← pow_mul]
  have e2 : (256 : Nat) ^ (rest.length - 1) = 2 ^ (8 * (rest.length - 1)) := by
    rw [show (256 : Nat) = 2 ^ 8 by norm_num, ← pow_mul]
  rw [e1] at hlt
  rw [e2] at hpos
  have h1 : bit_count (mpz_import rest) (mpz_import rest) - 1 < 8 * rest.length :=
    (Nat.pow_lt_pow_iff_right (by decide)).mp (lt_of_le_of_lt hlo hlt)
  have h2 : 8 * (rest.length - 1) < bit_count (mpz_import rest) (mpz_import rest) :=
    (Nat.pow_lt_pow_iff_right (by decide)).mp (lt_of_le_of_lt hpos hhi)
  simp only [mpz_sizeinbase_2, hnz, ↓reduceIte]
  omega

theorem decode_base58_of_digits (junk : Nat → Byte) (k : Nat) (rest ds : List Byte)
    (hne : rest ≠ []) (hhead : rest.head? ≠ some 0)
    (hk : rest.length + k < 2 ^ 64)
    (hval : ds.foldl (fun p d => p * 58 + (decode_base58_digit d).val) 0 = mpz_import rest)
    (hds : ds.head? ≠ some (toByte ('1').toNat)) :
    decode_base58 junk (List.replicate k (toByte ('1').toNat) ++ ds)
      = some (List.replicate k 0 ++ rest) := by
  have hlead := count_leading_replicate_of (toByte ('1').toNat) k ds hds
  have hp := (foldl_digits_replicate k ds).trans hval
  have hsz := sizeinbase_import rest hne hhead
  have hexp := mpz_export_import rest hhead
  have hout : (rest.length + k) % U64_MOD = rest.length + k := Nat.mod_eq_of_lt hk
  simp only [decode_base58, hlead, hp, hsz, hexp, hout]
  exact stored_full junk _ _ (by simp; omega)

/-- C31: the base-58 round trip for values below `2 ^ 64`.  For every byte
sequence `b` that holds a non-zero byte, has at most eight bytes after its
leading zero bytes, and is short enough for the reserve computation not to wrap
(`138 * |b| < 2 ^ 64`): the value of `b` is positive and below `2 ^ 64`,
`encode_base58 b` returns a text, and `decode_base58` of that text returns
exactly `b`, whatever the output allocation held before. -/
theorem base58_round_trip_below_two_pow_64 (junk : Nat → Byte) (b : List Byte)
    (hnz : ∃ d ∈ b, d ≠ 0) (h8 : b.length - count_leading 0 b ≤ 8)
    (hsize : b.length * 138 < 2 ^ 64) :
    0 < mpz_import b ∧ mpz_import b < 2 ^ 64
      ∧ ∃ t, encode_base58 b = some t ∧ decode_base58 junk t = some b := by
  obtain ⟨rest, hdata, hhead⟩ := count_leading_split b
  have hne : rest ≠ [] := by
    intro h
    obtain ⟨d, hd, hd0⟩ := hnz
    rw [hdata, h, List.append_nil] at hd
    exact hd0 (List.eq_of_mem_replicate hd)
  have hn : b.length = count_leading 0 b + rest.length := by
    conv_lhs => rw [hdata]
    simp
  have himp : mpz_import b = mpz_import rest := by
    conv_lhs => rw [hdata]
    exact mpz_import_replicate _ rest
  have hlt := mpz_import_lt rest
  have hpos := mpz_import_pos rest hne hhead
  have hp : 0 < 256 ^ (rest.length - 1) := Nat.pos_pow_of_pos _ (by decide)
  have h64 : mpz_import rest < 2 ^ 64 := by
    have : (256 : Nat) ^ rest.length ≤ 256 ^ 8 := Nat.pow_le_pow_right (by decide) (by omega)
    have e : (256 : Nat) ^ 8 = 2 ^ 64 := by norm_num
    omega
  have hcap := pow_256_le_pow_58 rest.length
  have hlen : b.length - count_leading 0 b = rest.length := by omega
  have hres : ((rest.length * 138 % U64_MOD / 100 + 1 + count_leading 0 b) % U64_MOD)
      = rest.length * 138 / 100 + 1 + count_leading 0 b := by
    simp only [U64_MOD]
    norm_num at hsize ⊢
    rw [Nat.mod_eq_of_lt (by omega), Nat.mod_eq_of_lt (by omega)]
  obtain ⟨pos, ds, hrun, hposl, hlenle, hval, hds⟩ :=
    encode_base58_div_value (rest.length * 138 / 100 + 1)
      (rest.length * 138 / 100 + 1 + count_leading 0 b)
      (mpz_import rest) [] (lt_of_lt_of_le hlt hcap) h64 (by omega)
  have hdshead : ds.head? ≠ some (toByte ('1').toNat) := by
    rcases hds with ⟨_, rfl⟩ | ⟨c, tl, rfl, hc⟩
    · simp
    · simpa using hc
  refine ⟨by rw [himp]; omega, by rw [himp]; exact h64,
    List.replicate (count_leading 0 b) (toByte ('1').toNat) ++ ds, ?_, ?_⟩
  · simp only [encode_base58, himp, hlen, hres, hrun, Option.bind_eq_bind, Option.some_bind,
      List.append_nil]
    rw [encode_base58_zeros_spec _ pos ds (by omega)]
    rfl
  · rw [decode_base58_of_digits junk _ rest ds hne hhead (by norm_num at hsize ⊢; omega)
      hval hdshead]
    rw [← hdata]

/-- The base-58 round trip on the bytes `00 00 00 54 65 73 74`. -/
theorem base58_round_trip_below_two_pow_64_witness :
    ((∃ d ∈ [(0 : Byte), 0, 0, 0x54, 0x65, 0x73, 0x74], d ≠ 0)
        ∧ [(0 : Byte), 0, 0, 0x54, 0x65, 0x73, 0x74].length
            - count_leading 0 [(0 : Byte), 0, 0, 0x54, 0x65, 0x73, 0x74] ≤ 8
        ∧ [(0 : Byte), 0, 0, 0x54, 0x65, 0x73, 0x74].length * 138 < 2 ^ 64)
      ∧ ∃ t, encode_base58 [0, 0, 0, 0x54, 0x65, 0x73, 0x74] = some t
          ∧ decode_base58 (fun _ => 0) t = some [0, 0, 0, 0x54, 0x65, 0x73, 0x74] :=
  ⟨⟨⟨0x54, by decide, by decide⟩, by decide, by decide⟩,
    (base58_round_trip_below_two_pow_64 (fun _ => 0) [0, 0, 0, 0x54, 0x65, 0x73, 0x74]
      ⟨0x54, by decide, by decide⟩ (by decide) (by decide)).2.2⟩

end Util
